import Mathlib

/-!
# Dream-Maze: maze generation, exit placement and ray marching

A shallow embedding of `dream-maze.go` and `imposibble-backrooms.go`.

* The global `gameMap [][]int` is a list of rows (`Grid`); a read or write
  whose index is out of range yields `none` (the Go runtime panics there).
* The global `currentSize` is the explicit argument `size`.
* `math/rand` is a stream `rnd : Nat → Nat` of raw draws together with a
  cursor; `rand.Intn n` is the next draw modulo `n`, and `rand.Shuffle` is
  the Fisher-Yates loop of the Go library.
* `float64`: `castRay` and the movement of the player are over exact
  numbers (an arbitrary ordered field, with `cos angle` and `sin angle` as
  arguments). The distances of `placeExit` and the ray angles of `Draw` are
  given twice: in exact arithmetic (`hypotSq`, the square of `math.Hypot`,
  and `rayAngle`), and in binary64 as the code computes them (`hypot64`,
  `placeExit64`, `rayAngle64`, `offset64`), every operation rounded to
  nearest, ties to even. `generateLevel` uses the exact scan `placeExit`; on
  the mazes of the game it marks the same cell as the binary64 scan
  (`placeExit64_corner`).
* The trial count `int(float64(size*size) * chaosRatio)` is computed in
  exact arithmetic; the theorems on the chaos phase hold for every number
  of trials.
* Loops without a syntactic bound take a fuel argument; `none` also stands
  for fuel exhausted. A function that is shown to return `some` therefore
  ends and makes no access out of range.
-/

namespace DreamMaze

/-! ## The grid -/

/-- The map `gameMap`: `0` empty, `1` wall, `2` exit. -/
abbrev Grid := List (List Int)

/-- Read `gameMap[y][x]`. -/
def Grid.read (g : Grid) (y x : Int) : Option Int :=
  if 0 ≤ y ∧ 0 ≤ x then (g[y.toNat]?).bind (fun row => row[x.toNat]?) else none

/-- Assign `gameMap[y][x] = v`. -/
def Grid.write (g : Grid) (y x v : Int) : Option Grid :=
  if 0 ≤ y ∧ 0 ≤ x then
    (g[y.toNat]?).bind (fun row =>
      if x.toNat < row.length then some (g.set y.toNat (row.set x.toNat v)) else none)
  else none

/-- The grid after `make` and the fill loop: `size` rows of `size` walls. -/
def wallGrid (size : Int) : Option Grid :=
  if 0 ≤ size then some (List.replicate size.toNat (List.replicate size.toNat 1)) else none

/-- The local type `cell struct{ x, y int }`. -/
structure Cell where
  x : Int
  y : Int
deriving DecidableEq, Repr

/-- The initial value of `dirs`. -/
def dirs0 : List Cell := [⟨0, -2⟩, ⟨2, 0⟩, ⟨0, 2⟩, ⟨-2, 0⟩]

/-! ## Randomness -/

/-- Draw number `k` of `rand.Intn n`; `none` when `n ≤ 0` (panic). -/
def intn (rnd : Nat → Nat) (k : Nat) (n : Int) : Option Int :=
  if 0 < n then some ((rnd k : Int) % n) else none

/-- The closure `dirs[i], dirs[j] = dirs[j], dirs[i]`. -/
def swapAt (l : List Cell) (i j : Nat) : List Cell :=
  match l[i]?, l[j]? with
  | some a, some b => (l.set i b).set j a
  | _, _ => l

/-- The loop of `rand.Shuffle`: for `i` from `n-1` down to `1`, swap `i`
with a random `j ≤ i`. Returns the list and the advanced cursor. -/
def shuffleLoop (rnd : Nat → Nat) : Nat → Nat → List Cell → List Cell × Nat
  | 0, k, l => (l, k)
  | i + 1, k, l => shuffleLoop rnd i (k + 1) (swapAt l (i + 1) (rnd k % (i + 2)))

/-- The call `rand.Shuffle(len(dirs), swap)`. -/
def shuffle (rnd : Nat → Nat) (k : Nat) (l : List Cell) : List Cell × Nat :=
  shuffleLoop rnd (l.length - 1) k l

/-! ## Carving (identical in both programs) -/

/-- State of the carve loop: the map, the stack (top first), `dirs`, and
the cursor into the random stream. -/
structure CarveState where
  grid : Grid
  stack : List Cell
  dirs : List Cell
  k : Nat

/-- Body of `for _, d := range dirs` for the popped cell `cur`. -/
def carveDir (size : Int) (cur : Cell) (s : Grid × List Cell) (d : Cell) :
    Option (Grid × List Cell) :=
  let nx := cur.x + d.x
  let ny := cur.y + d.y
  if nx > 0 ∧ nx < size - 1 ∧ ny > 0 ∧ ny < size - 1 then
    match s.1.read ny nx with
    | none => none
    | some c =>
      if c = 1 then
        match s.1.write ny nx 0 with
        | none => none
        | some g1 =>
          match g1.write (cur.y + d.y.tdiv 2) (cur.x + d.x.tdiv 2) 0 with
          | none => none
          | some g2 => some (g2, ⟨nx, ny⟩ :: s.2)
      else some s
  else some s

/-- The loop `for len(stack) > 0`. -/
def carveLoop (size : Int) (rnd : Nat → Nat) : Nat → CarveState → Option CarveState
  | fuel, s =>
    match s.stack with
    | [] => some s
    | cur :: rest =>
      match fuel with
      | 0 => none
      | fuel + 1 =>
        let sh := shuffle rnd s.k s.dirs
        match sh.1.foldlM (carveDir size cur) (s.grid, rest) with
        | none => none
        | some r => carveLoop size rnd fuel ⟨r.1, r.2, sh.1, sh.2⟩

/-- Lines 64-97 of `dream-maze.go` (49-93 of `imposibble-backrooms.go`):
allocate, fill with walls, open `(1,1)` and carve. -/
def carve (fuel : Nat) (size : Int) (rnd : Nat → Nat) : Option CarveState :=
  match wallGrid size with
  | none => none
  | some g0 =>
    match g0.write 1 1 0 with
    | none => none
    | some g1 => carveLoop size rnd fuel ⟨g1, [⟨1, 1⟩], dirs0, 0⟩

/-! ## Chaos phase of `dream-maze.go` -/

/-- The `switch level` setting `chaosRatio`, in tenths. -/
def chaosTenths (level : Int) : Int :=
  if level = 1 then 2 else if level = 2 then 6 else if level = 3 then 1 else 0

/-- The `switch level` setting `minOpenNeighbors` (zero value otherwise). -/
def minOpenNeighbors (level : Int) : Int :=
  if level = 1 then 2 else if level = 2 then 1 else if level = 3 then 2 else 0

/-- The trial count `int(float64(currentSize*currentSize) * chaosRatio)`,
in exact arithmetic. -/
def chaosCount (level size : Int) : Nat :=
  ((size * size * chaosTenths level).tdiv 10).toNat

/-- Body of `for _, d := range dirs` in the chaos phase: add one to
`openCount` when the cell at offset `d` is strictly inside and empty. -/
def countDir (size : Int) (g : Grid) (x y : Int) (openCount : Int) (d : Cell) : Option Int :=
  let nx := x + d.x
  let ny := y + d.y
  if nx > 0 ∧ nx < size - 1 ∧ ny > 0 ∧ ny < size - 1 then
    match g.read ny nx with
    | none => none
    | some c => if c = 0 then some (openCount + 1) else some openCount
  else some openCount

/-- One chaos trial on the cell `(x, y)` already drawn. -/
def chaosAt (size minOpen : Int) (dirs : List Cell) (g : Grid) (x y : Int) : Option Grid :=
  match g.read y x with
  | none => none
  | some c =>
    if c = 1 then
      match dirs.foldlM (countDir size g x y) 0 with
      | none => none
      | some openCount => if openCount ≥ minOpen then g.write y x 0 else some g
    else some g

/-- One iteration of the chaos loop: draw `x`, then `y`, then `chaosAt`. -/
def chaosTrial (size minOpen : Int) (rnd : Nat → Nat) (dirs : List Cell)
    (s : Grid × Nat) : Option (Grid × Nat) :=
  match intn rnd s.2 (size - 2), intn rnd (s.2 + 1) (size - 2) with
  | some rx, some ry =>
    match chaosAt size minOpen dirs s.1 (rx + 1) (ry + 1) with
    | none => none
    | some g => some (g, s.2 + 2)
  | _, _ => none

/-- The loop `for i := 0; i < chaosCount; i++`. -/
def chaosLoop (size minOpen : Int) (rnd : Nat → Nat) (dirs : List Cell) :
    Nat → Grid × Nat → Option (Grid × Nat)
  | 0, s => some s
  | n + 1, s =>
    match chaosTrial size minOpen rnd dirs s with
    | none => none
    | some s1 => chaosLoop size minOpen rnd dirs n s1

/-- The function `generateMaze(level)` of `dream-maze.go`. -/
def generateMaze (fuel : Nat) (level size : Int) (rnd : Nat → Nat) : Option Grid :=
  match carve fuel size rnd with
  | none => none
  | some s =>
    match chaosLoop size (minOpenNeighbors level) rnd s.dirs (chaosCount level size)
        (s.grid, s.k) with
    | none => none
    | some r => some r.1

/-! ## Chaos phase of `imposibble-backrooms.go` -/

/-- One `if gameMap[..][..] == 0 { openCount++ }`. -/
def countOpen (g : Grid) (y x : Int) (openCount : Int) : Option Int :=
  match g.read y x with
  | none => none
  | some c => if c = 0 then some (openCount + 1) else some openCount

/-- One chaos trial of the backrooms variant on the cell `(x, y)`. -/
def chaosAtB (g : Grid) (x y : Int) : Option Grid :=
  match g.read y x with
  | none => none
  | some c =>
    if c = 1 then
      match (countOpen g (y + 1) x 0).bind (countOpen g (y - 1) x) |>.bind
          (countOpen g y (x + 1)) |>.bind (countOpen g y (x - 1)) with
      | none => none
      | some openCount => if openCount ≥ 2 then g.write y x 0 else some g
    else some g

/-- One iteration of the backrooms chaos loop. -/
def chaosTrialB (size : Int) (rnd : Nat → Nat) (s : Grid × Nat) : Option (Grid × Nat) :=
  match intn rnd s.2 (size - 2), intn rnd (s.2 + 1) (size - 2) with
  | some rx, some ry =>
    match chaosAtB s.1 (rx + 1) (ry + 1) with
    | none => none
    | some g => some (g, s.2 + 2)
  | _, _ => none

/-- The loop `for i := 0; i < currentSize*currentSize/4; i++`. -/
def chaosLoopB (size : Int) (rnd : Nat → Nat) : Nat → Grid × Nat → Option (Grid × Nat)
  | 0, s => some s
  | n + 1, s =>
    match chaosTrialB size rnd s with
    | none => none
    | some s1 => chaosLoopB size rnd n s1

/-- The function `generateMaze()` of `imposibble-backrooms.go`. -/
def generateMazeB (fuel : Nat) (size : Int) (rnd : Nat → Nat) : Option Grid :=
  match carve fuel size rnd with
  | none => none
  | some s =>
    match chaosLoopB size rnd ((size * size).tdiv 4).toNat (s.grid, s.k) with
    | none => none
    | some r => some r.1

/-! ## Exit placement (identical in both programs) -/

/-- The locals `maxDist`, `ex`, `ey` of `placeExit`; `maxDist` holds the
square of the Go value. -/
structure ExitState where
  maxDist : Int
  ex : Int
  ey : Int
deriving DecidableEq, Repr

/-- Square of `math.Hypot(float64(dx), float64(dy))` in exact arithmetic. -/
def hypotSq (dx dy : Int) : Int := dx * dx + dy * dy

/-- The values `1, 2, .., size-2` of the loop variables of `placeExit`. -/
def interior (size : Int) : List Int :=
  (List.range (size - 2).toNat).map (fun (i : Nat) => (i : Int) + 1)

/-- Body of the inner loop of `placeExit` at column `x` of row `y`. -/
def exitCell (g : Grid) (px py y : Int) (s : ExitState) (x : Int) : Option ExitState :=
  match g.read y x with
  | none => none
  | some c =>
    if c = 0 then
      if hypotSq (px - x) (py - y) > s.maxDist then
        some ⟨hypotSq (px - x) (py - y), x, y⟩
      else some s
    else some s

/-- The inner loop `for x := 1; x < currentSize-1; x++` of row `y`. -/
def exitRow (size : Int) (g : Grid) (px py : Int) (s : ExitState) (y : Int) :
    Option ExitState :=
  (interior size).foldlM (exitCell g px py y) s

/-- The two scan loops of `placeExit`: the final `maxDist`, `ex`, `ey`. -/
def exitScan (size : Int) (g : Grid) (px py : Int) : Option ExitState :=
  (interior size).foldlM (exitRow size g px py) ⟨0, 0, 0⟩

/-- The function `placeExit(px, py)`, the distances compared in exact
arithmetic. -/
def placeExit (size : Int) (g : Grid) (px py : Int) : Option Grid :=
  match exitScan size g px py with
  | none => none
  | some s => g.write s.ey s.ex 2

/-- The method `generateLevel` of `dream-maze.go`. -/
def generateLevel (fuel : Nat) (level size : Int) (rnd : Nat → Nat) : Option Grid :=
  match generateMaze fuel level size rnd with
  | none => none
  | some g => placeExit size g 1 1

/-! ## Ray marching (identical in both programs) -/

section Ray

variable {K : Type} [LinearOrderedField K] [FloorRing K]

/-- The conversion `int(x)` of a float: truncation toward zero. -/
def goInt (x : K) : Int := if 0 ≤ x then ⌊x⌋ else ⌈x⌉

/-- The `for` loop of `castRay`, with `c = cos angle`, `s = sin angle`;
the arguments after the fuel are the locals `distance` and `cell`. -/
def castRayLoop (size : Int) (g : Grid) (px py c s step : K) :
    Nat → K → Int → Option (K × Int)
  | 0, _, _ => none
  | fuel + 1, distance, cell =>
    let x := px + c * distance
    let y := py + s * distance
    if goInt x < 0 ∨ goInt x ≥ size ∨ goInt y < 0 ∨ goInt y ≥ size then
      some (distance, cell)
    else
      match g.read (goInt y) (goInt x) with
      | none => none
      | some cell1 =>
        if cell1 = 1 ∨ cell1 = 2 then some (distance, cell1)
        else castRayLoop size g px py c s step fuel (distance + step) cell1

/-- The function `castRay(px, py, angle)` with `c = cos angle` and
`s = sin angle`. -/
def castRay (fuel : Nat) (size : Int) (g : Grid) (px py c s : K) : Option (K × Int) :=
  match castRayLoop size g px py c s (5 / 100) fuel 0 0 with
  | none => none
  | some r => some (if r.1 = 0 then 1 / 10 else r.1, r.2)

end Ray

/-! ## Level growth -/

/-- The new `currentSize` on level-up in `dream-maze.go`. -/
def nextSize (currentSize : Int) : Int :=
  if (currentSize + 12).tmod 2 = 0 then currentSize + 12 + 1 else currentSize + 12

/-- The new `currentSize` on level-up in `imposibble-backrooms.go`. -/
def nextSizeB (currentSize : Int) : Int :=
  if (currentSize + 10).tmod 2 = 0 then currentSize + 10 + 1 else currentSize + 10

/-! ## Vocabulary of the properties -/

/-- The grid is `n` rows of `n` cells. -/
def Dim (n : Nat) (g : Grid) : Prop := g.length = n ∧ ∀ row ∈ g, row.length = n

/-- Cells `p` and `q` (as `(x, y)`) are orthogonally adjacent and both empty. -/
def OpenStep (g : Grid) (p q : Int × Int) : Prop :=
  g.read p.2 p.1 = some 0 ∧ g.read q.2 q.1 = some 0 ∧
    ((q.1 = p.1 ∧ (q.2 = p.2 + 1 ∨ q.2 = p.2 - 1)) ∨
     (q.2 = p.2 ∧ (q.1 = p.1 + 1 ∨ q.1 = p.1 - 1)))

/-- Cell `(x, y)` is joined to `(1,1)` by a path of 4-connected empty cells. -/
def Reach (g : Grid) (x y : Int) : Prop :=
  Relation.ReflTransGen (OpenStep g) (1, 1) (x, y)

/-- The four unit steps; `dirs0` holds their doubles. -/
def UnitDir (ux uy : Int) : Prop :=
  (ux = 0 ∧ (uy = 1 ∨ uy = -1)) ∨ (uy = 0 ∧ (ux = 1 ∨ ux = -1))

/-- What holds of the map at every moment of the carve: it is `n` by `n`,
holds only `0` and `1`, its empty cells are strictly inside, never at two
even coordinates, all joined to `(1,1)`, and an empty cell with an even
coordinate lies between two empty cells of odd coordinates. -/
structure GInv (n : Nat) (g : Grid) : Prop where
  dim : Dim n g
  bin : ∀ y x c, g.read y x = some c → c = 0 ∨ c = 1
  inter : ∀ y x, g.read y x = some 0 → 0 < x ∧ x < (n : Int) - 1 ∧ 0 < y ∧ y < (n : Int) - 1
  par : ∀ y x, g.read y x = some 0 → x % 2 = 1 ∨ y % 2 = 1
  start : g.read 1 1 = some 0
  reach : ∀ y x, g.read y x = some 0 → Reach g x y
  ends : ∀ y x, g.read y x = some 0 →
    (x % 2 = 0 → g.read y (x - 1) = some 0 ∧ g.read y (x + 1) = some 0) ∧
    (y % 2 = 0 → g.read (y - 1) x = some 0 ∧ g.read (y + 1) x = some 0)

/-- One successful `if` of the carve: from the empty cell `(cx, cy)` of odd
coordinates, in direction `(ux, uy)`, the wall two steps away and the wall in
between are emptied, and nothing else changes. -/
structure Carved (n : Nat) (g g1 : Grid) (cx cy ux uy : Int) : Prop where
  unit : UnitDir ux uy
  cur_open : g.read cy cx = some 0
  cur_odd : cx % 2 = 1 ∧ cy % 2 = 1
  nb_in : 0 < cx + 2 * ux ∧ cx + 2 * ux < (n : Int) - 1 ∧
    0 < cy + 2 * uy ∧ cy + 2 * uy < (n : Int) - 1
  nb_wall : g.read (cy + 2 * uy) (cx + 2 * ux) = some 1
  dim : Dim n g1
  rd : ∀ y x, g1.read y x =
    if (x = cx + 2 * ux ∧ y = cy + 2 * uy) ∨ (x = cx + ux ∧ y = cy + uy) then some 0
    else g.read y x

/-- The map `g1` arises from `g` by finitely many carve steps. -/
inductive CarveSeq (n : Nat) : Grid → Grid → Prop
  | refl (g : Grid) : CarveSeq n g g
  | step {g g1 g2 : Grid} {cx cy ux uy : Int} :
      CarveSeq n g g1 → Carved n g1 g2 cx cy ux uy → CarveSeq n g g2

/-- All interior neighbours two steps from `(x, y)` are empty. -/
def Closed (n : Nat) (g : Grid) (x y : Int) : Prop :=
  ∀ ux uy, UnitDir ux uy →
    0 < x + 2 * ux → x + 2 * ux < (n : Int) - 1 → 0 < y + 2 * uy → y + 2 * uy < (n : Int) - 1 →
    g.read (y + 2 * uy) (x + 2 * ux) = some 0

/-- All cells of an `n` by `n` map, as `(x, y)`. -/
def cells (n : Nat) : Finset (Int × Int) := Finset.Ico 0 (n : Int) ×ˢ Finset.Ico 0 (n : Int)

/-- The wall cells of the map. -/
def walls (n : Nat) (g : Grid) : Finset (Int × Int) :=
  (cells n).filter (fun p => g.read p.2 p.1 = some 1)

/-- Invariant of the loop `for len(stack) > 0`. -/
structure LoopInv (n : Nat) (g0 : Grid) (s : CarveState) : Prop where
  seq : CarveSeq n g0 s.grid
  ginv : GInv n s.grid
  stk : ∀ c ∈ s.stack, c.x % 2 = 1 ∧ c.y % 2 = 1 ∧ s.grid.read c.y c.x = some 0
  closed : ∀ y x, x % 2 = 1 → y % 2 = 1 → s.grid.read y x = some 0 →
    (⟨x, y⟩ : Cell) ∈ s.stack ∨ Closed n s.grid x y
  dirs : s.dirs.Perm dirs0

/-- What holds of the map of either program after the chaos phase: it is
`n` by `n`, holds only `0` and `1`, its empty cells are strictly inside
and all joined to `(1,1)`. -/
structure MInv (n : Nat) (g : Grid) : Prop where
  dim : Dim n g
  bin : ∀ y x c, g.read y x = some c → c = 0 ∨ c = 1
  inter : ∀ y x, g.read y x = some 0 → 0 < x ∧ x < (n : Int) - 1 ∧ 0 < y ∧ y < (n : Int) - 1
  start : g.read 1 1 = some 0
  reach : ∀ y x, g.read y x = some 0 → Reach g x y

/-- Every cell of two odd coordinates strictly inside the grid is empty. -/
def Complete (n : Nat) (g : Grid) : Prop :=
  ∀ y x, x % 2 = 1 → y % 2 = 1 → 0 < x → x < (n : Int) - 1 → 0 < y → y < (n : Int) - 1 →
    g.read y x = some 0

/-- Cell `(x, y)` is scanned by `placeExit` before the position `(x0, y0)`. -/
def Before (x y x0 y0 : Int) : Prop := y < y0 ∨ (y = y0 ∧ x < x0)

/-- Invariant of the scan of `placeExit` when it stands at `(x0, y0)`:
`maxDist` bounds the squared distance of every empty cell scanned so far,
and either nothing was selected, or the selected cell is an empty interior
cell at squared distance `maxDist > 0` which no earlier cell attains. -/
structure ScanInv (n : Nat) (g : Grid) (px py x0 y0 : Int) (s : ExitState) : Prop where
  le : ∀ x y, 0 < x → x < (n : Int) - 1 → 0 < y → y < (n : Int) - 1 → Before x y x0 y0 →
    g.read y x = some 0 → hypotSq (px - x) (py - y) ≤ s.maxDist
  sel : s = ⟨0, 0, 0⟩ ∨
    (0 < s.ex ∧ s.ex < (n : Int) - 1 ∧ 0 < s.ey ∧ s.ey < (n : Int) - 1 ∧
      Before s.ex s.ey x0 y0 ∧ g.read s.ey s.ex = some 0 ∧
      s.maxDist = hypotSq (px - s.ex) (py - s.ey) ∧ 0 < s.maxDist ∧
      ∀ x y, 0 < x → x < (n : Int) - 1 → 0 < y → y < (n : Int) - 1 →
        Before x y s.ex s.ey → g.read y x = some 0 → hypotSq (px - x) (py - y) < s.maxDist)

/-- The empty cells of the map with two odd coordinates. -/
def latticeOpen (n : Nat) (g : Grid) : Finset (Int × Int) :=
  (cells n).filter (fun p => (p.1 % 2 = 1 ∧ p.2 % 2 = 1) ∧ g.read p.2 p.1 = some 0)

/-- The empty cells of the map with an even coordinate. -/
def connectorOpen (n : Nat) (g : Grid) : Finset (Int × Int) :=
  (cells n).filter (fun p => ¬ (p.1 % 2 = 1 ∧ p.2 % 2 = 1) ∧ g.read p.2 p.1 = some 0)

/-- The graph of the maze: vertex `(i, j)` stands for the cell
`(2i+1, 2j+1)`; two vertices next to each other in a row or a column are
joined when the cell between them, `(i+i1+1, j+j1+1)`, is empty. -/
def mazeGraph (k : Nat) (g : Grid) : SimpleGraph (Fin k × Fin k) where
  Adj a b :=
    ((a.1 = b.1 ∧ (a.2.val + 1 = b.2.val ∨ b.2.val + 1 = a.2.val)) ∨
      (a.2 = b.2 ∧ (a.1.val + 1 = b.1.val ∨ b.1.val + 1 = a.1.val))) ∧
    g.read ((a.2.val : Int) + (b.2.val : Int) + 1) ((a.1.val : Int) + (b.1.val : Int) + 1) = some 0
  symm := by
    intro a b h
    refine ⟨?_, ?_⟩
    · rcases h.1 with ⟨h1, h2⟩ | ⟨h1, h2⟩
      · exact Or.inl ⟨h1.symm, h2.symm⟩
      · exact Or.inr ⟨h1.symm, h2.symm⟩
    · have e1 : (b.2.val : Int) + (a.2.val : Int) + 1 = (a.2.val : Int) + (b.2.val : Int) + 1 := by
        ring
      have e2 : (b.1.val : Int) + (a.1.val : Int) + 1 = (a.1.val : Int) + (b.1.val : Int) + 1 := by
        ring
      rw [e1, e2]
      exact h.2
  loopless := by
    intro a h
    rcases h.1 with ⟨_, h2⟩ | ⟨_, h2⟩ <;> omega

/-- What the carve keeps true of the maze graph: it has no cycle, any two
empty cells of odd coordinates are joined in it, and there is one more empty
cell of odd coordinates than empty cells with an even coordinate. -/
structure TInv (n k : Nat) (g : Grid) : Prop where
  acyc : (mazeGraph k g).IsAcyclic
  conn : ∀ u v : Fin k × Fin k,
    g.read (2 * (u.2.val : Int) + 1) (2 * (u.1.val : Int) + 1) = some 0 →
    g.read (2 * (v.2.val : Int) + 1) (2 * (v.1.val : Int) + 1) = some 0 →
    (mazeGraph k g).Reachable u v
  cnt : (latticeOpen n g).card = (connectorOpen n g).card + 1

/-! ## The game state and `Update` of `dream-maze.go` -/

/-- The type `Player`. -/
structure Player (K : Type) where
  x : K
  y : K
  angle : K
  speed : K

/-- The type `Game` (without the images), together with the globals
`currentSize` and `gameMap`. -/
structure Game (K : Type) where
  player : Player K
  level : Int
  finished : Bool
  currentSize : Int
  gameMap : Grid

/-- What the keyboard reports to one `Update`: `W`, `S`, `A`, `D` held, and
`R` just pressed. -/
structure Keys where
  w : Bool
  s : Bool
  a : Bool
  d : Bool
  r : Bool

/-- The test `if gameMap[int(ny)][int(nx)] != 1 { p.x = nx; p.y = ny }`. -/
def tryMove {K : Type} [LinearOrderedField K] [FloorRing K] (g : Grid) (p : Player K)
    (nx ny : K) : Option (Player K) :=
  match g.read (goInt ny) (goInt nx) with
  | none => none
  | some c => if c ≠ 1 then some ⟨nx, ny, p.angle, p.speed⟩ else some p

/-- The four key tests of `Update`: forward, backward, turn left, turn right. -/
def movePhase {K : Type} [LinearOrderedField K] [FloorRing K] (cos sin : K → K) (g : Grid)
    (keys : Keys) (p : Player K) : Option (Player K) :=
  match (if keys.w then
      tryMove g p (p.x + cos p.angle * p.speed) (p.y + sin p.angle * p.speed)
    else some p) with
  | none => none
  | some p1 =>
    match (if keys.s then
        tryMove g p1 (p1.x - cos p1.angle * p1.speed) (p1.y - sin p1.angle * p1.speed)
      else some p1) with
    | none => none
    | some p2 =>
      let p3 : Player K := if keys.a then ⟨p2.x, p2.y, p2.angle - 5 / 100, p2.speed⟩ else p2
      some (if keys.d then ⟨p3.x, p3.y, p3.angle + 5 / 100, p3.speed⟩ else p3)

/-- The method `Update` of `dream-maze.go`. Every call of `generateMaze`
seeds the generator anew, so each `Update` has its own random sequence. -/
def Update {K : Type} [LinearOrderedField K] [FloorRing K] (cos sin : K → K) (fuel : Nat)
    (rnd : Nat → Nat) (keys : Keys) (g : Game K) : Option (Game K) :=
  if g.finished then
    if keys.r then
      match generateLevel fuel 1 31 rnd with
      | none => none
      | some m => some ⟨⟨3 / 2, 3 / 2, 0, g.player.speed⟩, 1, false, 31, m⟩
    else some g
  else
    match movePhase cos sin g.gameMap keys g.player with
    | none => none
    | some p =>
      match g.gameMap.read (goInt p.y) (goInt p.x) with
      | none => none
      | some c =>
        if c = 2 then
          if g.level = 4 then some ⟨p, g.level, true, g.currentSize, g.gameMap⟩
          else
            match generateLevel fuel (g.level + 1) (nextSize g.currentSize) rnd with
            | none => none
            | some m =>
              some ⟨⟨3 / 2, 3 / 2, 0, p.speed⟩, g.level + 1, false, nextSize g.currentSize, m⟩
        else some ⟨p, g.level, false, g.currentSize, g.gameMap⟩

/-- The state `main` hands to the game loop: level 1, size 31, a fresh maze. -/
def initGame {K : Type} [LinearOrderedField K] (fuel : Nat) (rnd : Nat → Nat) :
    Option (Game K) :=
  match generateLevel fuel 1 31 rnd with
  | none => none
  | some m => some ⟨⟨3 / 2, 3 / 2, 0, 1 / 10⟩, 1, false, 31, m⟩

/-- The state `g1` is reached from `g` by finitely many calls of `Update`,
each with its own keys and random sequence. -/
inductive Run {K : Type} [LinearOrderedField K] [FloorRing K] (cos sin : K → K) :
    Game K → Game K → Prop
  | refl (g : Game K) : Run cos sin g g
  | step {g g1 g2 : Game K} (fuel : Nat) (rnd : Nat → Nat) (keys : Keys) :
      Run cos sin g g1 → Update cos sin fuel rnd keys g1 = some g2 → Run cos sin g g2

/-- What holds of every state the game can be in once the player stands on
a cell that is not a wall: the map is `currentSize` square with an odd side
of at least 5 and a border of walls, the speed is at most one cell, and the
player stands inside the map on a cell that is not a wall. -/
structure Safe {K : Type} [LinearOrderedField K] [FloorRing K] (g : Game K) : Prop where
  size : ∃ n : Nat, g.currentSize = n ∧ 5 ≤ n ∧ n % 2 = 1 ∧ Dim n g.gameMap
  border : ∀ x y : Int, 0 ≤ x → x < g.currentSize → 0 ≤ y → y < g.currentSize →
    (x = 0 ∨ x = g.currentSize - 1 ∨ y = 0 ∨ y = g.currentSize - 1) →
    g.gameMap.read y x = some 1
  speed : 0 ≤ g.player.speed ∧ g.player.speed ≤ 1
  pos : 0 ≤ g.player.x ∧ 0 ≤ g.player.y
  cell : ∃ c, g.gameMap.read (goInt g.player.y) (goInt g.player.x) = some c ∧ c ≠ 1

/-! ## Drawing of `dream-maze.go` -/

/-- A colour `color.RGBA`; each channel is a `uint8`, kept as a number in `0..255`. -/
structure RGBA where
  r : Int
  g : Int
  b : Int
  a : Int
deriving DecidableEq, Repr

/-- The function `getWallColor(cell, distance, level)` of `dream-maze.go`.
Arithmetic on `uint8` is arithmetic modulo 256; `flicker` is the draw
`rand.Intn(20)`. -/
def getWallColor {K : Type} [LinearOrderedField K] [FloorRing K] (_cell : Int) (distance : K)
    (level : Int) (flicker : Int) : RGBA :=
  let shade : Int := goInt (200 / (1 + distance * (1 / 10))) % 256
  if level = 1 then ⟨(shade - 10) % 256, shade, (shade + 20) % 256, 255⟩
  else if level = 2 then
    ⟨(shade + flicker % 256) % 256, (shade - 40) % 256, (shade - 30) % 256, 255⟩
  else if level = 3 then ⟨(shade + 10) % 256, (shade + 10) % 256, shade, 255⟩
  else if level = 4 then
    ⟨goInt ((shade : K) * (8 / 10)) % 256, goInt ((shade : K) * (11 / 10)) % 256,
      goInt ((shade : K) * (6 / 10)) % 256, 255⟩
  else ⟨shade, shade, shade, 255⟩

/-! ## Samples of a ray -/

/-- The whole number nearest to `m`, the even one of the two when `m` lies
half way between them. -/
def nearestEven (m : ℚ) : Int :=
  let f : Int := ⌊m⌋
  if m - f < 1 / 2 then f
  else if 1 / 2 < m - f then f + 1
  else if f % 2 = 0 then f else f + 1

/-- The `float64` value of an operation whose exact result is `q`: `q`
rounded to the nearest number with a significand of 53 bits, ties to even.
The range of the exponent is not modelled: no overflow and no subnormal
numbers. -/
def round64 (q : ℚ) : ℚ :=
  if q = 0 then 0
  else
    let ulp : ℚ := 2 ^ (Int.log 2 |q| - 52)
    if 0 < q then nearestEven (q / ulp) * ulp else -(nearestEven (-q / ulp) * ulp)

/-- The function `math.Sqrt` on `float64`: the square root rounded to the
nearest number with a significand of 53 bits. -/
def sqrt64 (x : ℚ) : ℚ :=
  if x ≤ 0 then 0
  else
    let ulp : ℚ := 2 ^ (Int.log 2 x / 2 - 52)
    let t : ℚ := x / (ulp * ulp)
    let f : Nat := Nat.sqrt ⌊t⌋₊
    let n : Nat :=
      if t < ((f : ℚ) + 1 / 2) ^ 2 then f
      else if ((f : ℚ) + 1 / 2) ^ 2 < t then f + 1
      else if f % 2 = 0 then f else f + 1
    n * ulp

/-- The function `math.Hypot(p, q)` of the Go library on finite arguments:
with `hi` the larger and `lo` the smaller of `|p|` and `|q|`, it returns 0
when `hi` is 0 and `hi * Sqrt(1 + (lo/hi)*(lo/hi))` otherwise, each
operation rounded on its own (the routine for amd64 and the portable
routine without fused multiply-add). -/
def mathHypot (p q : ℚ) : ℚ :=
  let hi := max |p| |q|
  let lo := min |p| |q|
  if hi = 0 then 0
  else
    let r := round64 (lo / hi)
    round64 (hi * sqrt64 (round64 (1 + round64 (r * r))))

/-- The value an `int` expression has in the 64 bits of Go's `int`. -/
def wrap64 (v : Int) : Int := (v + 2 ^ 63) % 2 ^ 64 - 2 ^ 63

/-- The distance `math.Hypot(float64(px-x), float64(py-y))` of `placeExit`
as the code computes it, for the differences `dx = px - x` and `dy = py - y`. -/
def hypot64 (dx dy : Int) : ℚ :=
  mathHypot (round64 ((wrap64 dx : Int) : ℚ)) (round64 ((wrap64 dy : Int) : ℚ))

/-! ## Exit placement with the distances in binary64 -/

/-- The locals `maxDist`, `ex`, `ey` of `placeExit`, `maxDist` a `float64`. -/
structure ExitState64 where
  maxDist : ℚ
  ex : Int
  ey : Int

/-- Body of the inner loop of `placeExit` at column `x` of row `y`, the
distance computed in binary64. -/
def exitCell64 (g : Grid) (px py y : Int) (s : ExitState64) (x : Int) : Option ExitState64 :=
  match g.read y x with
  | none => none
  | some c =>
    if c = 0 then
      if hypot64 (px - x) (py - y) > s.maxDist then
        some ⟨hypot64 (px - x) (py - y), x, y⟩
      else some s
    else some s

/-- The inner loop `for x := 1; x < currentSize-1; x++` of row `y`. -/
def exitRow64 (size : Int) (g : Grid) (px py : Int) (s : ExitState64) (y : Int) :
    Option ExitState64 :=
  (interior size).foldlM (exitCell64 g px py y) s

/-- The two scan loops of `placeExit`: the final `maxDist`, `ex`, `ey`. -/
def exitScan64 (size : Int) (g : Grid) (px py : Int) : Option ExitState64 :=
  (interior size).foldlM (exitRow64 size g px py) ⟨0, 0, 0⟩

/-- The function `placeExit(px, py)` with the distances in binary64, as the
code computes them. -/
def placeExit64 (size : Int) (g : Grid) (px py : Int) : Option Grid :=
  match exitScan64 size g px py with
  | none => none
  | some s => g.write s.ey s.ex 2

/-- Invariant of the scan of `placeExit64` when it stands at `(x0, y0)`:
`maxDist` bounds the computed distance of every empty cell scanned so far,
and either nothing was selected, or the selected cell is an empty interior
cell at the computed distance `maxDist > 0` which no earlier cell attains. -/
structure ScanInv64 (n : Nat) (g : Grid) (px py x0 y0 : Int) (s : ExitState64) : Prop where
  le : ∀ x y, 0 < x → x < (n : Int) - 1 → 0 < y → y < (n : Int) - 1 → Before x y x0 y0 →
    g.read y x = some 0 → hypot64 (px - x) (py - y) ≤ s.maxDist
  sel : s = ⟨0, 0, 0⟩ ∨
    (0 < s.ex ∧ s.ex < (n : Int) - 1 ∧ 0 < s.ey ∧ s.ey < (n : Int) - 1 ∧
      Before s.ex s.ey x0 y0 ∧ g.read s.ey s.ex = some 0 ∧
      s.maxDist = hypot64 (px - s.ex) (py - s.ey) ∧ 0 < s.maxDist ∧
      ∀ x y, 0 < x → x < (n : Int) - 1 → 0 < y → y < (n : Int) - 1 →
        Before x y s.ex s.ey → g.read y x = some 0 → hypot64 (px - x) (py - y) < s.maxDist)

/-! ## The ray angles of `Draw` in binary64 -/

theorem grid_read_bounds {n : Nat} {g : Grid} (hd : Dim n g) {y x c : Int}
    (h : g.read y x = some c) : 0 ≤ y ∧ y < n ∧ 0 ≤ x ∧ x < n := by
  unfold Grid.read at h
  split at h
  · rename_i hyx
    cases hrow : g[y.toNat]? with
    | none => simp [hrow] at h
    | some row =>
      simp only [hrow, Option.some_bind] at h
      have h1 := (List.getElem?_eq_some_iff.1 hrow)
      obtain ⟨hlt, hget⟩ := h1
      have hmem : row ∈ g := hget ▸ List.getElem_mem hlt
      have h2 := (List.getElem?_eq_some_iff.1 h).1
      have := hd.2 row hmem
      have := hd.1
      omega
  · simp at h

theorem grid_read_some_of_inb {n : Nat} {g : Grid} (hd : Dim n g) {y x : Int}
    (hy0 : 0 ≤ y) (hy : y < n) (hx0 : 0 ≤ x) (hx : x < n) : ∃ c, g.read y x = some c := by
  unfold Grid.read
  have hlt : y.toNat < g.length := by have := hd.1; omega
  have hrl : (g[y.toNat]).length = n := hd.2 _ (List.getElem_mem hlt)
  have hxl : x.toNat < (g[y.toNat]).length := by omega
  refine ⟨(g[y.toNat])[x.toNat], ?_⟩
  simp [hy0, hx0, List.getElem?_eq_getElem hlt, List.getElem?_eq_getElem hxl]

theorem grid_write_spec {g g1 : Grid} {y x v : Int} (h : g.write y x v = some g1) :
    (∀ n, Dim n g → Dim n g1) ∧
    ∀ y1 x1, g1.read y1 x1 = if y1 = y ∧ x1 = x then some v else g.read y1 x1 := by
  unfold Grid.write at h
  split at h
  · rename_i hyx
    cases hrow : g[y.toNat]? with
    | none => simp [hrow] at h
    | some row =>
      simp only [hrow, Option.some_bind] at h
      split at h
      · rename_i hxl
        simp only [Option.some.injEq] at h
        subst h
        obtain ⟨hlt, hget⟩ := List.getElem?_eq_some_iff.1 hrow
        constructor
        · intro n hd
          refine ⟨by simpa using hd.1, ?_⟩
          intro r hr
          rcases List.mem_or_eq_of_mem_set hr with h1 | h1
          · exact hd.2 r h1
          · subst h1
            simpa using hd.2 row (hget ▸ List.getElem_mem hlt)
        · intro y1 x1
          unfold Grid.read
          by_cases hy1 : 0 ≤ y1 ∧ 0 ≤ x1
          · simp only [hy1, and_self, if_true]
            by_cases hyy : y1 = y
            · subst hyy
              simp only [true_and, List.getElem?_set_self hlt, Option.some_bind, hrow]
              by_cases hxx : x1 = x
              · subst hxx
                simp [List.getElem?_set_self hxl]
              · have : x.toNat ≠ x1.toNat := by omega
                simp [hxx, List.getElem?_set_ne this]
            · have : y.toNat ≠ y1.toNat := by omega
              simp [hyy, List.getElem?_set_ne this]
          · simp only [hy1, if_false]
            have : ¬ (y1 = y ∧ x1 = x) := by
              rintro ⟨rfl, rfl⟩; exact hy1 hyx
            simp [this]
      · simp at h
  · simp at h

theorem grid_write_some_of_inb {n : Nat} {g : Grid} (hd : Dim n g) {y x : Int} (v : Int)
    (hy0 : 0 ≤ y) (hy : y < n) (hx0 : 0 ≤ x) (hx : x < n) : ∃ g1, g.write y x v = some g1 := by
  unfold Grid.write
  have hlt : y.toNat < g.length := by have := hd.1; omega
  have hrl : (g[y.toNat]).length = n := hd.2 _ (List.getElem_mem hlt)
  have hxl : x.toNat < (g[y.toNat]).length := by omega
  simp only [hy0, hx0, and_self, if_true, List.getElem?_eq_getElem hlt, Option.some_bind, hxl]
  exact ⟨_, rfl⟩

theorem wallGrid_spec (size : Int) (h : 0 ≤ size) :
    ∃ g, wallGrid size = some g ∧ Dim size.toNat g ∧
      ∀ y x, 0 ≤ y → y < size → 0 ≤ x → x < size → g.read y x = some 1 := by
  refine ⟨List.replicate size.toNat (List.replicate size.toNat 1), by simp [wallGrid, h],
    ⟨by simp, ?_⟩, ?_⟩
  · intro row hr
    rw [List.mem_replicate] at hr
    simp [hr.2]
  · intro y x hy0 hy hx0 hx
    have h1 : y.toNat < size.toNat := by omega
    have h2 : x.toNat < size.toNat := by omega
    simp [Grid.read, hy0, hx0, List.getElem?_replicate, h1, h2]

/-! ## The map invariant along the carve -/

theorem carved_mono {n : Nat} {g g1 : Grid} {cx cy ux uy : Int}
    (h : Carved n g g1 cx cy ux uy) {y x : Int} (ho : g.read y x = some 0) :
    g1.read y x = some 0 := by
  rw [h.rd]; split
  · rfl
  · exact ho

theorem reach_mono {g g1 : Grid} (hm : ∀ y x, g.read y x = some 0 → g1.read y x = some 0)
    {x y : Int} (h : Reach g x y) : Reach g1 x y := by
  unfold Reach at *
  refine Relation.ReflTransGen.mono ?_ h
  rintro p q ⟨hp, hq, hadj⟩
  exact ⟨hm _ _ hp, hm _ _ hq, hadj⟩

theorem reach_step {g : Grid} {x y x1 y1 : Int} (h : Reach g x y)
    (ho : g.read y x = some 0) (ho1 : g.read y1 x1 = some 0)
    (hadj : (x1 = x ∧ (y1 = y + 1 ∨ y1 = y - 1)) ∨ (y1 = y ∧ (x1 = x + 1 ∨ x1 = x - 1))) :
    Reach g x1 y1 :=
  Relation.ReflTransGen.tail h ⟨ho, ho1, hadj⟩

theorem ginv_carved {n : Nat} {g g1 : Grid} {cx cy ux uy : Int} (hg : GInv n g)
    (h : Carved n g g1 cx cy ux uy) : GInv n g1 := by
  have hci := hg.inter _ _ h.cur_open
  have hu := h.unit
  have hnb := h.nb_in
  have hodd := h.cur_odd
  have hmid : g1.read (cy + uy) (cx + ux) = some 0 := by rw [h.rd]; simp
  have hnbo : g1.read (cy + 2 * uy) (cx + 2 * ux) = some 0 := by rw [h.rd]; simp
  have hcur : g1.read cy cx = some 0 := carved_mono h h.cur_open
  have hrm : Reach g1 (cx + ux) (cy + uy) := by
    refine reach_step (reach_mono (fun _ _ => carved_mono h) (hg.reach _ _ h.cur_open)) hcur hmid ?_
    unfold UnitDir at hu; omega
  have hrn : Reach g1 (cx + 2 * ux) (cy + 2 * uy) := by
    refine reach_step hrm hmid hnbo ?_
    unfold UnitDir at hu; omega
  refine ⟨h.dim, ?_, ?_, ?_, carved_mono h hg.start, ?_, ?_⟩
  · intro y x c hc
    rw [h.rd] at hc
    split at hc
    · left; simpa using hc.symm
    · exact hg.bin _ _ _ hc
  · intro y x hc
    rw [h.rd] at hc
    split at hc
    · rename_i hh; unfold UnitDir at hu; omega
    · exact hg.inter _ _ hc
  · intro y x hc
    rw [h.rd] at hc
    split at hc
    · rename_i hh; unfold UnitDir at hu; omega
    · exact hg.par _ _ hc
  · intro y x hc
    rw [h.rd] at hc
    split at hc
    · rename_i hh
      rcases hh with ⟨rfl, rfl⟩ | ⟨rfl, rfl⟩
      · exact hrn
      · exact hrm
    · exact reach_mono (fun _ _ => carved_mono h) (hg.reach _ _ hc)
  · intro y x hc
    rw [h.rd] at hc
    split at hc
    · rename_i hh
      rcases hh with ⟨rfl, rfl⟩ | ⟨rfl, rfl⟩
      · constructor <;> intro he <;> exfalso <;> unfold UnitDir at hu <;> omega
      · constructor
        · intro he
          have hux : ux = 1 ∨ ux = -1 := by unfold UnitDir at hu; omega
          have huy : uy = 0 := by unfold UnitDir at hu; omega
          subst huy
          rcases hux with rfl | rfl
          · constructor
            · simpa using hcur
            · have : cx + 1 + 1 = cx + 2 * 1 := by ring
              rw [this]; simpa using hnbo
          · constructor
            · have : cx + -1 - 1 = cx + 2 * (-1) := by ring
              rw [this]; simpa using hnbo
            · simpa using hcur
        · intro he
          have huy : uy = 1 ∨ uy = -1 := by unfold UnitDir at hu; omega
          have hux : ux = 0 := by unfold UnitDir at hu; omega
          subst hux
          rcases huy with rfl | rfl
          · constructor
            · simpa using hcur
            · have : cy + 1 + 1 = cy + 2 * 1 := by ring
              rw [this]; simpa using hnbo
          · constructor
            · have : cy + -1 - 1 = cy + 2 * (-1) := by ring
              rw [this]; simpa using hnbo
            · simpa using hcur
    · have := hg.ends _ _ hc
      exact ⟨fun he => ⟨carved_mono h (this.1 he).1, carved_mono h (this.1 he).2⟩,
        fun he => ⟨carved_mono h (this.2 he).1, carved_mono h (this.2 he).2⟩⟩

theorem ginv_carveSeq {n : Nat} {g g1 : Grid} (hg : GInv n g) (h : CarveSeq n g g1) :
    GInv n g1 := by
  induction h with
  | refl => exact hg
  | step _ hc ih => exact ginv_carved ih hc

theorem carveSeq_mono {n : Nat} {g g1 : Grid} (h : CarveSeq n g g1) {y x : Int}
    (ho : g.read y x = some 0) : g1.read y x = some 0 := by
  induction h with
  | refl => exact ho
  | step _ hc ih => exact carved_mono hc ih

/-- The map at the start of the carve loop: all walls but `(1,1)`. -/
theorem start_spec {n : Nat} (hn : 3 ≤ n) :
    ∃ g0 g1, wallGrid n = some g0 ∧ g0.write 1 1 0 = some g1 ∧ GInv n g1 ∧
      (∀ y x, g1.read y x = some 0 → x = 1 ∧ y = 1) := by
  obtain ⟨g0, h0, hd0, hr0⟩ := wallGrid_spec (n : Int) (by omega)
  simp only [Int.toNat_ofNat] at hd0
  obtain ⟨g1, h1⟩ := grid_write_some_of_inb hd0 (y := 1) (x := 1) 0 (by omega) (by omega)
    (by omega) (by omega)
  obtain ⟨hd1, hr1⟩ := grid_write_spec h1
  have hw : ∀ y x c, g0.read y x = some c → c = 1 := by
    intro y x c hc
    have hb := grid_read_bounds hd0 hc
    rw [hr0 y x hb.1 hb.2.1 hb.2.2.1 hb.2.2.2] at hc
    simpa using hc.symm
  have honly : ∀ y x, g1.read y x = some 0 → x = 1 ∧ y = 1 := by
    intro y x hc
    rw [hr1] at hc
    split at hc
    · rename_i hh; exact ⟨hh.2, hh.1⟩
    · have := hw _ _ _ hc; omega
  have hs : g1.read 1 1 = some 0 := by rw [hr1]; simp
  refine ⟨g0, g1, h0, h1, ⟨hd1 n hd0, ?_, ?_, ?_, hs, ?_, ?_⟩, honly⟩
  · intro y x c hc
    rw [hr1] at hc
    split at hc
    · left; simpa using hc.symm
    · right; exact hw _ _ _ hc
  · intro y x hc
    obtain ⟨rfl, rfl⟩ := honly _ _ hc; omega
  · intro y x hc
    obtain ⟨rfl, rfl⟩ := honly _ _ hc; omega
  · intro y x hc
    obtain ⟨rfl, rfl⟩ := honly _ _ hc
    exact Relation.ReflTransGen.refl
  · intro y x hc
    obtain ⟨rfl, rfl⟩ := honly _ _ hc
    constructor <;> intro he <;> omega

/-! ## The shuffle permutes `dirs` -/

theorem swapAt_perm (l : List Cell) (i j : Nat) : (swapAt l i j).Perm l := by
  unfold swapAt
  cases hi : l[i]? with
  | none => simp
  | some a =>
    cases hj : l[j]? with
    | none => simp
    | some b =>
      simp only
      obtain ⟨hil, hia⟩ := List.getElem?_eq_some_iff.1 hi
      obtain ⟨hjl, hjb⟩ := List.getElem?_eq_some_iff.1 hj
      rw [List.perm_iff_count]
      intro c
      have hjl' : j < (l.set i b).length := by simpa using hjl
      rw [List.count_set _ _ _ _ hjl', List.count_set _ _ _ _ hil]
      have hget : (l.set i b)[j] = b := by
        rw [List.getElem_set]
        split
        · rfl
        · exact hjb
      rw [hget, hia]
      have hpos : (if (a == c) = true then 1 else 0) ≤ List.count c l := by
        split
        · rename_i hac
          have : a = c := by simpa using hac
          subst this
          exact List.count_pos_iff.2 (hia ▸ List.getElem_mem hil)
        · omega
      omega

theorem shuffleLoop_perm (rnd : Nat → Nat) :
    ∀ (i k : Nat) (l : List Cell), (shuffleLoop rnd i k l).1.Perm l
  | 0, _, _ => List.Perm.refl _
  | i + 1, k, l => (shuffleLoop_perm rnd i (k + 1) _).trans (swapAt_perm l _ _)

theorem shuffle_perm (rnd : Nat → Nat) (k : Nat) (l : List Cell) :
    (shuffle rnd k l).1.Perm l := shuffleLoop_perm rnd _ k l

theorem dirs0_unit {d : Cell} (h : d ∈ dirs0) :
    ∃ ux uy, UnitDir ux uy ∧ d = ⟨2 * ux, 2 * uy⟩ ∧ d.x.tdiv 2 = ux ∧ d.y.tdiv 2 = uy := by
  simp only [dirs0, List.mem_cons, List.mem_singleton, List.not_mem_nil, or_false] at h
  rcases h with rfl | rfl | rfl | rfl
  · exact ⟨0, -1, by unfold UnitDir; omega, by decide, by decide, by decide⟩
  · exact ⟨1, 0, by unfold UnitDir; omega, rfl, rfl, rfl⟩
  · exact ⟨0, 1, by unfold UnitDir; omega, rfl, rfl, rfl⟩
  · exact ⟨-1, 0, by unfold UnitDir; omega, by decide, by decide, by decide⟩

theorem unit_mem_dirs0 {ux uy : Int} (h : UnitDir ux uy) : (⟨2 * ux, 2 * uy⟩ : Cell) ∈ dirs0 := by
  unfold UnitDir at h
  rcases h with ⟨rfl, rfl | rfl⟩ | ⟨rfl, rfl | rfl⟩ <;> simp [dirs0]

/-! ## One direction of the carve -/

theorem carveDir_spec {n : Nat} {g : Grid} (st : List Cell) {cur d : Cell} (hg : GInv n g)
    (ho : g.read cur.y cur.x = some 0) (hodd : cur.x % 2 = 1 ∧ cur.y % 2 = 1)
    (hd : d ∈ dirs0) :
    (carveDir n cur (g, st) d = some (g, st) ∧
      (0 < cur.x + d.x → cur.x + d.x < (n : Int) - 1 → 0 < cur.y + d.y →
        cur.y + d.y < (n : Int) - 1 → g.read (cur.y + d.y) (cur.x + d.x) = some 0)) ∨
    ∃ g1 ux uy, carveDir n cur (g, st) d = some (g1, ⟨cur.x + d.x, cur.y + d.y⟩ :: st) ∧
      d = ⟨2 * ux, 2 * uy⟩ ∧ Carved n g g1 cur.x cur.y ux uy := by
  obtain ⟨ux, uy, hu, rfl, htx, hty⟩ := dirs0_unit hd
  simp only at htx hty
  have hci := hg.inter _ _ ho
  by_cases hin : cur.x + 2 * ux > 0 ∧ cur.x + 2 * ux < (n : Int) - 1 ∧ cur.y + 2 * uy > 0 ∧
      cur.y + 2 * uy < (n : Int) - 1
  · obtain ⟨c, hc⟩ := grid_read_some_of_inb hg.dim (y := cur.y + 2 * uy) (x := cur.x + 2 * ux)
      (by omega) (by omega) (by omega) (by omega)
    rcases hg.bin _ _ _ hc with rfl | rfl
    · left
      refine ⟨?_, fun _ _ _ _ => hc⟩
      simp [carveDir, hin, hc]
    · right
      obtain ⟨g1, h1⟩ := grid_write_some_of_inb hg.dim (y := cur.y + 2 * uy)
        (x := cur.x + 2 * ux) 0 (by omega) (by omega) (by omega) (by omega)
      obtain ⟨hd1, hr1⟩ := grid_write_spec h1
      have hu' := hu
      unfold UnitDir at hu'
      obtain ⟨g2, h2⟩ := grid_write_some_of_inb (hd1 n hg.dim) (y := cur.y + uy)
        (x := cur.x + ux) 0 (by omega) (by omega) (by omega) (by omega)
      obtain ⟨hd2, hr2⟩ := grid_write_spec h2
      refine ⟨g2, ux, uy, ?_, rfl, ⟨hu, ho, hodd, hin, hc, hd2 n (hd1 n hg.dim), ?_⟩⟩
      · simp [carveDir, hin, hc, h1, htx, hty, h2]
      · intro y x
        rw [hr2, hr1]
        by_cases ha : y = cur.y + uy ∧ x = cur.x + ux
        · simp [ha]
        · by_cases hb : y = cur.y + 2 * uy ∧ x = cur.x + 2 * ux
          · simp [hb]
          · have h3 : ¬ ((x = cur.x + 2 * ux ∧ y = cur.y + 2 * uy) ∨
                (x = cur.x + ux ∧ y = cur.y + uy)) := by tauto
            simp [ha, hb, h3]
  · left
    refine ⟨?_, fun h1 h2 h3 h4 => absurd ⟨h1, h2, h3, h4⟩ hin⟩
    simp only [carveDir]
    rw [if_neg hin]

/-! ## The carve loop -/

theorem walls_carved {n : Nat} {g g1 : Grid} {cx cy ux uy : Int}
    (h : Carved n g g1 cx cy ux uy) : (walls n g1).card + 1 ≤ (walls n g).card := by
  have hsub : walls n g1 ⊆ walls n g := by
    intro p hp
    simp only [walls, Finset.mem_filter] at hp ⊢
    refine ⟨hp.1, ?_⟩
    have h2 := hp.2
    rw [h.rd] at h2
    split at h2
    · simp at h2
    · exact h2
  have hss : walls n g1 ⊂ walls n g := by
    rw [Finset.ssubset_iff_of_subset hsub]
    refine ⟨(cx + 2 * ux, cy + 2 * uy), ?_, ?_⟩
    · have := h.nb_in
      simp only [walls, cells, Finset.mem_filter, Finset.mem_product, Finset.mem_Ico]
      exact ⟨⟨⟨by omega, by omega⟩, ⟨by omega, by omega⟩⟩, h.nb_wall⟩
    · simp [walls, h.rd]
  exact Finset.card_lt_card hss

theorem closed_mono {n : Nat} {g g1 : Grid}
    (hm : ∀ y x, g.read y x = some 0 → g1.read y x = some 0) {x y : Int}
    (h : Closed n g x y) : Closed n g1 x y :=
  fun ux uy hu h1 h2 h3 h4 => hm _ _ (h ux uy hu h1 h2 h3 h4)

theorem carveSeq_trans {n : Nat} {g g1 g2 : Grid} (h1 : CarveSeq n g g1)
    (h2 : CarveSeq n g1 g2) : CarveSeq n g g2 := by
  induction h2 with
  | refl => exact h1
  | step _ hc ih => exact CarveSeq.step ih hc

theorem carveSeq_trans_step {n : Nat} {g g1 g2 : Grid} {cx cy ux uy : Int}
    (hc : Carved n g g1 cx cy ux uy) (h2 : CarveSeq n g1 g2) : CarveSeq n g g2 :=
  carveSeq_trans (CarveSeq.step (CarveSeq.refl g) hc) h2

theorem carveDirs_spec {n : Nat} (cur : Cell) (hodd : cur.x % 2 = 1 ∧ cur.y % 2 = 1) :
    ∀ (L : List Cell) (g : Grid) (st : List Cell), (∀ d ∈ L, d ∈ dirs0) → GInv n g →
      g.read cur.y cur.x = some 0 →
      (∀ c ∈ st, c.x % 2 = 1 ∧ c.y % 2 = 1 ∧ g.read c.y c.x = some 0) →
      (∀ y x, x % 2 = 1 → y % 2 = 1 → g.read y x = some 0 →
        (⟨x, y⟩ : Cell) ∈ st ∨ (x = cur.x ∧ y = cur.y) ∨ Closed n g x y) →
      ∃ g1 st1, L.foldlM (carveDir n cur) (g, st) = some (g1, st1) ∧ CarveSeq n g g1 ∧
        (∀ c ∈ st1, c.x % 2 = 1 ∧ c.y % 2 = 1 ∧ g1.read c.y c.x = some 0) ∧
        (∀ y x, x % 2 = 1 → y % 2 = 1 → g1.read y x = some 0 →
          (⟨x, y⟩ : Cell) ∈ st1 ∨ (x = cur.x ∧ y = cur.y) ∨ Closed n g1 x y) ∧
        (∀ d ∈ L, 0 < cur.x + d.x → cur.x + d.x < (n : Int) - 1 → 0 < cur.y + d.y →
          cur.y + d.y < (n : Int) - 1 → g1.read (cur.y + d.y) (cur.x + d.x) = some 0) ∧
        st1.length + (walls n g1).card ≤ st.length + (walls n g).card := by
  intro L
  induction L with
  | nil =>
    intro g st _ _ _ hst hcl
    exact ⟨g, st, rfl, CarveSeq.refl g, hst, hcl, by simp, le_refl _⟩
  | cons d L ih =>
    intro g st hL hg ho hst hcl
    have hd : d ∈ dirs0 := hL d (List.mem_cons_self _ _)
    have hL' : ∀ e ∈ L, e ∈ dirs0 := fun e he => hL e (List.mem_cons_of_mem _ he)
    rcases carveDir_spec st hg ho hodd hd with ⟨heq, hnb⟩ | ⟨g1, ux, uy, heq, hdu, hc⟩
    · obtain ⟨g2, st2, hf, hseq, hst2, hcl2, hop, hm⟩ := ih g st hL' hg ho hst hcl
      refine ⟨g2, st2, ?_, hseq, hst2, hcl2, ?_, hm⟩
      · rw [List.foldlM_cons, heq]; exact hf
      · intro e he h1 h2 h3 h4
        rcases List.mem_cons.1 he with rfl | he
        · exact carveSeq_mono hseq (hnb h1 h2 h3 h4)
        · exact hop e he h1 h2 h3 h4
    · have hg1 : GInv n g1 := ginv_carved hg hc
      have hdx : cur.x + d.x = cur.x + 2 * ux := by rw [hdu]
      have hdy : cur.y + d.y = cur.y + 2 * uy := by rw [hdu]
      have hnbo : g1.read (cur.y + d.y) (cur.x + d.x) = some 0 := by
        rw [hc.rd, hdx, hdy]; simp
      have hnodd : (cur.x + d.x) % 2 = 1 ∧ (cur.y + d.y) % 2 = 1 := by
        rw [hdx, hdy]; omega
      obtain ⟨g2, st2, hf, hseq, hst2, hcl2, hop, hm⟩ :=
        ih g1 (⟨cur.x + d.x, cur.y + d.y⟩ :: st) hL' hg1 (carved_mono hc ho)
          (by
            intro c hcm
            rcases List.mem_cons.1 hcm with rfl | hcm
            · exact ⟨hnodd.1, hnodd.2, hnbo⟩
            · exact ⟨(hst c hcm).1, (hst c hcm).2.1, carved_mono hc (hst c hcm).2.2⟩)
          (by
            intro y x hx hy hxy
            rw [hc.rd] at hxy
            split at hxy
            · rename_i hh
              rcases hh with ⟨rfl, rfl⟩ | ⟨rfl, rfl⟩
              · left; rw [hdx, hdy]; exact List.mem_cons_self _ _
              · exfalso; have := hc.unit; unfold UnitDir at this; omega
            · rcases hcl y x hx hy hxy with h | h | h
              · left; exact List.mem_cons_of_mem _ h
              · right; left; exact h
              · right; right; exact closed_mono (fun _ _ => carved_mono hc) h)
      refine ⟨g2, st2, ?_, carveSeq_trans_step hc hseq, hst2, hcl2, ?_, ?_⟩
      · rw [List.foldlM_cons, heq]; exact hf
      · intro e he h1 h2 h3 h4
        rcases List.mem_cons.1 he with rfl | he
        · exact carveSeq_mono hseq hnbo
        · exact hop e he h1 h2 h3 h4
      · have := walls_carved hc
        simp only [List.length_cons] at hm
        omega

theorem carveLoop_spec {n : Nat} (rnd : Nat → Nat) (g0 : Grid) :
    ∀ (fuel : Nat) (s : CarveState), LoopInv n g0 s →
      s.stack.length + (walls n s.grid).card ≤ fuel →
      ∃ s1, carveLoop n rnd fuel s = some s1 ∧ LoopInv n g0 s1 ∧ s1.stack = [] := by
  intro fuel
  induction fuel with
  | zero =>
    intro s hs hm
    have : s.stack = [] := List.length_eq_zero.1 (by omega)
    exact ⟨s, by unfold carveLoop; simp [this], hs, this⟩
  | succ fuel ih =>
    intro s hs hm
    obtain ⟨g, stack, dirs, k⟩ := s
    cases stack with
    | nil => exact ⟨_, by unfold carveLoop; simp, hs, rfl⟩
    | cons cur rest =>
      have hcur := hs.stk cur (List.mem_cons_self _ _)
      simp only at hcur
      have hperm : (shuffle rnd k dirs).1.Perm dirs0 := (shuffle_perm rnd k dirs).trans hs.dirs
      obtain ⟨g1, st1, hf, hseq, hst1, hcl1, hop, hmeas⟩ :=
        carveDirs_spec (n := n) cur ⟨hcur.1, hcur.2.1⟩ (shuffle rnd k dirs).1 g rest
          (fun d hd => hperm.subset hd) hs.ginv hcur.2.2
          (fun c hc => hs.stk c (List.mem_cons_of_mem _ hc))
          (by
            intro y x hx hy hxy
            rcases hs.closed y x hx hy hxy with h | h
            · rcases List.mem_cons.1 h with h | h
              · right; left
                have h1 := congrArg Cell.x h
                have h2 := congrArg Cell.y h
                exact ⟨h1, h2⟩
              · left; exact h
            · right; right; exact h)
      have hinv : LoopInv n g0 ⟨g1, st1, (shuffle rnd k dirs).1, (shuffle rnd k dirs).2⟩ := by
        refine ⟨carveSeq_trans hs.seq hseq, ginv_carveSeq hs.ginv hseq, hst1, ?_, hperm⟩
        intro y x hx hy hxy
        rcases hcl1 y x hx hy hxy with h | ⟨rfl, rfl⟩ | h
        · left; exact h
        · right
          intro ux uy hu h1 h2 h3 h4
          have hmem : (⟨2 * ux, 2 * uy⟩ : Cell) ∈ (shuffle rnd k dirs).1 :=
            hperm.symm.subset (unit_mem_dirs0 hu)
          exact hop _ hmem h1 h2 h3 h4
        · right; exact h
      obtain ⟨s1, h1, h2, h3⟩ := ih _ hinv (by
        simp only [List.length_cons] at hm
        simp only
        omega)
      refine ⟨s1, ?_, h2, h3⟩
      unfold carveLoop
      simp only [hf]
      exact h1

/-- After the carve every cell with two odd coordinates strictly inside the grid is empty. -/
theorem lattice_open {n : Nat} {g : Grid} (hg : GInv n g)
    (hcl : ∀ y x, x % 2 = 1 → y % 2 = 1 → g.read y x = some 0 → Closed n g x y) :
    ∀ i j : Nat, 2 * (i : Int) + 1 < (n : Int) - 1 → 2 * (j : Int) + 1 < (n : Int) - 1 →
      g.read (2 * (j : Int) + 1) (2 * (i : Int) + 1) = some 0 := by
  have hcol : ∀ j : Nat, 2 * (j : Int) + 1 < (n : Int) - 1 →
      g.read (2 * (j : Int) + 1) 1 = some 0 := by
    intro j
    induction j with
    | zero => intro _; simpa using hg.start
    | succ j ih =>
      intro hj
      have h0 := ih (by push_cast at hj ⊢; omega)
      have := hcl _ _ (by omega) (by omega) h0 0 1 (by unfold UnitDir; omega)
        (by omega) (by omega) (by omega) (by push_cast at hj ⊢; omega)
      have e : 2 * ((j + 1 : Nat) : Int) + 1 = 2 * (j : Int) + 1 + 2 * 1 := by push_cast; ring
      rw [e]
      simpa using this
  intro i
  induction i with
  | zero => intro j _ hj; simpa using hcol j hj
  | succ i ih =>
    intro j hi hj
    have h0 := ih j (by push_cast at hi ⊢; omega) hj
    have := hcl _ _ (by omega) (by omega) h0 1 0 (by unfold UnitDir; omega)
      (by omega) (by push_cast at hi ⊢; omega) (by omega) (by omega)
    have e : 2 * ((i + 1 : Nat) : Int) + 1 = 2 * (i : Int) + 1 + 2 * 1 := by push_cast; ring
    rw [e]
    simpa using this

theorem walls_start_card {n : Nat} (hn : 3 ≤ n) {g : Grid} (h : g.read 1 1 = some 0) :
    1 + (walls n g).card ≤ n * n := by
  have hc : (cells n).card = n * n := by
    simp [cells, Finset.card_product, Int.card_Ico]
  have hss : walls n g ⊂ cells n := by
    have hsub : walls n g ⊆ cells n := Finset.filter_subset _ _
    rw [Finset.ssubset_iff_of_subset hsub]
    refine ⟨(1, 1), ?_, ?_⟩
    · simp only [cells, Finset.mem_product, Finset.mem_Ico]; omega
    · simp [walls, h]
  have := Finset.card_lt_card hss
  omega

/-- The carve returns: with fuel `n * n` it ends with an empty stack, and
the map it leaves has every cell of two odd coordinates empty. -/
theorem carve_spec {n : Nat} (hn : 3 ≤ n) (rnd : Nat → Nat) {fuel : Nat}
    (hf : n * n ≤ fuel) :
    ∃ g0 g1 s, wallGrid n = some g0 ∧ g0.write 1 1 0 = some g1 ∧
      (∀ y x, g1.read y x = some 0 → x = 1 ∧ y = 1) ∧ GInv n g1 ∧
      carve fuel n rnd = some s ∧ CarveSeq n g1 s.grid ∧ GInv n s.grid ∧
      s.dirs.Perm dirs0 ∧
      (∀ y x, x % 2 = 1 → y % 2 = 1 → 0 < x → x < (n : Int) - 1 → 0 < y → y < (n : Int) - 1 →
        s.grid.read y x = some 0) := by
  obtain ⟨g0, g1, h0, h1, hg1, honly⟩ := start_spec hn
  have hinv : LoopInv n g1 ⟨g1, [⟨1, 1⟩], dirs0, 0⟩ := by
    refine ⟨CarveSeq.refl _, hg1, ?_, ?_, List.Perm.refl _⟩
    · intro c hc
      rw [List.mem_singleton] at hc
      subst hc
      exact ⟨by decide, by decide, hg1.start⟩
    · intro y x _ _ hxy
      obtain ⟨rfl, rfl⟩ := honly _ _ hxy
      left; exact List.mem_singleton_self _
  obtain ⟨s, hs, hsi, hse⟩ := carveLoop_spec rnd g1 fuel _ hinv (by
    have := walls_start_card hn hg1.start
    simp only [List.length_singleton]
    omega)
  refine ⟨g0, g1, s, h0, h1, honly, hg1, ?_, hsi.seq, hsi.ginv, hsi.dirs, ?_⟩
  · simp only [carve, h0, h1]; exact hs
  · intro y x hx hy hx0 hx1 hy0 hy1
    have hcl : ∀ y x, x % 2 = 1 → y % 2 = 1 → s.grid.read y x = some 0 →
        Closed n s.grid x y := by
      intro y x hx hy hxy
      rcases hsi.closed y x hx hy hxy with h | h
      · rw [hse] at h; simp at h
      · exact h
    have := lattice_open hsi.ginv hcl ((x - 1) / 2).toNat ((y - 1) / 2).toNat
      (by omega) (by omega)
    have ex : 2 * (((x - 1) / 2).toNat : Int) + 1 = x := by omega
    have ey : 2 * (((y - 1) / 2).toNat : Int) + 1 = y := by omega
    rwa [ex, ey] at this

/-! ## The chaos phase -/

theorem ginv_toMInv {n : Nat} {g : Grid} (h : GInv n g) : MInv n g :=
  ⟨h.dim, h.bin, h.inter, h.start, h.reach⟩

/-- Emptying one wall strictly inside the grid that touches an empty cell. -/
theorem minv_opened {n : Nat} {g g1 : Grid} (hg : MInv n g) {x y : Int}
    (hx : 0 < x ∧ x < (n : Int) - 1) (hy : 0 < y ∧ y < (n : Int) - 1)
    (hw : g.write y x 0 = some g1) {x1 y1 : Int} (ho : g.read y1 x1 = some 0)
    (hadj : (x = x1 ∧ (y = y1 + 1 ∨ y = y1 - 1)) ∨ (y = y1 ∧ (x = x1 + 1 ∨ x = x1 - 1))) :
    MInv n g1 := by
  obtain ⟨hd, hr⟩ := grid_write_spec hw
  have hm : ∀ y x, g.read y x = some 0 → g1.read y x = some 0 := by
    intro y2 x2 h; rw [hr]; split
    · rfl
    · exact h
  have hnew : g1.read y x = some 0 := by rw [hr]; simp
  refine ⟨hd n hg.dim, ?_, ?_, hm _ _ hg.start, ?_⟩
  · intro y2 x2 c hc
    rw [hr] at hc
    split at hc
    · left; simpa using hc.symm
    · exact hg.bin _ _ _ hc
  · intro y2 x2 hc
    rw [hr] at hc
    split at hc
    · rename_i hh; obtain ⟨rfl, rfl⟩ := hh; exact ⟨hx.1, hx.2, hy.1, hy.2⟩
    · exact hg.inter _ _ hc
  · intro y2 x2 hc
    rw [hr] at hc
    split at hc
    · rename_i hh; obtain ⟨rfl, rfl⟩ := hh
      exact reach_step (reach_mono hm (hg.reach _ _ ho)) (hm _ _ ho) hnew hadj
    · exact reach_mono hm (hg.reach _ _ hc)

theorem intn_spec (rnd : Nat → Nat) (k : Nat) {m : Int} (hm : 0 < m) :
    ∃ r, intn rnd k m = some r ∧ 0 ≤ r ∧ r < m :=
  ⟨(rnd k : Int) % m, by simp [intn, hm], Int.emod_nonneg _ (by omega),
    Int.emod_lt_of_pos _ hm⟩

/-- The count of the dream-maze chaos trial returns, and at a cell of two
even coordinates it counts nothing. -/
theorem countDirs_spec {n : Nat} {g : Grid} (hg : GInv n g) (x y : Int) :
    ∀ (L : List Cell) (acc : Int), (∀ d ∈ L, d ∈ dirs0) →
      ∃ c, L.foldlM (countDir n g x y) acc = some c ∧ (x % 2 = 0 → y % 2 = 0 → c = acc) := by
  intro L
  induction L with
  | nil => intro acc _; exact ⟨acc, rfl, fun _ _ => rfl⟩
  | cons d L ih =>
    intro acc hL
    obtain ⟨ux, uy, hu, rfl, -, -⟩ := dirs0_unit (hL d (List.mem_cons_self _ _))
    have hL' : ∀ e ∈ L, e ∈ dirs0 := fun e he => hL e (List.mem_cons_of_mem _ he)
    by_cases hin : x + 2 * ux > 0 ∧ x + 2 * ux < (n : Int) - 1 ∧ y + 2 * uy > 0 ∧
        y + 2 * uy < (n : Int) - 1
    · obtain ⟨c, hc⟩ := grid_read_some_of_inb hg.dim (y := y + 2 * uy) (x := x + 2 * ux)
        (by omega) (by omega) (by omega) (by omega)
      by_cases hc0 : c = 0
      · subst hc0
        obtain ⟨r, hr, hre⟩ := ih (acc + 1) hL'
        refine ⟨r, ?_, ?_⟩
        · rw [List.foldlM_cons]; simp only [countDir, hin, hc]; simpa using hr
        · intro hx hy
          have := hg.par _ _ hc
          omega
      · obtain ⟨r, hr, hre⟩ := ih acc hL'
        refine ⟨r, ?_, hre⟩
        rw [List.foldlM_cons]; simp only [countDir, hin, hc]; simpa [hc0] using hr
    · obtain ⟨r, hr, hre⟩ := ih acc hL'
      refine ⟨r, ?_, hre⟩
      rw [List.foldlM_cons]; simp only [countDir]; rw [if_neg hin]; simpa using hr

/-- Emptying a wall with exactly one even coordinate keeps the carve invariant. -/
theorem ginv_opened {n : Nat} (hodd : n % 2 = 1) {g g1 : Grid} (hg : GInv n g)
    (hcm : Complete n g) {x y : Int}
    (hx : 0 < x ∧ x < (n : Int) - 1) (hy : 0 < y ∧ y < (n : Int) - 1)
    (hwall : g.read y x = some 1) (hpar : ¬ (x % 2 = 0 ∧ y % 2 = 0))
    (hw : g.write y x 0 = some g1) : GInv n g1 ∧ Complete n g1 := by
  obtain ⟨hd, hr⟩ := grid_write_spec hw
  have hm : ∀ y x, g.read y x = some 0 → g1.read y x = some 0 := by
    intro y2 x2 h; rw [hr]; split
    · rfl
    · exact h
  have hnl : ¬ (x % 2 = 1 ∧ y % 2 = 1) := by
    rintro ⟨h1, h2⟩
    have := hcm y x h1 h2 hx.1 hx.2 hy.1 hy.2
    rw [hwall] at this; simp at this
  have hends : (x % 2 = 0 → g.read y (x - 1) = some 0 ∧ g.read y (x + 1) = some 0) ∧
      (y % 2 = 0 → g.read (y - 1) x = some 0 ∧ g.read (y + 1) x = some 0) := by
    constructor
    · intro he
      exact ⟨hcm _ _ (by omega) (by omega) (by omega) (by omega) hy.1 hy.2,
        hcm _ _ (by omega) (by omega) (by omega) (by omega) hy.1 hy.2⟩
    · intro he
      exact ⟨hcm _ _ (by omega) (by omega) hx.1 hx.2 (by omega) (by omega),
        hcm _ _ (by omega) (by omega) hx.1 hx.2 (by omega) (by omega)⟩
  have hm1 : MInv n g1 := by
    by_cases he : x % 2 = 0
    · exact minv_opened (ginv_toMInv hg) hx hy hw (hends.1 he).1 (by omega)
    · exact minv_opened (ginv_toMInv hg) hx hy hw (hends.2 (by omega)).1 (by omega)
  refine ⟨⟨hm1.dim, hm1.bin, hm1.inter, ?_, hm1.start, hm1.reach, ?_⟩, ?_⟩
  · intro y2 x2 hc
    rw [hr] at hc
    split at hc
    · rename_i hh; obtain ⟨rfl, rfl⟩ := hh; omega
    · exact hg.par _ _ hc
  · intro y2 x2 hc
    rw [hr] at hc
    split at hc
    · rename_i hh; obtain ⟨rfl, rfl⟩ := hh
      exact ⟨fun he => ⟨hm _ _ (hends.1 he).1, hm _ _ (hends.1 he).2⟩,
        fun he => ⟨hm _ _ (hends.2 he).1, hm _ _ (hends.2 he).2⟩⟩
    · have := hg.ends _ _ hc
      exact ⟨fun he => ⟨hm _ _ (this.1 he).1, hm _ _ (this.1 he).2⟩,
        fun he => ⟨hm _ _ (this.2 he).1, hm _ _ (this.2 he).2⟩⟩
  · intro y2 x2 h1 h2 h3 h4 h5 h6
    exact hm _ _ (hcm y2 x2 h1 h2 h3 h4 h5 h6)

theorem chaosAt_spec {n : Nat} (hodd : n % 2 = 1) {g : Grid} (hg : GInv n g)
    (hcm : Complete n g) {minOpen : Int} (hmin : 1 ≤ minOpen) {dirs : List Cell}
    (hd : ∀ d ∈ dirs, d ∈ dirs0) {x y : Int}
    (hx : 0 < x ∧ x < (n : Int) - 1) (hy : 0 < y ∧ y < (n : Int) - 1) :
    ∃ g1, chaosAt n minOpen dirs g x y = some g1 ∧ GInv n g1 ∧ Complete n g1 := by
  obtain ⟨c, hc⟩ := grid_read_some_of_inb hg.dim (y := y) (x := x)
    (by omega) (by omega) (by omega) (by omega)
  by_cases hc1 : c = 1
  · subst hc1
    obtain ⟨cnt, hcnt, hev⟩ := countDirs_spec hg x y dirs 0 hd
    by_cases hge : cnt ≥ minOpen
    · obtain ⟨g1, h1⟩ := grid_write_some_of_inb hg.dim (y := y) (x := x) 0
        (by omega) (by omega) (by omega) (by omega)
      have hpar : ¬ (x % 2 = 0 ∧ y % 2 = 0) := by
        rintro ⟨h1, h2⟩
        have := hev h1 h2
        omega
      refine ⟨g1, ?_, ginv_opened hodd hg hcm hx hy hc hpar h1⟩
      simp [chaosAt, hc, hcnt, hge, h1]
    · exact ⟨g, by simp [chaosAt, hc, hcnt, hge], hg, hcm⟩
  · exact ⟨g, by simp [chaosAt, hc, hc1], hg, hcm⟩

theorem chaosLoop_spec {n : Nat} (hn : 3 ≤ n) (hodd : n % 2 = 1) {minOpen : Int}
    (hmin : 1 ≤ minOpen) (rnd : Nat → Nat) {dirs : List Cell} (hd : ∀ d ∈ dirs, d ∈ dirs0) :
    ∀ (cnt : Nat) (g : Grid) (k : Nat), GInv n g → Complete n g →
      ∃ r, chaosLoop n minOpen rnd dirs cnt (g, k) = some r ∧ GInv n r.1 ∧ Complete n r.1 := by
  intro cnt
  induction cnt with
  | zero => intro g k hg hc; exact ⟨(g, k), rfl, hg, hc⟩
  | succ cnt ih =>
    intro g k hg hc
    obtain ⟨rx, hrx, hx0, hx1⟩ := intn_spec rnd k (m := (n : Int) - 2) (by omega)
    obtain ⟨ry, hry, hy0, hy1⟩ := intn_spec rnd (k + 1) (m := (n : Int) - 2) (by omega)
    obtain ⟨g1, h1, hg1, hc1⟩ := chaosAt_spec hodd hg hc hmin hd (x := rx + 1) (y := ry + 1)
      (by omega) (by omega)
    obtain ⟨r, hr, hr1, hr2⟩ := ih g1 (k + 2) hg1 hc1
    refine ⟨r, ?_, hr1, hr2⟩
    simp only [chaosLoop, chaosTrial, hrx, hry, h1]
    exact hr

theorem countOpen_spec {n : Nat} {g : Grid} (hd : Dim n g) {y x : Int}
    (hy : 0 ≤ y ∧ y < (n : Int)) (hx : 0 ≤ x ∧ x < (n : Int)) (acc : Int) :
    ∃ c, countOpen g y x acc = some c ∧ acc ≤ c ∧ (c ≠ acc → g.read y x = some 0) := by
  obtain ⟨v, hv⟩ := grid_read_some_of_inb hd hy.1 hy.2 hx.1 hx.2
  by_cases hv0 : v = 0
  · subst hv0
    exact ⟨acc + 1, by simp [countOpen, hv], by omega, fun _ => hv⟩
  · exact ⟨acc, by simp [countOpen, hv, hv0], le_refl _, fun h => absurd rfl h⟩

theorem chaosAtB_spec {n : Nat} {g : Grid} (hg : MInv n g) {x y : Int}
    (hx : 0 < x ∧ x < (n : Int) - 1) (hy : 0 < y ∧ y < (n : Int) - 1) :
    ∃ g1, chaosAtB g x y = some g1 ∧ MInv n g1 := by
  obtain ⟨c, hc⟩ := grid_read_some_of_inb hg.dim (y := y) (x := x)
    (by omega) (by omega) (by omega) (by omega)
  by_cases hc1 : c = 1
  · subst hc1
    obtain ⟨c1, h1, hle1, ho1⟩ := countOpen_spec hg.dim (y := y + 1) (x := x)
      (by omega) (by omega) 0
    obtain ⟨c2, h2, hle2, ho2⟩ := countOpen_spec hg.dim (y := y - 1) (x := x)
      (by omega) (by omega) c1
    obtain ⟨c3, h3, hle3, ho3⟩ := countOpen_spec hg.dim (y := y) (x := x + 1)
      (by omega) (by omega) c2
    obtain ⟨c4, h4, hle4, ho4⟩ := countOpen_spec hg.dim (y := y) (x := x - 1)
      (by omega) (by omega) c3
    by_cases hge : c4 ≥ 2
    · obtain ⟨g1, hw⟩ := grid_write_some_of_inb hg.dim (y := y) (x := x) 0
        (by omega) (by omega) (by omega) (by omega)
      refine ⟨g1, by simp [chaosAtB, hc, h1, h2, h3, h4, hge, hw], ?_⟩
      by_cases e1 : c1 ≠ 0
      · exact minv_opened hg hx hy hw (ho1 e1) (by omega)
      · by_cases e2 : c2 ≠ c1
        · exact minv_opened hg hx hy hw (ho2 e2) (by omega)
        · by_cases e3 : c3 ≠ c2
          · exact minv_opened hg hx hy hw (ho3 e3) (by omega)
          · by_cases e4 : c4 ≠ c3
            · exact minv_opened hg hx hy hw (ho4 e4) (by omega)
            · omega
    · exact ⟨g, by simp [chaosAtB, hc, h1, h2, h3, h4, hge], hg⟩
  · exact ⟨g, by simp [chaosAtB, hc, hc1], hg⟩

theorem chaosLoopB_spec {n : Nat} (hn : 3 ≤ n) (rnd : Nat → Nat) :
    ∀ (cnt : Nat) (g : Grid) (k : Nat), MInv n g →
      ∃ r, chaosLoopB n rnd cnt (g, k) = some r ∧ MInv n r.1 := by
  intro cnt
  induction cnt with
  | zero => intro g k hg; exact ⟨(g, k), rfl, hg⟩
  | succ cnt ih =>
    intro g k hg
    obtain ⟨rx, hrx, hx0, hx1⟩ := intn_spec rnd k (m := (n : Int) - 2) (by omega)
    obtain ⟨ry, hry, hy0, hy1⟩ := intn_spec rnd (k + 1) (m := (n : Int) - 2) (by omega)
    obtain ⟨g1, h1, hg1⟩ := chaosAtB_spec hg (x := rx + 1) (y := ry + 1) (by omega) (by omega)
    obtain ⟨r, hr, hr1⟩ := ih g1 (k + 2) hg1
    refine ⟨r, ?_, hr1⟩
    simp only [chaosLoopB, chaosTrialB, hrx, hry, h1]
    exact hr

/-! ## The generated maze -/

theorem chaosCount_of_minOpen_lt {level : Int} (h : ¬ 1 ≤ minOpenNeighbors level) (size : Int) :
    chaosCount level size = 0 := by
  unfold minOpenNeighbors at h
  unfold chaosCount chaosTenths
  split_ifs at h ⊢ <;> first | omega | simp

/-- The maze of `dream-maze.go` is returned and keeps the carve invariant. -/
theorem generateMaze_spec {n : Nat} (hn : 3 ≤ n) (hodd : n % 2 = 1) (level : Int)
    (rnd : Nat → Nat) {fuel : Nat} (hf : n * n ≤ fuel) :
    ∃ g, generateMaze fuel level n rnd = some g ∧ GInv n g ∧ Complete n g := by
  obtain ⟨g0, g1, s, -, -, -, -, hs, -, hg, hp, hc⟩ := carve_spec hn rnd hf
  by_cases hmin : 1 ≤ minOpenNeighbors level
  · obtain ⟨r, hr, h1, h2⟩ := chaosLoop_spec hn hodd hmin rnd (fun d hd => hp.subset hd)
      (chaosCount level n) s.grid s.k hg hc
    exact ⟨r.1, by simp [generateMaze, hs, hr], h1, h2⟩
  · refine ⟨s.grid, ?_, hg, hc⟩
    simp [generateMaze, hs, chaosCount_of_minOpen_lt hmin, chaosLoop]

/-- The maze of `imposibble-backrooms.go` is returned and keeps its invariant. -/
theorem generateMazeB_spec {n : Nat} (hn : 3 ≤ n) (rnd : Nat → Nat) {fuel : Nat}
    (hf : n * n ≤ fuel) : ∃ g, generateMazeB fuel n rnd = some g ∧ MInv n g := by
  obtain ⟨g0, g1, s, -, -, -, -, hs, -, hg, -, -⟩ := carve_spec hn rnd hf
  obtain ⟨r, hr, h1⟩ := chaosLoopB_spec hn rnd (((n : Int) * n).tdiv 4).toNat s.grid s.k
    (ginv_toMInv hg)
  exact ⟨r.1, by simp [generateMazeB, hs, hr], h1⟩

theorem minv_border {n : Nat} {g : Grid} (hg : MInv n g) {x y : Int}
    (hx : 0 ≤ x ∧ x < (n : Int)) (hy : 0 ≤ y ∧ y < (n : Int))
    (hb : x = 0 ∨ x = (n : Int) - 1 ∨ y = 0 ∨ y = (n : Int) - 1) : g.read y x = some 1 := by
  obtain ⟨c, hc⟩ := grid_read_some_of_inb hg.dim hy.1 hy.2 hx.1 hx.2
  rcases hg.bin _ _ _ hc with rfl | rfl
  · have := hg.inter _ _ hc; omega
  · exact hc

/-- C1. Connectivity: in both programs, for every odd size at least 3, every
level and every random sequence, the generated maze is returned, its cell
`(1,1)` is empty, and every empty cell is joined to `(1,1)` by a path of
orthogonally adjacent empty cells. -/
theorem C1_connectivity (n : Nat) (hn : 3 ≤ n) (hodd : n % 2 = 1) (rnd : Nat → Nat)
    (fuel : Nat) (hf : n * n ≤ fuel) :
    (∀ level : Int, ∃ g, generateMaze fuel level n rnd = some g ∧ g.read 1 1 = some 0 ∧
      ∀ x y, g.read y x = some 0 → Reach g x y) ∧
    (∃ g, generateMazeB fuel n rnd = some g ∧ g.read 1 1 = some 0 ∧
      ∀ x y, g.read y x = some 0 → Reach g x y) := by
  constructor
  · intro level
    obtain ⟨g, h, hg, -⟩ := generateMaze_spec hn hodd level rnd hf
    exact ⟨g, h, hg.start, fun x y => hg.reach y x⟩
  · obtain ⟨g, h, hg⟩ := generateMazeB_spec hn rnd hf
    exact ⟨g, h, hg.start, fun x y => hg.reach y x⟩

/-- Instance of C1 at size 5 with the random sequence `7k + 3`. -/
theorem C1_connectivity_witness :
    (3 ≤ 5 ∧ 5 % 2 = 1 ∧ 5 * 5 ≤ 25) ∧
    ((∀ level : Int, ∃ g, generateMaze 25 level (5 : Nat) (fun k => 7 * k + 3) = some g ∧
        g.read 1 1 = some 0 ∧ ∀ x y, g.read y x = some 0 → Reach g x y) ∧
      (∃ g, generateMazeB 25 (5 : Nat) (fun k => 7 * k + 3) = some g ∧ g.read 1 1 = some 0 ∧
        ∀ x y, g.read y x = some 0 → Reach g x y)) :=
  ⟨by decide, C1_connectivity 5 (by decide) (by decide) (fun k => 7 * k + 3) 25 (by decide)⟩

/-- C7. Border invariant: in both programs, for every odd size at least 3,
every level and every random sequence, the generated maze is returned, is
`size` by `size`, and every cell of row 0, row `size-1`, column 0 and column
`size-1` is a wall. -/
theorem C7_border_wall (n : Nat) (hn : 3 ≤ n) (hodd : n % 2 = 1) (rnd : Nat → Nat)
    (fuel : Nat) (hf : n * n ≤ fuel) :
    (∀ level : Int, ∃ g, generateMaze fuel level n rnd = some g ∧ Dim n g ∧
      ∀ x y : Int, 0 ≤ x → x < n → 0 ≤ y → y < n →
        (x = 0 ∨ x = (n : Int) - 1 ∨ y = 0 ∨ y = (n : Int) - 1) → g.read y x = some 1) ∧
    (∃ g, generateMazeB fuel n rnd = some g ∧ Dim n g ∧
      ∀ x y : Int, 0 ≤ x → x < n → 0 ≤ y → y < n →
        (x = 0 ∨ x = (n : Int) - 1 ∨ y = 0 ∨ y = (n : Int) - 1) → g.read y x = some 1) := by
  constructor
  · intro level
    obtain ⟨g, h, hg, -⟩ := generateMaze_spec hn hodd level rnd hf
    exact ⟨g, h, hg.dim, fun x y h1 h2 h3 h4 hb => minv_border (ginv_toMInv hg) ⟨h1, h2⟩ ⟨h3, h4⟩ hb⟩
  · obtain ⟨g, h, hg⟩ := generateMazeB_spec hn rnd hf
    exact ⟨g, h, hg.dim, fun x y h1 h2 h3 h4 hb => minv_border hg ⟨h1, h2⟩ ⟨h3, h4⟩ hb⟩

/-- Instance of C7 at size 7 with the random sequence `k * k + 3`. -/
theorem C7_border_wall_witness :
    (3 ≤ 7 ∧ 7 % 2 = 1 ∧ 7 * 7 ≤ 49) ∧
    ((∀ level : Int, ∃ g, generateMaze 49 level (7 : Nat) (fun k => k * k + 3) = some g ∧
        Dim 7 g ∧ ∀ x y : Int, 0 ≤ x → x < (7 : Nat) → 0 ≤ y → y < (7 : Nat) →
          (x = 0 ∨ x = ((7 : Nat) : Int) - 1 ∨ y = 0 ∨ y = ((7 : Nat) : Int) - 1) →
          g.read y x = some 1) ∧
      (∃ g, generateMazeB 49 (7 : Nat) (fun k => k * k + 3) = some g ∧ Dim 7 g ∧
        ∀ x y : Int, 0 ≤ x → x < (7 : Nat) → 0 ≤ y → y < (7 : Nat) →
          (x = 0 ∨ x = ((7 : Nat) : Int) - 1 ∨ y = 0 ∨ y = ((7 : Nat) : Int) - 1) →
          g.read y x = some 1)) :=
  ⟨by decide, C7_border_wall 7 (by decide) (by decide) (fun k => k * k + 3) 49 (by decide)⟩

/-! ## The scan of `placeExit` -/

theorem scanInv_maxDist_nonneg {n : Nat} {g : Grid} {px py x0 y0 : Int} {s : ExitState}
    (h : ScanInv n g px py x0 y0 s) : 0 ≤ s.maxDist := by
  rcases h.sel with rfl | h
  · exact le_refl _
  · exact le_of_lt h.2.2.2.2.2.2.2.1

theorem exitCell_spec {n : Nat} {g : Grid} (hd : Dim n g) (px py : Int) {x y : Int}
    (hx : 0 < x ∧ x < (n : Int) - 1) (hy : 0 < y ∧ y < (n : Int) - 1) {s : ExitState}
    (hs : ScanInv n g px py x y s) :
    ∃ s1, exitCell g px py y s x = some s1 ∧ ScanInv n g px py (x + 1) y s1 := by
  obtain ⟨c, hc⟩ := grid_read_some_of_inb hd (y := y) (x := x)
    (by omega) (by omega) (by omega) (by omega)
  have hbef : ∀ x1 y1, Before x1 y1 (x + 1) y → Before x1 y1 x y ∨ (x1 = x ∧ y1 = y) := by
    intro x1 y1 h; unfold Before at *; omega
  have hkeep : (c ≠ 0 ∨ hypotSq (px - x) (py - y) ≤ s.maxDist) →
      ScanInv n g px py (x + 1) y s := by
    intro hcase
    refine ⟨?_, ?_⟩
    · intro x1 y1 h1 h2 h3 h4 hb ho
      rcases hbef _ _ hb with hb | ⟨rfl, rfl⟩
      · exact hs.le _ _ h1 h2 h3 h4 hb ho
      · rcases hcase with h | h
        · rw [hc] at ho; simp at ho; exact absurd ho h
        · exact h
    · rcases hs.sel with h | ⟨a1, a2, a3, a4, a5, a6⟩
      · left; exact h
      · right
        refine ⟨a1, a2, a3, a4, ?_, a6⟩
        unfold Before at *; omega
  by_cases hc0 : c = 0
  · subst hc0
    by_cases hgt : hypotSq (px - x) (py - y) > s.maxDist
    · refine ⟨⟨hypotSq (px - x) (py - y), x, y⟩, by simp [exitCell, hc, hgt], ?_, ?_⟩
      · intro x1 y1 h1 h2 h3 h4 hb ho
        rcases hbef _ _ hb with hb | ⟨rfl, rfl⟩
        · have := hs.le _ _ h1 h2 h3 h4 hb ho
          simp only
          omega
        · exact le_refl _
      · right
        have h0 := scanInv_maxDist_nonneg hs
        refine ⟨hx.1, hx.2, hy.1, hy.2, ?_, hc, rfl, ?_, ?_⟩
        · unfold Before; simp
        · simp only; omega
        · intro x1 y1 h1 h2 h3 h4 hb ho
          have := hs.le _ _ h1 h2 h3 h4 hb ho
          simp only at hb ⊢
          omega
    · exact ⟨s, by simp [exitCell, hc, hgt], hkeep (Or.inr (by omega))⟩
  · exact ⟨s, by simp [exitCell, hc, hc0], hkeep (Or.inl hc0)⟩

theorem exitCols_spec {n : Nat} {g : Grid} (hd : Dim n g) (px py : Int) {y : Int}
    (hy : 0 < y ∧ y < (n : Int) - 1) {s : ExitState} (hs : ScanInv n g px py 1 y s) :
    ∀ m : Nat, (m : Int) ≤ (n : Int) - 2 →
      ∃ s1, ((List.range m).map (fun (i : Nat) => (i : Int) + 1)).foldlM (exitCell g px py y) s
          = some s1 ∧ ScanInv n g px py ((m : Int) + 1) y s1 := by
  intro m
  induction m with
  | zero => intro _; exact ⟨s, rfl, by simpa using hs⟩
  | succ m ih =>
    intro hm
    obtain ⟨s1, h1, hs1⟩ := ih (by push_cast at hm; omega)
    obtain ⟨s2, h2, hs2⟩ := exitCell_spec hd px py (x := (m : Int) + 1)
      (by push_cast at hm; omega) hy hs1
    refine ⟨s2, ?_, by push_cast; exact hs2⟩
    rw [List.range_succ, List.map_append, List.foldlM_append, h1]
    simpa using h2

theorem exitRow_spec {n : Nat} {g : Grid} (hd : Dim n g) (px py : Int) {y : Int}
    (hy : 0 < y ∧ y < (n : Int) - 1) {s : ExitState} (hs : ScanInv n g px py 1 y s) :
    ∃ s1, exitRow n g px py s y = some s1 ∧ ScanInv n g px py 1 (y + 1) s1 := by
  obtain ⟨s1, h1, hs1⟩ := exitCols_spec hd px py hy hs ((n : Int) - 2).toNat (by omega)
  refine ⟨s1, h1, ?_, ?_⟩
  · intro x1 y1 a1 a2 a3 a4 hb ho
    refine hs1.le _ _ a1 a2 a3 a4 ?_ ho
    unfold Before at *; omega
  · rcases hs1.sel with h | ⟨a1, a2, a3, a4, a5, a6⟩
    · left; exact h
    · right
      refine ⟨a1, a2, a3, a4, ?_, a6⟩
      unfold Before at *; omega

theorem exitRows_spec {n : Nat} {g : Grid} (hd : Dim n g) (px py : Int) :
    ∀ m : Nat, (m : Int) ≤ (n : Int) - 2 →
      ∃ s1, ((List.range m).map (fun (i : Nat) => (i : Int) + 1)).foldlM (exitRow n g px py) ⟨0, 0, 0⟩
          = some s1 ∧ ScanInv n g px py 1 ((m : Int) + 1) s1 := by
  intro m
  induction m with
  | zero =>
    intro _
    refine ⟨⟨0, 0, 0⟩, rfl, ?_, Or.inl rfl⟩
    intro x1 y1 a1 a2 a3 a4 hb _
    unfold Before at hb; simp only [Nat.cast_zero, zero_add] at hb; omega
  | succ m ih =>
    intro hm
    obtain ⟨s1, h1, hs1⟩ := ih (by push_cast at hm; omega)
    obtain ⟨s2, h2, hs2⟩ := exitRow_spec hd px py (y := (m : Int) + 1)
      (by push_cast at hm; omega) hs1
    refine ⟨s2, ?_, by push_cast; exact hs2⟩
    rw [List.range_succ, List.map_append, List.foldlM_append, h1]
    simpa using h2

/-- The scan of `placeExit` returns on every `n` by `n` map, and its result
is described by `ScanInv` over all interior cells. -/
theorem exitScan_spec {n : Nat} {g : Grid} (hd : Dim n g) (px py : Int) :
    ∃ s, exitScan n g px py = some s ∧ ScanInv n g px py 1 ((n : Int) - 1) s := by
  by_cases hn : 2 ≤ n
  · obtain ⟨s, h, hs⟩ := exitRows_spec hd px py ((n : Int) - 2).toNat (by omega)
    refine ⟨s, h, ?_⟩
    have e : ((((n : Int) - 2).toNat : Nat) : Int) + 1 = (n : Int) - 1 := by omega
    rwa [e] at hs
  · have hsel : ScanInv n g px py 1 ((n : Int) - 1) ⟨0, 0, 0⟩ := by
      refine ⟨?_, Or.inl rfl⟩
      intro x1 y1 a1 a2 a3 a4; omega
    have e : ((n : Int) - 2).toNat = 0 := by omega
    exact ⟨⟨0, 0, 0⟩, by simp [exitScan, interior, e], hsel⟩

/-- The call `placeExit(px, py)` returns on every `n` by `n` map with `n ≥ 1`. -/
theorem placeExit_spec {n : Nat} (hn : 1 ≤ n) {g : Grid} (hd : Dim n g) (px py : Int) :
    ∃ s g1, exitScan n g px py = some s ∧ ScanInv n g px py 1 ((n : Int) - 1) s ∧
      g.write s.ey s.ex 2 = some g1 ∧ placeExit n g px py = some g1 := by
  obtain ⟨s, h, hs⟩ := exitScan_spec hd px py
  have hb : 0 ≤ s.ex ∧ s.ex < (n : Int) ∧ 0 ≤ s.ey ∧ s.ey < (n : Int) := by
    rcases hs.sel with rfl | ⟨a1, a2, a3, a4, -⟩
    · simp only; omega
    · omega
  obtain ⟨g1, h1⟩ := grid_write_some_of_inb hd (y := s.ey) (x := s.ex) 2 hb.2.2.1 hb.2.2.2
    hb.1 hb.2.1
  exact ⟨s, g1, h, hs, h1, by simp [placeExit, h, h1]⟩

theorem hypotSq_nonneg (dx dy : Int) : 0 ≤ hypotSq dx dy := by
  unfold hypotSq; nlinarith [mul_self_nonneg dx, mul_self_nonneg dy]

/-- When some interior empty cell lies at a distance above zero from the
origin, the scan of `placeExit` selects an interior empty cell, the first
in scan order among those farthest from the origin. -/
theorem exitScan_selects {n : Nat} {g : Grid} {px py : Int} {s : ExitState}
    (hs : ScanInv n g px py 1 ((n : Int) - 1) s) {x0 y0 : Int}
    (hx : 0 < x0 ∧ x0 < (n : Int) - 1) (hy : 0 < y0 ∧ y0 < (n : Int) - 1)
    (ho : g.read y0 x0 = some 0) (hpos : 0 < hypotSq (px - x0) (py - y0)) :
    0 < s.ex ∧ s.ex < (n : Int) - 1 ∧ 0 < s.ey ∧ s.ey < (n : Int) - 1 ∧
      g.read s.ey s.ex = some 0 ∧ s.maxDist = hypotSq (px - s.ex) (py - s.ey) ∧
      (∀ x y, 0 < x → x < (n : Int) - 1 → 0 < y → y < (n : Int) - 1 →
        g.read y x = some 0 → hypotSq (px - x) (py - y) ≤ s.maxDist) ∧
      (∀ x y, 0 < x → x < (n : Int) - 1 → 0 < y → y < (n : Int) - 1 →
        Before x y s.ex s.ey → g.read y x = some 0 → hypotSq (px - x) (py - y) < s.maxDist) := by
  have hall : ∀ x y, 0 < x → x < (n : Int) - 1 → 0 < y → y < (n : Int) - 1 →
      g.read y x = some 0 → hypotSq (px - x) (py - y) ≤ s.maxDist := by
    intro x y h1 h2 h3 h4 h5
    exact hs.le x y h1 h2 h3 h4 (by unfold Before; omega) h5
  have hle := hall x0 y0 hx.1 hx.2 hy.1 hy.2 ho
  rcases hs.sel with h | ⟨a1, a2, a3, a4, -, a6, a7, -, a9⟩
  · rw [h] at hle; simp only at hle; omega
  · exact ⟨a1, a2, a3, a4, a6, a7, hall, a9⟩

/-- Among the interior cells, the corner `(n-2, n-2)` alone is farthest from `(1,1)`. -/
theorem corner_farthest {n : Nat} (hn : 5 ≤ n) {x y : Int}
    (hx : 0 < x ∧ x < (n : Int) - 1) (hy : 0 < y ∧ y < (n : Int) - 1)
    (hne : x ≠ (n : Int) - 2 ∨ y ≠ (n : Int) - 2) :
    hypotSq (1 - x) (1 - y) < hypotSq (1 - ((n : Int) - 2)) (1 - ((n : Int) - 2)) := by
  unfold hypotSq
  obtain ⟨hx0, hx1⟩ := hx
  obtain ⟨hy0, hy1⟩ := hy
  have hN : (5 : Int) ≤ n := by exact_mod_cast hn
  rcases hne with h | h
  · have h1 : x ≤ (n : Int) - 3 := by omega
    nlinarith [mul_nonneg (by omega : (0 : Int) ≤ x - 1) (by omega : (0 : Int) ≤ (n : Int) - 3 - x),
      mul_nonneg (by omega : (0 : Int) ≤ y - 1) (by omega : (0 : Int) ≤ (n : Int) - 2 - y),
      mul_nonneg (by omega : (0 : Int) ≤ (n : Int) - 3 - x) (by omega : (0 : Int) ≤ (n : Int) - 4),
      mul_nonneg (by omega : (0 : Int) ≤ (n : Int) - 2 - y) (by omega : (0 : Int) ≤ (n : Int) - 3)]
  · have h1 : y ≤ (n : Int) - 3 := by omega
    nlinarith [mul_nonneg (by omega : (0 : Int) ≤ y - 1) (by omega : (0 : Int) ≤ (n : Int) - 3 - y),
      mul_nonneg (by omega : (0 : Int) ≤ x - 1) (by omega : (0 : Int) ≤ (n : Int) - 2 - x),
      mul_nonneg (by omega : (0 : Int) ≤ (n : Int) - 3 - y) (by omega : (0 : Int) ≤ (n : Int) - 4),
      mul_nonneg (by omega : (0 : Int) ≤ (n : Int) - 2 - x) (by omega : (0 : Int) ≤ (n : Int) - 3)]

/-- C2. For every odd size at least 5, every level and every random
sequence, `generateLevel` returns the generated maze with the cell
`(size-2, size-2)` turned into the exit and nothing else changed; that cell is
empty in the generated maze, and every other interior cell is strictly
nearer to `(1,1)` in Euclidean distance. -/
theorem C2_exit_at_far_corner (n : Nat) (hn : 5 ≤ n) (hodd : n % 2 = 1) (level : Int)
    (rnd : Nat → Nat) (fuel : Nat) (hf : n * n ≤ fuel) :
    ∃ g g1, generateMaze fuel level n rnd = some g ∧
      generateLevel fuel level n rnd = some g1 ∧
      g.read ((n : Int) - 2) ((n : Int) - 2) = some 0 ∧
      g1.read ((n : Int) - 2) ((n : Int) - 2) = some 2 ∧
      (∀ x y : Int, ¬ (x = (n : Int) - 2 ∧ y = (n : Int) - 2) → g1.read y x = g.read y x) ∧
      ∀ x y : Int, 0 < x → x < (n : Int) - 1 → 0 < y → y < (n : Int) - 1 →
        ¬ (x = (n : Int) - 2 ∧ y = (n : Int) - 2) →
        Real.sqrt ((hypotSq (1 - x) (1 - y) : Int) : ℝ) <
          Real.sqrt ((hypotSq (1 - ((n : Int) - 2)) (1 - ((n : Int) - 2)) : Int) : ℝ) := by
  obtain ⟨g, hgen, hg, hcm⟩ := generateMaze_spec (by omega) hodd level rnd hf
  obtain ⟨s, g1, -, hs, hw, hp⟩ := placeExit_spec (by omega) hg.dim 1 1
  obtain ⟨-, hr⟩ := grid_write_spec hw
  have hco : g.read ((n : Int) - 2) ((n : Int) - 2) = some 0 :=
    hcm _ _ (by omega) (by omega) (by omega) (by omega) (by omega) (by omega)
  have hle := hs.le ((n : Int) - 2) ((n : Int) - 2) (by omega) (by omega) (by omega) (by omega)
    (by unfold Before; omega) hco
  have hpos : 0 < hypotSq (1 - ((n : Int) - 2)) (1 - ((n : Int) - 2)) := by
    unfold hypotSq
    have hN : (5 : Int) ≤ n := by exact_mod_cast hn
    nlinarith
  have hex : s.ex = (n : Int) - 2 ∧ s.ey = (n : Int) - 2 := by
    rcases hs.sel with h | ⟨a1, a2, a3, a4, -, -, a7, -⟩
    · rw [h] at hle; simp only at hle; omega
    · by_contra hcon
      have := corner_farthest hn ⟨a1, a2⟩ ⟨a3, a4⟩ (by omega)
      omega
  rw [hex.1, hex.2] at hr
  refine ⟨g, g1, hgen, by simp [generateLevel, hgen, hp], hco, by rw [hr]; simp, ?_, ?_⟩
  · intro x y hne
    rw [hr, if_neg (by tauto)]
  · intro x y h1 h2 h3 h4 hne
    apply Real.sqrt_lt_sqrt
    · exact_mod_cast hypotSq_nonneg _ _
    · exact_mod_cast corner_farthest hn ⟨h1, h2⟩ ⟨h3, h4⟩ (by omega)

/-- Instance of C2 at size 5, level 1, with the random sequence `7k + 3`. -/
theorem C2_exit_at_far_corner_witness :
    (5 ≤ 5 ∧ 5 % 2 = 1 ∧ 5 * 5 ≤ 25) ∧
    ∃ g g1, generateMaze 25 1 (5 : Nat) (fun k => 7 * k + 3) = some g ∧
      generateLevel 25 1 (5 : Nat) (fun k => 7 * k + 3) = some g1 ∧
      g.read (((5 : Nat) : Int) - 2) (((5 : Nat) : Int) - 2) = some 0 ∧
      g1.read (((5 : Nat) : Int) - 2) (((5 : Nat) : Int) - 2) = some 2 ∧
      (∀ x y : Int, ¬ (x = ((5 : Nat) : Int) - 2 ∧ y = ((5 : Nat) : Int) - 2) →
        g1.read y x = g.read y x) ∧
      ∀ x y : Int, 0 < x → x < ((5 : Nat) : Int) - 1 → 0 < y → y < ((5 : Nat) : Int) - 1 →
        ¬ (x = ((5 : Nat) : Int) - 2 ∧ y = ((5 : Nat) : Int) - 2) →
        Real.sqrt ((hypotSq (1 - x) (1 - y) : Int) : ℝ) <
          Real.sqrt ((hypotSq (1 - (((5 : Nat) : Int) - 2)) (1 - (((5 : Nat) : Int) - 2)) : Int) : ℝ) :=
  ⟨by decide, C2_exit_at_far_corner 5 (by decide) (by decide) 1 (fun k => 7 * k + 3) 25
    (by decide)⟩

/-- C4 fails on the code: the carve of size 3 leaves the single empty cell
`(1,1)`, and `placeExit(1, 1)` then turns the border wall `(0,0)` into the
exit, because no empty cell has a distance above the initial `maxDist = 0`
and `ex`, `ey` keep their zero values. -/
theorem C4_exit_on_border_wall :
    generateMaze 9 1 3 (fun _ => 0) = some [[1, 1, 1], [1, 0, 1], [1, 1, 1]] ∧
    placeExit 3 [[1, 1, 1], [1, 0, 1], [1, 1, 1]] 1 1 = some [[2, 1, 1], [1, 0, 1], [1, 1, 1]] ∧
    generateLevel 9 1 3 (fun _ => 0) = some [[2, 1, 1], [1, 0, 1], [1, 1, 1]] := by
  decide

/-- C9 fails on the code. With size 5, level 1 and the random sequence
`7k + 3` for the carve followed by draws giving `x = 2`, `y = 3`, the chaos
trial picks the interior wall `(2,3)`, whose orthogonal neighbours `(1,3)`
and `(3,3)` are both empty (two, the threshold of level 1), and leaves it a
wall: the count runs over `dirs`, whose offsets are two cells long, so it
sees only `(2,1)`. The trial of `imposibble-backrooms.go` on the same map
counts the adjacent cells and empties `(2,3)`. -/
theorem C9_chaos_counts_two_cells_away :
    (carve 25 5 (fun k => if k < 12 then 7 * k + 3 else k + 1)).map
        (fun s => (s.grid, s.dirs, s.k)) =
      some ([[1, 1, 1, 1, 1], [1, 0, 0, 0, 1], [1, 0, 1, 0, 1], [1, 0, 1, 0, 1], [1, 1, 1, 1, 1]],
        [⟨-2, 0⟩, ⟨2, 0⟩, ⟨0, 2⟩, ⟨0, -2⟩], 12) ∧
    intn (fun k => if k < 12 then 7 * k + 3 else k + 1) 12 (5 - 2) = some 1 ∧
    intn (fun k => if k < 12 then 7 * k + 3 else k + 1) 13 (5 - 2) = some 2 ∧
    Grid.read [[1, 1, 1, 1, 1], [1, 0, 0, 0, 1], [1, 0, 1, 0, 1], [1, 0, 1, 0, 1],
      [1, 1, 1, 1, 1]] 3 2 = some 1 ∧
    Grid.read [[1, 1, 1, 1, 1], [1, 0, 0, 0, 1], [1, 0, 1, 0, 1], [1, 0, 1, 0, 1],
      [1, 1, 1, 1, 1]] 3 1 = some 0 ∧
    Grid.read [[1, 1, 1, 1, 1], [1, 0, 0, 0, 1], [1, 0, 1, 0, 1], [1, 0, 1, 0, 1],
      [1, 1, 1, 1, 1]] 3 3 = some 0 ∧
    minOpenNeighbors 1 = 2 ∧
    chaosTrial 5 (minOpenNeighbors 1) (fun k => if k < 12 then 7 * k + 3 else k + 1)
        [⟨-2, 0⟩, ⟨2, 0⟩, ⟨0, 2⟩, ⟨0, -2⟩]
        ([[1, 1, 1, 1, 1], [1, 0, 0, 0, 1], [1, 0, 1, 0, 1], [1, 0, 1, 0, 1], [1, 1, 1, 1, 1]], 12) =
      some ([[1, 1, 1, 1, 1], [1, 0, 0, 0, 1], [1, 0, 1, 0, 1], [1, 0, 1, 0, 1],
        [1, 1, 1, 1, 1]], 14) ∧
    chaosAtB [[1, 1, 1, 1, 1], [1, 0, 0, 0, 1], [1, 0, 1, 0, 1], [1, 0, 1, 0, 1],
        [1, 1, 1, 1, 1]] 2 3 =
      some [[1, 1, 1, 1, 1], [1, 0, 0, 0, 1], [1, 0, 1, 0, 1], [1, 0, 0, 0, 1], [1, 1, 1, 1, 1]] := by
  decide

theorem tmod_two_eq_zero_iff (a : Int) : a.tmod 2 = 0 ↔ a % 2 = 0 := by
  rw [← Int.dvd_iff_tmod_eq_zero, Int.dvd_iff_emod_eq_zero]

/-- C10. Level-growth law: in both programs, for every current size, the
size computed on level-up is odd and strictly greater than the current size. -/
theorem C10_level_growth (currentSize : Int) :
    (Odd (nextSize currentSize) ∧ currentSize < nextSize currentSize) ∧
    (Odd (nextSizeB currentSize) ∧ currentSize < nextSizeB currentSize) := by
  unfold nextSize nextSizeB
  simp only [tmod_two_eq_zero_iff, Int.odd_iff]
  constructor <;> split <;> constructor <;> omega

/-! ## Ray marching -/

theorem goInt_of_nonneg {K : Type} [LinearOrderedField K] [FloorRing K] {x : K} (h : 0 ≤ x) : goInt x = ⌊x⌋ := by
  unfold goInt; rw [if_pos h]

/-- An index accepted by the bounds test of `castRay` comes from a coordinate in `(-1, n)`. -/
theorem goInt_range {K : Type} [LinearOrderedField K] [FloorRing K] {x : K} {n : Int} (h0 : 0 ≤ goInt x) (h1 : goInt x < n) :
    (-1 : K) < x ∧ x < (n : K) := by
  unfold goInt at h0 h1
  by_cases hx : 0 ≤ x
  · rw [if_pos hx] at h0 h1
    exact ⟨by linarith, Int.floor_lt.1 h1⟩
  · rw [if_neg hx] at h0 h1
    have hx' : x < 0 := not_le.1 hx
    have h2 : (-1 : Int) < ⌈x⌉ := by omega
    have h3 := Int.lt_ceil.1 h2
    have h4 : (0 : K) < (n : K) := by
      have : (0 : Int) < n := by omega
      exact_mod_cast this
    exact ⟨by simpa using h3, by linarith⟩

/-- A coordinate in `[0, n)` passes the bounds test of `castRay`. -/
theorem goInt_inb {K : Type} [LinearOrderedField K] [FloorRing K] {x : K} {n : Int} (h0 : 0 ≤ x) (h1 : x < (n : K)) :
    0 ≤ goInt x ∧ goInt x < n := by
  rw [goInt_of_nonneg h0]
  exact ⟨Int.floor_nonneg.2 h0, Int.floor_lt.2 h1⟩

theorem dir_bounds {K : Type} [LinearOrderedField K] {c s : K} (h : c ^ 2 + s ^ 2 = 1) :
    (-1 ≤ c ∧ c ≤ 1) ∧ (-1 ≤ s ∧ s ≤ 1) ∧
      (1 / 2 ≤ c ∨ c ≤ -(1 / 2) ∨ 1 / 2 ≤ s ∨ s ≤ -(1 / 2)) := by
  refine ⟨⟨by nlinarith [sq_nonneg s, sq_nonneg (c + 1), sq_nonneg (c - 1)],
    by nlinarith [sq_nonneg s, sq_nonneg (c + 1), sq_nonneg (c - 1)]⟩,
    ⟨by nlinarith [sq_nonneg c, sq_nonneg (s + 1), sq_nonneg (s - 1)],
    by nlinarith [sq_nonneg c, sq_nonneg (s + 1), sq_nonneg (s - 1)]⟩, ?_⟩
  by_contra hcon
  push_neg at hcon
  obtain ⟨h1, h2, h3, h4⟩ := hcon
  nlinarith [mul_pos (sub_pos.2 h1) (sub_pos.2 h2), mul_pos (sub_pos.2 h3) (sub_pos.2 h4)]

/-- While both sampled coordinates lie in `(-1, n)`, fewer than `40 (n+1)`
steps of `0.05` have been made. -/
theorem steps_lt {K : Type} [LinearOrderedField K] {n k : Nat} {px py c s : K} (h : c ^ 2 + s ^ 2 = 1)
    (hpx : 0 ≤ px ∧ px < (n : K)) (hpy : 0 ≤ py ∧ py < (n : K))
    (hx : (-1 : K) < px + c * ((k : K) * (5 / 100)) ∧ px + c * ((k : K) * (5 / 100)) < (n : K))
    (hy : (-1 : K) < py + s * ((k : K) * (5 / 100)) ∧ py + s * ((k : K) * (5 / 100)) < (n : K)) :
    k < 40 * (n + 1) := by
  have hk : (0 : K) ≤ (k : K) := Nat.cast_nonneg k
  have hn0 : (0 : K) ≤ (n : K) := Nat.cast_nonneg n
  have key : (k : K) < 40 * ((n : K) + 1) := by
    rcases (dir_bounds h).2.2 with h1 | h1 | h1 | h1
    · have := mul_nonneg hk (sub_nonneg.2 h1)
      linarith [hx.2, hpx.1]
    · have := mul_nonneg hk (sub_nonneg.2 (neg_le_neg h1))
      linarith [hx.1, hpx.2]
    · have := mul_nonneg hk (sub_nonneg.2 h1)
      linarith [hy.2, hpy.1]
    · have := mul_nonneg hk (sub_nonneg.2 (neg_le_neg h1))
      linarith [hy.1, hpy.2]
  have : ((k : Nat) : K) < ((40 * (n + 1) : Nat) : K) := by push_cast; linarith
  exact_mod_cast this

/-- The marching loop returns on every `n` by `n` map when started inside
it, and reads the map only after the bounds test. -/
theorem castRayLoop_total {K : Type} [LinearOrderedField K] [FloorRing K] {n : Nat} {g : Grid}
    (hd : Dim n g) {px py c s : K}
    (h : c ^ 2 + s ^ 2 = 1) (hpx : 0 ≤ px ∧ px < (n : K)) (hpy : 0 ≤ py ∧ py < (n : K)) :
    ∀ (fuel k : Nat) (cell : Int), k ≤ 40 * (n + 1) → 40 * (n + 1) < k + fuel →
      ∃ r, castRayLoop (n : Int) g px py c s (5 / 100) fuel ((k : K) * (5 / 100)) cell = some r ∧
        0 ≤ r.1 := by
  intro fuel
  induction fuel with
  | zero => intro k cell h1 h2; omega
  | succ fuel ih =>
    intro k cell h1 h2
    have hd0 : (0 : K) ≤ (k : K) * (5 / 100) := by positivity
    unfold castRayLoop
    simp only
    split
    · exact ⟨_, rfl, hd0⟩
    · rename_i hin
      push_neg at hin
      obtain ⟨a1, a2, a3, a4⟩ := hin
      obtain ⟨v, hv⟩ := grid_read_some_of_inb hd (y := goInt (py + s * ((k : K) * (5 / 100))))
        (x := goInt (px + c * ((k : K) * (5 / 100)))) a3 a4 a1 a2
      rw [hv]
      simp only
      split
      · exact ⟨_, rfl, hd0⟩
      · have hx := goInt_range (K := K) a1 a2
        have hy := goInt_range (K := K) a3 a4
        simp only [Int.cast_natCast] at hx hy
        have hlt := steps_lt h hpx hpy hx hy
        have e : (k : K) * (5 / 100) + 5 / 100 = ((k + 1 : Nat) : K) * (5 / 100) := by
          push_cast; ring
        rw [e]
        exact ih (k + 1) v (by omega) (by omega)

/-- On a map whose border is all walls, a march started inside the map ends
on a wall or exit cell. -/
theorem castRayLoop_wall {K : Type} [LinearOrderedField K] [FloorRing K] {n : Nat} {g : Grid}
    (hd : Dim n g)
    (hb : ∀ x y : Int, 0 ≤ x → x < n → 0 ≤ y → y < n →
      (x = 0 ∨ x = (n : Int) - 1 ∨ y = 0 ∨ y = (n : Int) - 1) → g.read y x = some 1)
    {px py c s : K} (h : c ^ 2 + s ^ 2 = 1)
    (hpx : 0 ≤ px ∧ px < (n : K)) (hpy : 0 ≤ py ∧ py < (n : K)) :
    ∀ (fuel k : Nat) (cell : Int), k ≤ 40 * (n + 1) → 40 * (n + 1) < k + fuel →
      (0 ≤ px + c * ((k : K) * (5 / 100)) ∧ px + c * ((k : K) * (5 / 100)) < (n : K)) →
      (0 ≤ py + s * ((k : K) * (5 / 100)) ∧ py + s * ((k : K) * (5 / 100)) < (n : K)) →
      ∃ r, castRayLoop (n : Int) g px py c s (5 / 100) fuel ((k : K) * (5 / 100)) cell = some r ∧
        (r.2 = 1 ∨ r.2 = 2) := by
  intro fuel
  induction fuel with
  | zero => intro k cell h1 h2; omega
  | succ fuel ih =>
    intro k cell h1 h2 hx hy
    have ix := goInt_inb (n := (n : Int)) hx.1 (by simpa using hx.2)
    have iy := goInt_inb (n := (n : Int)) hy.1 (by simpa using hy.2)
    unfold castRayLoop
    simp only
    rw [if_neg (by omega)]
    obtain ⟨v, hv⟩ := grid_read_some_of_inb hd (y := goInt (py + s * ((k : K) * (5 / 100))))
      (x := goInt (px + c * ((k : K) * (5 / 100)))) iy.1 iy.2 ix.1 ix.2
    rw [hv]
    simp only
    split
    · rename_i hv12; exact ⟨_, rfl, hv12⟩
    · rename_i hv12
      have hnb : ¬ (goInt (px + c * ((k : K) * (5 / 100))) = 0 ∨
          goInt (px + c * ((k : K) * (5 / 100))) = (n : Int) - 1 ∨
          goInt (py + s * ((k : K) * (5 / 100))) = 0 ∨
          goInt (py + s * ((k : K) * (5 / 100))) = (n : Int) - 1) := by
        intro hbd
        have := hb _ _ ix.1 ix.2 iy.1 iy.2 hbd
        rw [hv] at this
        simp only [Option.some.injEq] at this
        exact hv12 (Or.inl this)
      simp only [goInt_of_nonneg hx.1, goInt_of_nonneg hy.1] at hnb ix iy
      have hx1 : (1 : K) ≤ px + c * ((k : K) * (5 / 100)) := by
        have : (1 : Int) ≤ ⌊px + c * ((k : K) * (5 / 100))⌋ := by omega
        simpa using Int.le_floor.1 this
      have hx2 : px + c * ((k : K) * (5 / 100)) < (n : K) - 1 := by
        have : ⌊px + c * ((k : K) * (5 / 100))⌋ < (n : Int) - 1 := by omega
        simpa using Int.floor_lt.1 this
      have hy1 : (1 : K) ≤ py + s * ((k : K) * (5 / 100)) := by
        have : (1 : Int) ≤ ⌊py + s * ((k : K) * (5 / 100))⌋ := by omega
        simpa using Int.le_floor.1 this
      have hy2 : py + s * ((k : K) * (5 / 100)) < (n : K) - 1 := by
        have : ⌊py + s * ((k : K) * (5 / 100))⌋ < (n : Int) - 1 := by omega
        simpa using Int.floor_lt.1 this
      have hlt := steps_lt h hpx hpy ⟨by linarith, hx.2⟩ ⟨by linarith, hy.2⟩
      obtain ⟨⟨c1, c2⟩, ⟨s1, s2⟩, -⟩ := dir_bounds h
      have e : (k : K) * (5 / 100) + 5 / 100 = ((k + 1 : Nat) : K) * (5 / 100) := by
        push_cast; ring
      rw [e]
      have ex : px + c * (((k + 1 : Nat) : K) * (5 / 100)) =
          px + c * ((k : K) * (5 / 100)) + c * (5 / 100) := by push_cast; ring
      have ey : py + s * (((k + 1 : Nat) : K) * (5 / 100)) =
          py + s * ((k : K) * (5 / 100)) + s * (5 / 100) := by push_cast; ring
      refine ih (k + 1) v (by omega) (by omega) ?_ ?_
      · rw [ex]; constructor <;> linarith
      · rw [ey]; constructor <;> linarith

/-- C5. For every grid of side `n`, every start `(px, py)` with
`0 ≤ px < n` and `0 ≤ py < n` and every angle, `castRay` (over the reals,
`int()` truncating toward zero) returns: the march ends within
`40 (n + 1)` steps, every read of the map is in range, and the returned
distance is strictly positive. -/
theorem C5_castRay_returns_positive (n : Nat) (g : Grid) (hd : Dim n g) (px py angle : ℝ)
    (hx0 : 0 ≤ px) (hx1 : px < n) (hy0 : 0 ≤ py) (hy1 : py < n)
    (fuel : Nat) (hf : 40 * (n + 1) < fuel) :
    ∃ d cell, castRay fuel n g px py (Real.cos angle) (Real.sin angle) = some (d, cell) ∧
      0 < d := by
  obtain ⟨r, hr, h0⟩ := castRayLoop_total hd (Real.cos_sq_add_sin_sq angle) ⟨hx0, hx1⟩
    ⟨hy0, hy1⟩ fuel 0 0 (by omega) (by omega)
  simp only [Nat.cast_zero, zero_mul] at hr
  refine ⟨if r.1 = 0 then 1 / 10 else r.1, r.2, by simp [castRay, hr], ?_⟩
  split
  · norm_num
  · rename_i hne; exact lt_of_le_of_ne h0 (Ne.symm hne)

/-- Instance of C5: the 3 by 3 map with one empty cell, from `(1.5, 1.5)` at angle 0. -/
theorem C5_castRay_returns_positive_witness :
    ∃ d cell, castRay 161 (3 : Nat) [[1, 1, 1], [1, 0, 1], [1, 1, 1]] (3 / 2 : ℝ) (3 / 2)
      (Real.cos 0) (Real.sin 0) = some (d, cell) ∧ 0 < d :=
  C5_castRay_returns_positive 3 [[1, 1, 1], [1, 0, 1], [1, 1, 1]] (by simp [Dim]) (3 / 2) (3 / 2) 0
    (by norm_num) (by norm_num) (by norm_num) (by norm_num) 161 (by decide)

/-- C6. For every grid whose border cells are all walls, every start inside
the grid and every angle, `castRay` returns the cell kind `1` (wall) or `2`
(exit), never `0`. -/
theorem C6_castRay_hits_wall_or_exit (n : Nat) (g : Grid) (hd : Dim n g)
    (hb : ∀ x y : Int, 0 ≤ x → x < n → 0 ≤ y → y < n →
      (x = 0 ∨ x = (n : Int) - 1 ∨ y = 0 ∨ y = (n : Int) - 1) → g.read y x = some 1)
    (px py angle : ℝ) (hx0 : 0 ≤ px) (hx1 : px < n) (hy0 : 0 ≤ py) (hy1 : py < n)
    (fuel : Nat) (hf : 40 * (n + 1) < fuel) :
    ∃ d cell, castRay fuel n g px py (Real.cos angle) (Real.sin angle) = some (d, cell) ∧
      (cell = 1 ∨ cell = 2) := by
  obtain ⟨r, hr, h12⟩ := castRayLoop_wall hd hb (Real.cos_sq_add_sin_sq angle) ⟨hx0, hx1⟩
    ⟨hy0, hy1⟩ fuel 0 0 (by omega) (by omega) (by simpa using ⟨hx0, hx1⟩)
    (by simpa using ⟨hy0, hy1⟩)
  simp only [Nat.cast_zero, zero_mul] at hr
  exact ⟨if r.1 = 0 then 1 / 10 else r.1, r.2, by simp [castRay, hr], h12⟩

/-- Instance of C6: the 3 by 3 map with one empty cell, from `(1.5, 1.5)` at angle 1. -/
theorem C6_castRay_hits_wall_or_exit_witness :
    ∃ d cell, castRay 161 (3 : Nat) [[1, 1, 1], [1, 0, 1], [1, 1, 1]] (3 / 2 : ℝ) (3 / 2)
      (Real.cos 1) (Real.sin 1) = some (d, cell) ∧ (cell = 1 ∨ cell = 2) := by
  have hd : Dim 3 [[1, 1, 1], [1, 0, 1], [1, 1, 1]] := by simp [Dim]
  refine C6_castRay_hits_wall_or_exit 3 _ hd ?_ (3 / 2) (3 / 2) 1
    (by norm_num) (by norm_num) (by norm_num) (by norm_num) 161 (by decide)
  intro x y h1 h2 h3 h4 hb
  simp only [Nat.cast_ofNat] at h2 h4 hb
  interval_cases x <;> interval_cases y <;> simp [Grid.read] at hb ⊢

/-! ## Adding a leaf to a forest -/

/-- A vertex without neighbours is reachable only from itself. -/
theorem reachable_of_isolated {V : Type} {G : SimpleGraph V} {b : V}
    (hiso : ∀ q, ¬ G.Adj b q) {y : V} (h : G.Reachable b y) : y = b := by
  obtain ⟨p⟩ := h
  cases p with
  | nil => rfl
  | cons hadj _ => exact absurd hadj (hiso _)

/-- A map of vertices that sends edges to connected pairs sends connected
pairs to connected pairs. -/
theorem reachable_map {V : Type} {H H1 : SimpleGraph V} (f : V → V)
    (hstep : ∀ x y, H.Adj x y → H1.Reachable (f x) (f y)) {x y : V}
    (h : H.Reachable x y) : H1.Reachable (f x) (f y) := by
  obtain ⟨p⟩ := h
  induction p with
  | nil => exact SimpleGraph.Reachable.refl _
  | cons hadj _ ih => exact SimpleGraph.Reachable.trans (hstep _ _ hadj) ih

/-- Joining a vertex without neighbours to a forest by one edge gives a forest. -/
theorem acyclic_add_leaf {V : Type} {G G1 : SimpleGraph V} {a b : V} (hab : a ≠ b)
    (hiso : ∀ q, ¬ G.Adj b q)
    (hadj : ∀ p q, G1.Adj p q ↔ G.Adj p q ∨ (p = a ∧ q = b) ∨ (p = b ∧ q = a))
    (hG : G.IsAcyclic) : G1.IsAcyclic := by
  classical
  rw [SimpleGraph.isAcyclic_iff_forall_adj_isBridge] at hG ⊢
  intro v w hvw
  rw [SimpleGraph.isBridge_iff]
  refine ⟨hvw, ?_⟩
  have hisoL : ∀ q, ¬ G.Adj q b := fun q h => hiso q h.symm
  rcases (hadj v w).1 hvw with hg | hnew
  · -- an old edge: contract the new leaf onto `a`
    have hbr := (SimpleGraph.isBridge_iff.1 (hG hg)).2
    have hvb : v ≠ b := fun e => hiso w (e ▸ hg)
    have hwb : w ≠ b := fun e => hisoL v (e ▸ hg)
    intro hre
    apply hbr
    have key : (G \ SimpleGraph.fromEdgeSet {s(v, w)}).Reachable
        (if v = b then a else v) (if w = b then a else w) := by
      refine reachable_map (fun x => if x = b then a else x) ?_ hre
      intro x1 z1 hstep
      rw [SimpleGraph.sdiff_adj] at hstep
      rcases (hadj _ _).1 hstep.1 with h1 | ⟨rfl, rfl⟩ | ⟨rfl, rfl⟩
      · have hx1 : x1 ≠ b := fun e => hiso z1 (e ▸ h1)
        have hz1 : z1 ≠ b := fun e => hisoL x1 (e ▸ h1)
        simp only [if_neg hx1, if_neg hz1]
        exact SimpleGraph.Adj.reachable (by
          rw [SimpleGraph.sdiff_adj]; exact ⟨h1, hstep.2⟩)
      · simp only [if_neg hab, if_pos]
        exact SimpleGraph.Reachable.refl _
      · simp only [if_neg hab, if_pos]
        exact SimpleGraph.Reachable.refl _
    rwa [if_neg hvb, if_neg hwb] at key
  · -- the new edge: without it the leaf has no neighbour
    have hle : ∀ x y, (G1 \ SimpleGraph.fromEdgeSet {s(v, w)}).Adj x y → G.Adj x y := by
      intro x y hxy
      rw [SimpleGraph.sdiff_adj, SimpleGraph.fromEdgeSet_adj] at hxy
      rcases (hadj _ _).1 hxy.1 with h1 | h1 | h1
      · exact h1
      · exfalso
        apply hxy.2
        refine ⟨?_, by rw [h1.1, h1.2]; exact hab⟩
        rw [Set.mem_singleton_iff, Sym2.eq_iff]
        rcases hnew with h2 | h2
        · left; exact ⟨h1.1.trans h2.1.symm, h1.2.trans h2.2.symm⟩
        · right; exact ⟨h1.1.trans h2.2.symm, h1.2.trans h2.1.symm⟩
      · exfalso
        apply hxy.2
        refine ⟨?_, by rw [h1.1, h1.2]; exact hab.symm⟩
        rw [Set.mem_singleton_iff, Sym2.eq_iff]
        rcases hnew with h2 | h2
        · right; exact ⟨h1.1.trans h2.2.symm, h1.2.trans h2.1.symm⟩
        · left; exact ⟨h1.1.trans h2.1.symm, h1.2.trans h2.2.symm⟩
    intro hre
    have hG' : G.Reachable v w :=
      reachable_map (fun x => x) (fun x y h => (hle x y h).reachable) hre
    rcases hnew with ⟨rfl, rfl⟩ | ⟨rfl, rfl⟩
    · exact hab (reachable_of_isolated hiso hG'.symm)
    · exact hab (reachable_of_isolated hiso hG')

/-! ## The maze graph along the carve -/

theorem mazeGraph_adj {k : Nat} {g : Grid} (a b : Fin k × Fin k) :
    (mazeGraph k g).Adj a b ↔
      ((a.1 = b.1 ∧ (a.2.val + 1 = b.2.val ∨ b.2.val + 1 = a.2.val)) ∨
        (a.2 = b.2 ∧ (a.1.val + 1 = b.1.val ∨ b.1.val + 1 = a.1.val))) ∧
      g.read ((a.2.val : Int) + (b.2.val : Int) + 1) ((a.1.val : Int) + (b.1.val : Int) + 1)
        = some 0 := Iff.rfl

/-- A carve step adds exactly the edge between the current cell and the new cell. -/
theorem mazeGraph_carved {n k : Nat} {g g1 : Grid} {cx cy ux uy : Int}
    (h : Carved n g g1 cx cy ux uy) {a b : Fin k × Fin k}
    (ha : 2 * (a.1.val : Int) + 1 = cx ∧ 2 * (a.2.val : Int) + 1 = cy)
    (hb : 2 * (b.1.val : Int) + 1 = cx + 2 * ux ∧ 2 * (b.2.val : Int) + 1 = cy + 2 * uy)
    (p q : Fin k × Fin k) :
    (mazeGraph k g1).Adj p q ↔ (mazeGraph k g).Adj p q ∨ (p = a ∧ q = b) ∨ (p = b ∧ q = a) := by
  have hu := h.unit
  unfold UnitDir at hu
  rw [mazeGraph_adj, mazeGraph_adj, h.rd]
  constructor
  · rintro ⟨hL, hr⟩
    split at hr
    · rename_i hh
      right
      have h1 : p.1 = q.1 → p.1.val = q.1.val := fun e => congrArg Fin.val e
      have h2 : p.2 = q.2 → p.2.val = q.2.val := fun e => congrArg Fin.val e
      have key : (p.1.val = a.1.val ∧ p.2.val = a.2.val ∧ q.1.val = b.1.val ∧
          q.2.val = b.2.val) ∨ (p.1.val = b.1.val ∧ p.2.val = b.2.val ∧ q.1.val = a.1.val ∧
          q.2.val = a.2.val) := by
        rcases hL with ⟨e, hL⟩ | ⟨e, hL⟩
        · have := h1 e; omega
        · have := h2 e; omega
      rcases key with ⟨k1, k2, k3, k4⟩ | ⟨k1, k2, k3, k4⟩
      · left; exact ⟨Prod.ext (Fin.ext k1) (Fin.ext k2), Prod.ext (Fin.ext k3) (Fin.ext k4)⟩
      · right; exact ⟨Prod.ext (Fin.ext k1) (Fin.ext k2), Prod.ext (Fin.ext k3) (Fin.ext k4)⟩
    · left; exact ⟨hL, hr⟩
  · rintro (⟨hL, hr⟩ | ⟨rfl, rfl⟩ | ⟨rfl, rfl⟩)
    · refine ⟨hL, ?_⟩
      split
      · rfl
      · exact hr
    · refine ⟨?_, ?_⟩
      · by_cases e : ux = 0
        · left; exact ⟨Fin.ext (by omega), by omega⟩
        · right; exact ⟨Fin.ext (by omega), by omega⟩
      · rw [if_pos (by omega)]
    · refine ⟨?_, ?_⟩
      · by_cases e : ux = 0
        · left; exact ⟨Fin.ext (by omega), by omega⟩
        · right; exact ⟨Fin.ext (by omega), by omega⟩
      · rw [if_pos (by omega)]

/-- Before a carve step the new cell has no edge in the maze graph. -/
theorem mazeGraph_isolated {n k : Nat} {g : Grid} (hg : GInv n g) {b : Fin k × Fin k}
    (hw : g.read (2 * (b.2.val : Int) + 1) (2 * (b.1.val : Int) + 1) = some 1)
    (q : Fin k × Fin k) : ¬ (mazeGraph k g).Adj b q := by
  rw [mazeGraph_adj]
  rintro ⟨hL, hr⟩
  have he := hg.ends _ _ hr
  have h1 : b.1 = q.1 → b.1.val = q.1.val := fun e => congrArg Fin.val e
  have h2 : b.2 = q.2 → b.2.val = q.2.val := fun e => congrArg Fin.val e
  have hopen : g.read (2 * (b.2.val : Int) + 1) (2 * (b.1.val : Int) + 1) = some 0 := by
    rcases hL with ⟨e, hL | hL⟩ | ⟨e, hL | hL⟩
    · have := h1 e
      have h3 := (he.2 (by omega)).1
      have e1 : (b.2.val : Int) + (q.2.val : Int) + 1 - 1 = 2 * (b.2.val : Int) + 1 := by omega
      have e2 : (b.1.val : Int) + (q.1.val : Int) + 1 = 2 * (b.1.val : Int) + 1 := by omega
      rwa [e1, e2] at h3
    · have := h1 e
      have h3 := (he.2 (by omega)).2
      have e1 : (b.2.val : Int) + (q.2.val : Int) + 1 + 1 = 2 * (b.2.val : Int) + 1 := by omega
      have e2 : (b.1.val : Int) + (q.1.val : Int) + 1 = 2 * (b.1.val : Int) + 1 := by omega
      rwa [e1, e2] at h3
    · have := h2 e
      have h3 := (he.1 (by omega)).1
      have e1 : (b.1.val : Int) + (q.1.val : Int) + 1 - 1 = 2 * (b.1.val : Int) + 1 := by omega
      have e2 : (b.2.val : Int) + (q.2.val : Int) + 1 = 2 * (b.2.val : Int) + 1 := by omega
      rwa [e1, e2] at h3
    · have := h2 e
      have h3 := (he.1 (by omega)).2
      have e1 : (b.1.val : Int) + (q.1.val : Int) + 1 + 1 = 2 * (b.1.val : Int) + 1 := by omega
      have e2 : (b.2.val : Int) + (q.2.val : Int) + 1 = 2 * (b.2.val : Int) + 1 := by omega
      rwa [e1, e2] at h3
  rw [hw] at hopen
  simp at hopen

/-- An interior cell of odd coordinates is a vertex of the maze graph. -/
theorem vertex_of_cell {n k : Nat} (hnk : n = 2 * k + 1) {x y : Int}
    (hx : 0 < x ∧ x < (n : Int) - 1) (hy : 0 < y ∧ y < (n : Int) - 1)
    (hodd : x % 2 = 1 ∧ y % 2 = 1) :
    ∃ v : Fin k × Fin k, 2 * (v.1.val : Int) + 1 = x ∧ 2 * (v.2.val : Int) + 1 = y := by
  refine ⟨(⟨((x - 1) / 2).toNat, by omega⟩, ⟨((y - 1) / 2).toNat, by omega⟩), ?_, ?_⟩
  · simp only; omega
  · simp only; omega

theorem mid_wall {n : Nat} {g g1 : Grid} {cx cy ux uy : Int} (hg : GInv n g)
    (h : Carved n g g1 cx cy ux uy) : g.read (cy + uy) (cx + ux) ≠ some 0 := by
  intro ho
  have he := hg.ends _ _ ho
  have hu := h.unit
  have hodd := h.cur_odd
  have hw := h.nb_wall
  unfold UnitDir at hu
  have hopen : g.read (cy + 2 * uy) (cx + 2 * ux) = some 0 := by
    rcases hu with ⟨rfl, rfl | rfl⟩ | ⟨rfl, rfl | rfl⟩
    · have h3 := (he.2 (by omega)).2
      have e1 : cy + 1 + 1 = cy + 2 * 1 := by ring
      have e2 : cx + 0 = cx + 2 * 0 := by ring
      rwa [e1, e2] at h3
    · have h3 := (he.2 (by omega)).1
      have e1 : cy + -1 - 1 = cy + 2 * -1 := by ring
      have e2 : cx + 0 = cx + 2 * 0 := by ring
      rwa [e1, e2] at h3
    · have h3 := (he.1 (by omega)).2
      have e1 : cx + 1 + 1 = cx + 2 * 1 := by ring
      have e2 : cy + 0 = cy + 2 * 0 := by ring
      rwa [e1, e2] at h3
    · have h3 := (he.1 (by omega)).1
      have e1 : cx + -1 - 1 = cx + 2 * -1 := by ring
      have e2 : cy + 0 = cy + 2 * 0 := by ring
      rwa [e1, e2] at h3
  rw [hw] at hopen
  simp at hopen

theorem latticeOpen_carved {n : Nat} {g g1 : Grid} {cx cy ux uy : Int}
    (h : Carved n g g1 cx cy ux uy) :
    (latticeOpen n g1).card = (latticeOpen n g).card + 1 := by
  have hu := h.unit
  have hodd := h.cur_odd
  have hnb := h.nb_in
  unfold UnitDir at hu
  have hins : latticeOpen n g1 = insert (cx + 2 * ux, cy + 2 * uy) (latticeOpen n g) := by
    ext ⟨x, y⟩
    simp only [latticeOpen, Finset.mem_filter, Finset.mem_insert, Prod.mk.injEq, cells,
      Finset.mem_product, Finset.mem_Ico]
    rw [h.rd]
    constructor
    · rintro ⟨hc, hp, hr⟩
      split at hr
      · rename_i hh
        left; omega
      · right; exact ⟨hc, hp, hr⟩
    · rintro (⟨rfl, rfl⟩ | ⟨hc, hp, hr⟩)
      · exact ⟨by omega, by omega, by simp⟩
      · refine ⟨hc, hp, ?_⟩
        split
        · rfl
        · exact hr
  have hnot : (cx + 2 * ux, cy + 2 * uy) ∉ latticeOpen n g := by
    simp only [latticeOpen, Finset.mem_filter, h.nb_wall]
    simp
  rw [hins, Finset.card_insert_of_not_mem hnot]

theorem connectorOpen_carved {n : Nat} {g g1 : Grid} {cx cy ux uy : Int} (hg : GInv n g)
    (h : Carved n g g1 cx cy ux uy) :
    (connectorOpen n g1).card = (connectorOpen n g).card + 1 := by
  have hu := h.unit
  have hodd := h.cur_odd
  have hnb := h.nb_in
  have hci := hg.inter _ _ h.cur_open
  unfold UnitDir at hu
  have hins : connectorOpen n g1 = insert (cx + ux, cy + uy) (connectorOpen n g) := by
    ext ⟨x, y⟩
    simp only [connectorOpen, Finset.mem_filter, Finset.mem_insert, Prod.mk.injEq, cells,
      Finset.mem_product, Finset.mem_Ico]
    rw [h.rd]
    constructor
    · rintro ⟨hc, hp, hr⟩
      split at hr
      · rename_i hh
        left; omega
      · right; exact ⟨hc, hp, hr⟩
    · rintro (⟨rfl, rfl⟩ | ⟨hc, hp, hr⟩)
      · exact ⟨by omega, by omega, by simp⟩
      · refine ⟨hc, hp, ?_⟩
        split
        · rfl
        · exact hr
  have hnot : (cx + ux, cy + uy) ∉ connectorOpen n g := by
    simp only [connectorOpen, Finset.mem_filter]
    exact fun hh => mid_wall hg h hh.2.2
  rw [hins, Finset.card_insert_of_not_mem hnot]

/-- A carve step keeps the maze graph a forest that joins all empty cells. -/
theorem tinv_carved {n k : Nat} (hnk : n = 2 * k + 1) {g g1 : Grid} {cx cy ux uy : Int}
    (hg : GInv n g) (ht : TInv n k g) (h : Carved n g g1 cx cy ux uy) : TInv n k g1 := by
  have hu := h.unit
  have hodd := h.cur_odd
  have hnb := h.nb_in
  have hci := hg.inter _ _ h.cur_open
  obtain ⟨a, ha⟩ := vertex_of_cell hnk ⟨hci.1, hci.2.1⟩ ⟨hci.2.2.1, hci.2.2.2⟩ hodd
  obtain ⟨b, hb⟩ := vertex_of_cell hnk (x := cx + 2 * ux) (y := cy + 2 * uy)
    ⟨hnb.1, hnb.2.1⟩ ⟨hnb.2.2.1, hnb.2.2.2⟩ (by omega)
  have hab : a ≠ b := by
    intro e
    subst e
    unfold UnitDir at hu
    omega
  have hbw : g.read (2 * (b.2.val : Int) + 1) (2 * (b.1.val : Int) + 1) = some 1 := by
    rw [hb.1, hb.2]; exact h.nb_wall
  have hao : g.read (2 * (a.2.val : Int) + 1) (2 * (a.1.val : Int) + 1) = some 0 := by
    rw [ha.1, ha.2]; exact h.cur_open
  have hadj := mazeGraph_carved h ha hb
  have hmono : ∀ {u v : Fin k × Fin k}, (mazeGraph k g).Reachable u v →
      (mazeGraph k g1).Reachable u v := fun hr =>
    reachable_map (fun x => x) (fun x y hxy => ((hadj x y).2 (Or.inl hxy)).reachable) hr
  have hedge : (mazeGraph k g1).Reachable a b :=
    ((hadj a b).2 (Or.inr (Or.inl ⟨rfl, rfl⟩))).reachable
  have hold : ∀ u : Fin k × Fin k,
      g1.read (2 * (u.2.val : Int) + 1) (2 * (u.1.val : Int) + 1) = some 0 →
      u = b ∨ g.read (2 * (u.2.val : Int) + 1) (2 * (u.1.val : Int) + 1) = some 0 := by
    intro u hu1
    rw [h.rd] at hu1
    split at hu1
    · rename_i hh
      left
      unfold UnitDir at hu
      exact Prod.ext (Fin.ext (by omega)) (Fin.ext (by omega))
    · right; exact hu1
  have hfrom : ∀ u : Fin k × Fin k,
      g1.read (2 * (u.2.val : Int) + 1) (2 * (u.1.val : Int) + 1) = some 0 →
      (mazeGraph k g1).Reachable a u := by
    intro u hu1
    rcases hold u hu1 with rfl | ho
    · exact hedge
    · exact hmono (ht.conn a u hao ho)
  refine ⟨acyclic_add_leaf hab (mazeGraph_isolated hg hbw) hadj ht.acyc, ?_, ?_⟩
  · intro u v hu1 hv1
    exact (hfrom u hu1).symm.trans (hfrom v hv1)
  · rw [latticeOpen_carved h, connectorOpen_carved hg h, ht.cnt]

theorem tinv_carveSeq {n k : Nat} (hnk : n = 2 * k + 1) {g g1 : Grid} (hg : GInv n g)
    (ht : TInv n k g) (h : CarveSeq n g g1) : TInv n k g1 := by
  induction h with
  | refl => exact ht
  | step hs hc ih => exact tinv_carved hnk (ginv_carveSeq hg hs) ih hc

/-- At the start of the carve the maze graph has the single empty cell `(1,1)` and no edge. -/
theorem tinv_start {n k : Nat} (hn : 3 ≤ n) {g : Grid} (hs : g.read 1 1 = some 0)
    (honly : ∀ y x, g.read y x = some 0 → x = 1 ∧ y = 1) : TInv n k g := by
  have hno : ∀ p q, ¬ (mazeGraph k g).Adj p q := by
    intro p q hpq
    rw [mazeGraph_adj] at hpq
    have := honly _ _ hpq.2
    omega
  refine ⟨?_, ?_, ?_⟩
  · have : mazeGraph k g = ⊥ := by
      ext p q
      simp only [SimpleGraph.bot_adj, iff_false]
      exact hno p q
    rw [this]
    exact SimpleGraph.isAcyclic_bot
  · intro u v hu hv
    have h1 := honly _ _ hu
    have h2 := honly _ _ hv
    have : u = v := Prod.ext (Fin.ext (by omega)) (Fin.ext (by omega))
    rw [this]
  · have h1 : latticeOpen n g = {(1, 1)} := by
      ext ⟨x, y⟩
      simp only [latticeOpen, Finset.mem_filter, Finset.mem_singleton, Prod.mk.injEq, cells,
        Finset.mem_product, Finset.mem_Ico]
      constructor
      · rintro ⟨-, -, hr⟩; exact honly _ _ hr
      · rintro ⟨rfl, rfl⟩; exact ⟨by omega, by decide, hs⟩
    have h2 : connectorOpen n g = ∅ := by
      ext ⟨x, y⟩
      simp only [connectorOpen, Finset.mem_filter, Finset.not_mem_empty, iff_false]
      rintro ⟨-, hp, hr⟩
      have := honly _ _ hr
      simp only at this hp
      omega
    rw [h1, h2]
    simp

/-- When every interior cell of odd coordinates is empty, there are `k * k` of them. -/
theorem latticeOpen_card {n k : Nat} (hnk : n = 2 * k + 1) {g : Grid} (hc : Complete n g) :
    (latticeOpen n g).card = k * k := by
  have himg : latticeOpen n g = Finset.image
      (fun v : Fin k × Fin k => (2 * (v.1.val : Int) + 1, 2 * (v.2.val : Int) + 1))
      Finset.univ := by
    ext ⟨x, y⟩
    simp only [latticeOpen, Finset.mem_filter, Finset.mem_image, Finset.mem_univ, true_and,
      Prod.mk.injEq, cells, Finset.mem_product, Finset.mem_Ico]
    constructor
    · rintro ⟨hb, hp, -⟩
      obtain ⟨v, hv⟩ := vertex_of_cell hnk (x := x) (y := y) (by omega) (by omega) hp
      exact ⟨v, hv⟩
    · rintro ⟨v, rfl, rfl⟩
      have h1 := v.1.isLt
      have h2 := v.2.isLt
      exact ⟨by omega, by omega,
        hc _ _ (by omega) (by omega) (by omega) (by omega) (by omega) (by omega)⟩
  rw [himg, Finset.card_image_of_injective]
  · simp
  · intro u v huv
    simp only [Prod.mk.injEq] at huv
    exact Prod.ext (Fin.ext (by omega)) (Fin.ext (by omega))

/-- C8. Perfect maze on level 4: for every odd size at least 3 and every
random sequence, `generateMaze(4)` runs no chaos trial and returns a map in
which all `m = ((size-1)/2)^2` interior cells of odd coordinates are empty,
exactly `m - 1` further cells are empty, each of these has exactly one even
coordinate and lies between two empty cells of odd coordinates, and the graph
on the cells of odd coordinates whose edges are these cells is a tree. -/
theorem C8_level4_spanning_tree (n : Nat) (hn : 3 ≤ n) (hodd : n % 2 = 1) (rnd : Nat → Nat)
    (fuel : Nat) (hf : n * n ≤ fuel) :
    chaosCount 4 n = 0 ∧
    ∃ g, generateMaze fuel 4 n rnd = some g ∧
      (∀ x y : Int, 0 < x → x < (n : Int) - 1 → 0 < y → y < (n : Int) - 1 →
        x % 2 = 1 → y % 2 = 1 → g.read y x = some 0) ∧
      (latticeOpen n g).card = ((n - 1) / 2) ^ 2 ∧
      (connectorOpen n g).card + 1 = ((n - 1) / 2) ^ 2 ∧
      (∀ x y : Int, g.read y x = some 0 → ¬ (x % 2 = 1 ∧ y % 2 = 1) →
        (x % 2 = 0 ∧ y % 2 = 1 ∧ g.read y (x - 1) = some 0 ∧ g.read y (x + 1) = some 0) ∨
        (x % 2 = 1 ∧ y % 2 = 0 ∧ g.read (y - 1) x = some 0 ∧ g.read (y + 1) x = some 0)) ∧
      (mazeGraph ((n - 1) / 2) g).IsTree := by
  have hcount : chaosCount 4 n = 0 := by simp [chaosCount, chaosTenths]
  have hnk : n = 2 * ((n - 1) / 2) + 1 := by omega
  obtain ⟨g0, g1, s, -, -, honly, hg1, hs, hseq, hg, -, hc⟩ := carve_spec hn rnd hf
  have ht : TInv n ((n - 1) / 2) s.grid :=
    tinv_carveSeq hnk hg1 (tinv_start hn hg1.start honly) hseq
  have hcard := latticeOpen_card hnk hc
  refine ⟨hcount, s.grid, ?_, ?_, ?_, ?_, ?_, ?_⟩
  · simp [generateMaze, hs, hcount, chaosLoop]
  · intro x y h1 h2 h3 h4 h5 h6
    exact hc y x h5 h6 h1 h2 h3 h4
  · rw [hcard]; ring
  · rw [← ht.cnt, hcard]; ring
  · intro x y ho hp
    have hpar := hg.par _ _ ho
    have he := hg.ends _ _ ho
    by_cases hx : x % 2 = 0
    · left; exact ⟨hx, by omega, (he.1 hx).1, (he.1 hx).2⟩
    · right; exact ⟨by omega, by omega, (he.2 (by omega)).1, (he.2 (by omega)).2⟩
  · have hk : 0 < (n - 1) / 2 := by omega
    haveI : Nonempty (Fin ((n - 1) / 2) × Fin ((n - 1) / 2)) := ⟨(⟨0, hk⟩, ⟨0, hk⟩)⟩
    refine ⟨⟨?_⟩, ht.acyc⟩
    intro u v
    have h1 := u.1.isLt
    have h2 := u.2.isLt
    have h3 := v.1.isLt
    have h4 := v.2.isLt
    exact ht.conn u v
      (hc _ _ (by omega) (by omega) (by omega) (by omega) (by omega) (by omega))
      (hc _ _ (by omega) (by omega) (by omega) (by omega) (by omega) (by omega))

/-- Instance of C8 at size 5 with the random sequence `7k + 3`. -/
theorem C8_level4_spanning_tree_witness :
    (3 ≤ 5 ∧ 5 % 2 = 1 ∧ 5 * 5 ≤ 25) ∧
    (chaosCount 4 (5 : Nat) = 0 ∧
    ∃ g, generateMaze 25 4 (5 : Nat) (fun k => 7 * k + 3) = some g ∧
      (∀ x y : Int, 0 < x → x < ((5 : Nat) : Int) - 1 → 0 < y → y < ((5 : Nat) : Int) - 1 →
        x % 2 = 1 → y % 2 = 1 → g.read y x = some 0) ∧
      (latticeOpen 5 g).card = ((5 - 1) / 2) ^ 2 ∧
      (connectorOpen 5 g).card + 1 = ((5 - 1) / 2) ^ 2 ∧
      (∀ x y : Int, g.read y x = some 0 → ¬ (x % 2 = 1 ∧ y % 2 = 1) →
        (x % 2 = 0 ∧ y % 2 = 1 ∧ g.read y (x - 1) = some 0 ∧ g.read y (x + 1) = some 0) ∨
        (x % 2 = 1 ∧ y % 2 = 0 ∧ g.read (y - 1) x = some 0 ∧ g.read (y + 1) x = some 0)) ∧
      (mazeGraph ((5 - 1) / 2) g).IsTree) :=
  ⟨by decide, C8_level4_spanning_tree 5 (by decide) (by decide) (fun k => 7 * k + 3) 25
    (by decide)⟩

/-- The frame of `placeExit`: on every `n` by `n` grid with `n ≥ 1` and for
every origin it returns an `n` by `n` grid that holds the exit at the cell
it assigned and is the same as before at every other cell. -/
theorem placeExit_frame (n : Nat) (hn : 1 ≤ n) (g : Grid) (hd : Dim n g) (px py : Int) :
    ∃ g1 ex ey, placeExit n g px py = some g1 ∧ Dim n g1 ∧
      g1.read ey ex = some 2 ∧
      ∀ x y, ¬ (x = ex ∧ y = ey) → g1.read y x = g.read y x := by
  obtain ⟨s, g1, -, -, hw, hp⟩ := placeExit_spec hn hd px py
  obtain ⟨hdim, hr⟩ := grid_write_spec hw
  refine ⟨g1, s.ex, s.ey, hp, hdim n hd, by rw [hr]; simp, ?_⟩
  intro x y hne
  rw [hr, if_neg (by tauto)]

/-! ## The result of the march -/

theorem goInt_eq {K : Type} [LinearOrderedField K] [FloorRing K] {x : K} {z : Int}
    (h0 : 0 ≤ x) (h1 : (z : K) ≤ x) (h2 : x < (z : K) + 1) : goInt x = z := by
  rw [goInt_of_nonneg h0, Int.floor_eq_iff]
  exact ⟨h1, h2⟩

/-- More fuel does not change what the carve loop returns. -/
theorem carveLoop_mono (size : Int) (rnd : Nat → Nat) :
    ∀ (fuel : Nat) (s r : CarveState), carveLoop size rnd fuel s = some r →
      ∀ extra : Nat, carveLoop size rnd (fuel + extra) s = some r := by
  intro fuel
  induction fuel with
  | zero =>
    intro s r h extra
    unfold carveLoop at h ⊢
    cases hst : s.stack with
    | nil => simpa [hst] using h
    | cons cur rest => simp [hst] at h
  | succ fuel ih =>
    intro s r h extra
    have e : fuel + 1 + extra = (fuel + extra) + 1 := by omega
    rw [e]
    unfold carveLoop at h ⊢
    cases hst : s.stack with
    | nil => simpa [hst] using h
    | cons cur rest =>
      simp only [hst] at h ⊢
      cases hf : List.foldlM (carveDir size cur) (s.grid, rest) (shuffle rnd s.k s.dirs).1 with
      | none => simp [hf] at h
      | some q =>
        simp only [hf] at h ⊢
        exact ih _ _ h extra

theorem generateMaze_mono {fuel : Nat} {level size : Int} {rnd : Nat → Nat} {g : Grid}
    (h : generateMaze fuel level size rnd = some g) (extra : Nat) :
    generateMaze (fuel + extra) level size rnd = some g := by
  unfold generateMaze carve at h ⊢
  cases h0 : wallGrid size with
  | none => simp [h0] at h
  | some g0 =>
    simp only [h0] at h ⊢
    cases h1 : g0.write 1 1 0 with
    | none => simp [h1] at h
    | some g1 =>
      simp only [h1] at h ⊢
      cases h2 : carveLoop size rnd fuel ⟨g1, [⟨1, 1⟩], dirs0, 0⟩ with
      | none => simp [h2] at h
      | some s =>
        rw [carveLoop_mono size rnd fuel _ s h2 extra]
        simpa [h2] using h

/-- Whatever the fuel, a maze that `generateMaze` returns keeps the carve invariant. -/
theorem generateMaze_some {n : Nat} (hn : 3 ≤ n) (hodd : n % 2 = 1) {level : Int}
    {rnd : Nat → Nat} {fuel : Nat} {g : Grid} (h : generateMaze fuel level n rnd = some g) :
    GInv n g ∧ Complete n g := by
  obtain ⟨g1, h1, hg, hc⟩ := generateMaze_spec hn hodd level rnd
    (show n * n ≤ fuel + n * n by omega)
  rw [generateMaze_mono h (n * n)] at h1
  simp only [Option.some.injEq] at h1
  subst h1
  exact ⟨hg, hc⟩

/-- On a maze of odd side at least 5, `placeExit(1, 1)` turns the cell
`(n-2, n-2)` into the exit and changes nothing else. -/
theorem placeExit_corner {n : Nat} (hn : 5 ≤ n) {g : Grid} (hg : GInv n g)
    (hcm : Complete n g) (hodd : n % 2 = 1) :
    ∃ m, placeExit n g 1 1 = some m ∧ Dim n m ∧
      ∀ y x, m.read y x =
        if y = (n : Int) - 2 ∧ x = (n : Int) - 2 then some 2 else g.read y x := by
  obtain ⟨s, g1, -, hs, hw, hp⟩ := placeExit_spec (by omega) hg.dim 1 1
  obtain ⟨hdim, hr⟩ := grid_write_spec hw
  have hco : g.read ((n : Int) - 2) ((n : Int) - 2) = some 0 :=
    hcm _ _ (by omega) (by omega) (by omega) (by omega) (by omega) (by omega)
  have hle := hs.le ((n : Int) - 2) ((n : Int) - 2) (by omega) (by omega) (by omega) (by omega)
    (by unfold Before; omega) hco
  have hpos : 0 < hypotSq (1 - ((n : Int) - 2)) (1 - ((n : Int) - 2)) := by
    unfold hypotSq
    have hN : (5 : Int) ≤ n := by exact_mod_cast hn
    nlinarith
  have hex : s.ex = (n : Int) - 2 ∧ s.ey = (n : Int) - 2 := by
    rcases hs.sel with h | ⟨a1, a2, a3, a4, -, -, a7, -⟩
    · rw [h] at hle; simp only at hle; omega
    · by_contra hcon
      have := corner_farthest hn ⟨a1, a2⟩ ⟨a3, a4⟩ (by omega)
      omega
  rw [hex.1, hex.2] at hr
  exact ⟨g1, hp, hdim n hg.dim, hr⟩

/-- Whatever the fuel, a level that `generateLevel` returns for an odd size
of at least 5 is a square map with a border of walls and the empty cell
`(1,1)`. -/
theorem generateLevel_some {n : Nat} (hn : 5 ≤ n) (hodd : n % 2 = 1) {level : Int}
    {rnd : Nat → Nat} {fuel : Nat} {m : Grid} (h : generateLevel fuel level n rnd = some m) :
    Dim n m ∧ m.read 1 1 = some 0 ∧
      ∀ x y : Int, 0 ≤ x → x < n → 0 ≤ y → y < n →
        (x = 0 ∨ x = (n : Int) - 1 ∨ y = 0 ∨ y = (n : Int) - 1) → m.read y x = some 1 := by
  unfold generateLevel at h
  cases hgm : generateMaze fuel level n rnd with
  | none => simp [hgm] at h
  | some g =>
    simp only [hgm] at h
    obtain ⟨hg, hcm⟩ := generateMaze_some (by omega) hodd hgm
    obtain ⟨m1, hp, hd, hr⟩ := placeExit_corner hn hg hcm hodd
    rw [hp] at h
    simp only [Option.some.injEq] at h
    subst h
    refine ⟨hd, ?_, ?_⟩
    · rw [hr, if_neg (by omega)]; exact hg.start
    · intro x y h1 h2 h3 h4 hb
      rw [hr, if_neg (by omega)]
      exact minv_border (ginv_toMInv hg) ⟨h1, h2⟩ ⟨h3, h4⟩ hb

/-- With fuel `n * n`, `generateLevel` returns for every odd size of at least 5. -/
theorem generateLevel_total {n : Nat} (hn : 5 ≤ n) (hodd : n % 2 = 1) (level : Int)
    (rnd : Nat → Nat) {fuel : Nat} (hf : n * n ≤ fuel) :
    ∃ m, generateLevel fuel level n rnd = some m := by
  obtain ⟨g, hgm, hg, hcm⟩ := generateMaze_spec (by omega) hodd level rnd hf
  obtain ⟨m, hp, -, -⟩ := placeExit_corner hn hg hcm hodd
  exact ⟨m, by simp [generateLevel, hgm, hp]⟩

/-! ## Movement keeps the player off the walls -/

/-- A player standing on a cell that is not a wall, on a map with a border
of walls, stands strictly inside the border. -/
theorem stands_interior {K : Type} [LinearOrderedField K] [FloorRing K] {n : Nat} {m : Grid}
    (hd : Dim n m)
    (hb : ∀ x y : Int, 0 ≤ x → x < n → 0 ≤ y → y < n →
      (x = 0 ∨ x = (n : Int) - 1 ∨ y = 0 ∨ y = (n : Int) - 1) → m.read y x = some 1)
    {x y : K} (hx : 0 ≤ x) (hy : 0 ≤ y) {c : Int}
    (hc : m.read (goInt y) (goInt x) = some c) (hc1 : c ≠ 1) :
    (1 ≤ x ∧ x < (n : K) - 1) ∧ (1 ≤ y ∧ y < (n : K) - 1) := by
  have hbd := grid_read_bounds hd hc
  have hnb : ¬ (goInt x = 0 ∨ goInt x = (n : Int) - 1 ∨ goInt y = 0 ∨
      goInt y = (n : Int) - 1) := by
    intro h
    have := hb _ _ hbd.2.2.1 hbd.2.2.2 hbd.1 hbd.2.1 h
    rw [hc] at this
    simp only [Option.some.injEq] at this
    exact hc1 this
  simp only [goInt_of_nonneg hx, goInt_of_nonneg hy] at hnb hbd
  refine ⟨⟨?_, ?_⟩, ⟨?_, ?_⟩⟩
  · have : (1 : Int) ≤ ⌊x⌋ := by omega
    simpa using Int.le_floor.1 this
  · have : ⌊x⌋ < (n : Int) - 1 := by omega
    simpa using Int.floor_lt.1 this
  · have : (1 : Int) ≤ ⌊y⌋ := by omega
    simpa using Int.le_floor.1 this
  · have : ⌊y⌋ < (n : Int) - 1 := by omega
    simpa using Int.floor_lt.1 this

/-- One key test of the movement: the lookup is in range, and the player
still stands on a cell that is not a wall. -/
theorem tryMove_safe {K : Type} [LinearOrderedField K] [FloorRing K] {n : Nat} {m : Grid}
    (hd : Dim n m)
    (hb : ∀ x y : Int, 0 ≤ x → x < n → 0 ≤ y → y < n →
      (x = 0 ∨ x = (n : Int) - 1 ∨ y = 0 ∨ y = (n : Int) - 1) → m.read y x = some 1)
    {p : Player K} (hx : 0 ≤ p.x) (hy : 0 ≤ p.y)
    (hc : ∃ c, m.read (goInt p.y) (goInt p.x) = some c ∧ c ≠ 1)
    {nx ny : K} (hdx : p.x - 1 ≤ nx ∧ nx ≤ p.x + 1) (hdy : p.y - 1 ≤ ny ∧ ny ≤ p.y + 1) :
    ∃ q, tryMove m p nx ny = some q ∧ q.angle = p.angle ∧ q.speed = p.speed ∧
      0 ≤ q.x ∧ 0 ≤ q.y ∧ ∃ c, m.read (goInt q.y) (goInt q.x) = some c ∧ c ≠ 1 := by
  obtain ⟨c, hc0, hc1⟩ := hc
  obtain ⟨⟨x1, x2⟩, ⟨y1, y2⟩⟩ := stands_interior hd hb hx hy hc0 hc1
  have hnx : 0 ≤ nx ∧ nx < (n : K) := ⟨by linarith, by linarith⟩
  have hny : 0 ≤ ny ∧ ny < (n : K) := ⟨by linarith, by linarith⟩
  have ix := goInt_inb (n := (n : Int)) hnx.1 (by simpa using hnx.2)
  have iy := goInt_inb (n := (n : Int)) hny.1 (by simpa using hny.2)
  obtain ⟨v, hv⟩ := grid_read_some_of_inb hd iy.1 iy.2 ix.1 ix.2
  by_cases hv1 : v = 1
  · refine ⟨p, by simp [tryMove, hv, hv1], rfl, rfl, hx, hy, c, hc0, hc1⟩
  · exact ⟨⟨nx, ny, p.angle, p.speed⟩, by simp [tryMove, hv, hv1], rfl, rfl, hnx.1, hny.1,
      v, hv, hv1⟩

/-- The movement of one `Update`: both lookups are in range, and the player
ends on a cell that is not a wall, at the same speed. -/
theorem movePhase_safe {K : Type} [LinearOrderedField K] [FloorRing K] {cos sin : K → K}
    (hcs : ∀ a, (-1 ≤ cos a ∧ cos a ≤ 1) ∧ (-1 ≤ sin a ∧ sin a ≤ 1)) {n : Nat} {m : Grid}
    (hd : Dim n m)
    (hb : ∀ x y : Int, 0 ≤ x → x < n → 0 ≤ y → y < n →
      (x = 0 ∨ x = (n : Int) - 1 ∨ y = 0 ∨ y = (n : Int) - 1) → m.read y x = some 1)
    {p : Player K} (hs : 0 ≤ p.speed ∧ p.speed ≤ 1) (hx : 0 ≤ p.x) (hy : 0 ≤ p.y)
    (hc : ∃ c, m.read (goInt p.y) (goInt p.x) = some c ∧ c ≠ 1) (keys : Keys) :
    ∃ q, movePhase cos sin m keys p = some q ∧ q.speed = p.speed ∧
      0 ≤ q.x ∧ 0 ≤ q.y ∧ ∃ c, m.read (goInt q.y) (goInt q.x) = some c ∧ c ≠ 1 := by
  have hstep : ∀ a : K, (-1 ≤ cos a * p.speed ∧ cos a * p.speed ≤ 1) ∧
      (-1 ≤ sin a * p.speed ∧ sin a * p.speed ≤ 1) := by
    intro a
    obtain ⟨⟨c1, c2⟩, ⟨s1, s2⟩⟩ := hcs a
    refine ⟨⟨?_, ?_⟩, ⟨?_, ?_⟩⟩ <;> nlinarith [hs.1, hs.2]
  -- forward
  have hW : ∃ p1, (if keys.w then
        tryMove m p (p.x + cos p.angle * p.speed) (p.y + sin p.angle * p.speed)
      else some p) = some p1 ∧ p1.angle = p.angle ∧ p1.speed = p.speed ∧
      0 ≤ p1.x ∧ 0 ≤ p1.y ∧ ∃ c, m.read (goInt p1.y) (goInt p1.x) = some c ∧ c ≠ 1 := by
    cases keys.w with
    | false => exact ⟨p, by simp, rfl, rfl, hx, hy, hc⟩
    | true =>
      obtain ⟨⟨a1, a2⟩, ⟨b1, b2⟩⟩ := hstep p.angle
      simpa using tryMove_safe hd hb hx hy hc
        (show p.x - 1 ≤ p.x + cos p.angle * p.speed ∧ p.x + cos p.angle * p.speed ≤ p.x + 1
          from ⟨by linarith, by linarith⟩)
        (show p.y - 1 ≤ p.y + sin p.angle * p.speed ∧ p.y + sin p.angle * p.speed ≤ p.y + 1
          from ⟨by linarith, by linarith⟩)
  obtain ⟨p1, hW1, ha1, hs1, hx1, hy1, hc1⟩ := hW
  -- backward
  have hS : ∃ p2, (if keys.s then
        tryMove m p1 (p1.x - cos p1.angle * p1.speed) (p1.y - sin p1.angle * p1.speed)
      else some p1) = some p2 ∧ p2.speed = p.speed ∧
      0 ≤ p2.x ∧ 0 ≤ p2.y ∧ ∃ c, m.read (goInt p2.y) (goInt p2.x) = some c ∧ c ≠ 1 := by
    cases keys.s with
    | false => exact ⟨p1, by simp, hs1, hx1, hy1, hc1⟩
    | true =>
      obtain ⟨⟨a1, a2⟩, ⟨b1, b2⟩⟩ := hstep p1.angle
      rw [← hs1] at a1 a2 b1 b2
      obtain ⟨q, hq, -, hqs, hq1, hq2, hq3⟩ := tryMove_safe hd hb hx1 hy1 hc1
        (show p1.x - 1 ≤ p1.x - cos p1.angle * p1.speed ∧
            p1.x - cos p1.angle * p1.speed ≤ p1.x + 1
          from ⟨by linarith, by linarith⟩)
        (show p1.y - 1 ≤ p1.y - sin p1.angle * p1.speed ∧
            p1.y - sin p1.angle * p1.speed ≤ p1.y + 1
          from ⟨by linarith, by linarith⟩)
      exact ⟨q, by simpa using hq, hqs.trans hs1, hq1, hq2, hq3⟩
  obtain ⟨p2, hS1, hs2, hx2, hy2, hc2⟩ := hS
  have hmp : ∃ q, movePhase cos sin m keys p = some q ∧ q.x = p2.x ∧ q.y = p2.y ∧
      q.speed = p2.speed := by
    simp only [movePhase, hW1, hS1]
    cases keys.a <;> cases keys.d <;> exact ⟨_, rfl, rfl, rfl, rfl⟩
  obtain ⟨q, hq, e1, e2, e3⟩ := hmp
  refine ⟨q, hq, e3.trans hs2, by rw [e1]; exact hx2, by rw [e2]; exact hy2, ?_⟩
  rw [e1, e2]
  exact hc2

theorem goInt_three_halves {K : Type} [LinearOrderedField K] [FloorRing K] :
    goInt (3 / 2 : K) = 1 := by
  apply goInt_eq <;> norm_num

/-- A fresh level with the player at the spawn point is a safe state. -/
theorem safe_spawn {K : Type} [LinearOrderedField K] [FloorRing K] {n : Nat} (hn : 5 ≤ n)
    (hodd : n % 2 = 1) {level : Int} {rnd : Nat → Nat} {fuel : Nat} {m : Grid}
    (h : generateLevel fuel level n rnd = some m) (lv : Int) (fin : Bool) (angle speed : K)
    (hs : 0 ≤ speed ∧ speed ≤ 1) :
    Safe (⟨⟨3 / 2, 3 / 2, angle, speed⟩, lv, fin, n, m⟩ : Game K) := by
  obtain ⟨hd, h11, hb⟩ := generateLevel_some hn hodd h
  refine ⟨⟨n, rfl, hn, hodd, hd⟩, hb, hs, ⟨by norm_num, by norm_num⟩, ⟨0, ?_, by decide⟩⟩
  simp only [goInt_three_halves]
  exact h11

theorem nextSize_odd {c : Int} (h5 : 5 ≤ c) :
    ∃ n : Nat, nextSize c = n ∧ 5 ≤ n ∧ n % 2 = 1 := by
  refine ⟨(nextSize c).toNat, ?_, ?_, ?_⟩ <;>
    · unfold nextSize
      simp only [tmod_two_eq_zero_iff]
      split <;> omega

/-- One `Update` leads from a safe state to a safe state. -/
theorem update_safe {K : Type} [LinearOrderedField K] [FloorRing K] {cos sin : K → K}
    (hcs : ∀ a, (-1 ≤ cos a ∧ cos a ≤ 1) ∧ (-1 ≤ sin a ∧ sin a ≤ 1)) {fuel : Nat}
    {rnd : Nat → Nat} {keys : Keys} {g g1 : Game K} (hsafe : Safe g)
    (h : Update cos sin fuel rnd keys g = some g1) : Safe g1 := by
  obtain ⟨n, hn, hn5, hodd, hd⟩ := hsafe.size
  have hb := hsafe.border
  rw [hn] at hb
  unfold Update at h
  by_cases hfin : g.finished = true
  · rw [if_pos hfin] at h
    by_cases hr : keys.r = true
    · rw [if_pos hr] at h
      cases hgl : generateLevel fuel 1 31 rnd with
      | none => simp [hgl] at h
      | some m =>
        simp only [hgl, Option.some.injEq] at h
        rw [← h]
        have hgl' : generateLevel fuel 1 ((31 : Nat) : Int) rnd = some m := by
          simpa using hgl
        have := safe_spawn (K := K) (n := 31) (by decide) (by decide) hgl' 1 false 0
          g.player.speed hsafe.speed
        simpa using this
    · rw [if_neg hr] at h
      simp only [Option.some.injEq] at h
      rw [← h]; exact hsafe
  · rw [if_neg hfin] at h
    obtain ⟨q, hq, hqs, hqx, hqy, hqc⟩ := movePhase_safe hcs hd hb hsafe.speed hsafe.pos.1
      hsafe.pos.2 hsafe.cell keys
    rw [hq] at h
    simp only at h
    obtain ⟨c, hc, hc1⟩ := hqc
    rw [hc] at h
    simp only at h
    have hstay : ∀ (lv : Int) (fin : Bool), Safe (⟨q, lv, fin, g.currentSize, g.gameMap⟩ : Game K) :=
      fun lv fin => ⟨⟨n, hn, hn5, hodd, hd⟩, hsafe.border, by rw [hqs]; exact hsafe.speed,
        ⟨hqx, hqy⟩, ⟨c, hc, hc1⟩⟩
    by_cases hc2 : c = 2
    · rw [if_pos hc2] at h
      by_cases hl4 : g.level = 4
      · rw [if_pos hl4] at h
        simp only [Option.some.injEq] at h
        rw [← h]; exact hstay _ _
      · rw [if_neg hl4] at h
        obtain ⟨n1, hn1, hn15, hodd1⟩ := nextSize_odd (c := g.currentSize) (by omega)
        cases hgl : generateLevel fuel (g.level + 1) (nextSize g.currentSize) rnd with
        | none => simp [hgl] at h
        | some m =>
          simp only [hgl, Option.some.injEq] at h
          rw [← h, hn1]
          rw [hn1] at hgl
          exact safe_spawn hn15 hodd1 hgl _ _ _ _ (by rw [hqs]; exact hsafe.speed)
    · rw [if_neg hc2] at h
      simp only [Option.some.injEq] at h
      rw [← h]; exact hstay _ _

/-- Every state reached from a safe state by calls of `Update` is safe. -/
theorem run_safe {K : Type} [LinearOrderedField K] [FloorRing K] {cos sin : K → K}
    (hcs : ∀ a, (-1 ≤ cos a ∧ cos a ≤ 1) ∧ (-1 ≤ sin a ∧ sin a ≤ 1)) {g g1 : Game K}
    (hsafe : Safe g) (h : Run cos sin g g1) : Safe g1 := by
  induction h with
  | refl => exact hsafe
  | step fuel rnd keys _ hu ih => exact update_safe hcs ih hu

theorem real_cos_sin_bounds :
    ∀ a : ℝ, (-1 ≤ Real.cos a ∧ Real.cos a ≤ 1) ∧ (-1 ≤ Real.sin a ∧ Real.sin a ≤ 1) :=
  fun a => ⟨⟨Real.neg_one_le_cos a, Real.cos_le_one a⟩, ⟨Real.neg_one_le_sin a, Real.sin_le_one a⟩⟩

/-! ## Levels and sizes -/

/-- One `Update` keeps the level in `1..4`, the size `31 + 12 (level - 1)`
and the map `currentSize` square. -/
theorem update_level {K : Type} [LinearOrderedField K] [FloorRing K] {cos sin : K → K}
    {fuel : Nat} {rnd : Nat → Nat} {keys : Keys} {g g1 : Game K}
    (hinv : 1 ≤ g.level ∧ g.level ≤ 4 ∧ g.currentSize = 31 + 12 * (g.level - 1) ∧
      Dim g.currentSize.toNat g.gameMap)
    (h : Update cos sin fuel rnd keys g = some g1) :
    1 ≤ g1.level ∧ g1.level ≤ 4 ∧ g1.currentSize = 31 + 12 * (g1.level - 1) ∧
      Dim g1.currentSize.toNat g1.gameMap := by
  obtain ⟨hl1, hl4, hsz, hd⟩ := hinv
  unfold Update at h
  by_cases hfin : g.finished = true
  · rw [if_pos hfin] at h
    by_cases hr : keys.r = true
    · rw [if_pos hr] at h
      cases hgl : generateLevel fuel 1 31 rnd with
      | none => simp [hgl] at h
      | some m =>
        simp only [hgl, Option.some.injEq] at h
        rw [← h]
        have hgl' : generateLevel fuel 1 ((31 : Nat) : Int) rnd = some m := by
          simpa using hgl
        have hdm := (generateLevel_some (n := 31) (by decide) (by decide) hgl').1
        exact ⟨by simp, by simp, by simp, by simpa using hdm⟩
    · rw [if_neg hr] at h
      simp only [Option.some.injEq] at h
      rw [← h]; exact ⟨hl1, hl4, hsz, hd⟩
  · rw [if_neg hfin] at h
    cases hmp : movePhase cos sin g.gameMap keys g.player with
    | none => simp [hmp] at h
    | some q =>
      simp only [hmp] at h
      cases hrd : g.gameMap.read (goInt q.y) (goInt q.x) with
      | none => simp [hrd] at h
      | some c =>
        simp only [hrd] at h
        by_cases hc2 : c = 2
        · rw [if_pos hc2] at h
          by_cases hl : g.level = 4
          · rw [if_pos hl] at h
            simp only [Option.some.injEq] at h
            rw [← h]; exact ⟨hl1, hl4, hsz, hd⟩
          · rw [if_neg hl] at h
            have hns : nextSize g.currentSize = 31 + 12 * g.level := by
              unfold nextSize
              simp only [tmod_two_eq_zero_iff]
              split <;> omega
            cases hgl : generateLevel fuel (g.level + 1) (nextSize g.currentSize) rnd with
            | none => simp [hgl] at h
            | some m =>
              simp only [hgl, Option.some.injEq] at h
              rw [← h]
              have hcast : nextSize g.currentSize = (((31 + 12 * g.level).toNat : Nat) : Int) := by
                rw [hns]; omega
              rw [hcast] at hgl
              have hdm := (generateLevel_some (by omega) (by omega) hgl).1
              refine ⟨by simp only; omega, by simp only; omega, by simp only; omega, ?_⟩
              simp only [hns]
              exact hdm
        · rw [if_neg hc2] at h
          simp only [Option.some.injEq] at h
          rw [← h]; exact ⟨hl1, hl4, hsz, hd⟩

/-- The initial state in terms of the level `generateLevel` returns. -/
theorem initGame_eq {K : Type} [LinearOrderedField K] {fuel : Nat} {rnd : Nat → Nat} {m : Grid}
    (h : generateLevel fuel 1 31 rnd = some m) :
    initGame (K := K) fuel rnd = some ⟨⟨3 / 2, 3 / 2, 0, 1 / 10⟩, 1, false, 31, m⟩ := by
  simp only [initGame, h]

theorem generateLevel_cast {fuel : Nat} {level : Int} {rnd : Nat → Nat} {m : Grid}
    (h : generateLevel fuel level ((31 : Nat) : Int) rnd = some m) :
    generateLevel fuel level 31 rnd = some m := by
  simpa using h

/-- C11. In `dream-maze.go`, when the game is not finished, the level is 4
and the player's cell after the movement is the exit, `Update` sets
`finished` and leaves the level 4, the size and the map as they are; and in
a finished state an `Update` without the restart key returns the state
unchanged, whatever movement and turn keys are held. -/
theorem C11_finished_is_terminal (g : Game ℝ) (keys : Keys) (fuel : Nat) (rnd : Nat → Nat) :
    (g.finished = false → g.level = 4 →
      ∀ p, movePhase Real.cos Real.sin g.gameMap keys g.player = some p →
        g.gameMap.read (goInt p.y) (goInt p.x) = some 2 →
        Update Real.cos Real.sin fuel rnd keys g =
          some ⟨p, 4, true, g.currentSize, g.gameMap⟩) ∧
    (g.finished = true → keys.r = false →
      Update Real.cos Real.sin fuel rnd keys g = some g) := by
  constructor
  · intro hf hl p hp hr
    unfold Update
    simp [hf, hp, hr, hl]
  · intro hf hr
    unfold Update
    simp [hf, hr]

/-- Instance of C11: on the 3 by 3 map whose cell `(1,1)` is the exit, at
level 4, an `Update` without keys finishes the game, and a further `Update`
with all movement and turn keys held changes nothing. -/
theorem C11_finished_is_terminal_witness :
    Update Real.cos Real.sin 0 (fun _ => 0) ⟨false, false, false, false, false⟩
        ⟨⟨3 / 2, 3 / 2, 0, 1 / 10⟩, 4, false, 3, [[1, 1, 1], [1, 2, 1], [1, 1, 1]]⟩ =
      some ⟨⟨3 / 2, 3 / 2, 0, 1 / 10⟩, 4, true, 3, [[1, 1, 1], [1, 2, 1], [1, 1, 1]]⟩ ∧
    Update Real.cos Real.sin 0 (fun _ => 0) ⟨true, true, true, true, false⟩
        ⟨⟨3 / 2, 3 / 2, 0, 1 / 10⟩, 4, true, 3, [[1, 1, 1], [1, 2, 1], [1, 1, 1]]⟩ =
      some ⟨⟨3 / 2, 3 / 2, 0, 1 / 10⟩, 4, true, 3, [[1, 1, 1], [1, 2, 1], [1, 1, 1]]⟩ :=
  ⟨(C11_finished_is_terminal
      ⟨⟨3 / 2, 3 / 2, 0, 1 / 10⟩, 4, false, 3, [[1, 1, 1], [1, 2, 1], [1, 1, 1]]⟩
      ⟨false, false, false, false, false⟩ 0 (fun _ => 0)).1 rfl rfl
      ⟨3 / 2, 3 / 2, 0, 1 / 10⟩ (by simp [movePhase])
      (by simp only [goInt_three_halves]; decide),
    (C11_finished_is_terminal
      ⟨⟨3 / 2, 3 / 2, 0, 1 / 10⟩, 4, true, 3, [[1, 1, 1], [1, 2, 1], [1, 1, 1]]⟩
      ⟨true, true, true, true, false⟩ 0 (fun _ => 0)).2 rfl rfl⟩

/-- C18 fails on the code. At level 2 a wall at distance 40.5 (the spawn
point `(1.5, 1.5)` looking along a fully open row 1 of the maze of side 43)
gets the shade `floor(200 / 5.05) = 39`, and the green channel `shade - 40`
wraps in `uint8` to 255, while the nearer wall at distance 40 gets the green
value 0: the farther wall is brighter in that channel. The un-wrapped value
`39 - 40` is negative. -/
theorem C18_green_wraps_at_level_two :
    goInt (200 / (1 + (81 / 2 : ℝ) * (1 / 10))) = 39 ∧
    getWallColor 1 (81 / 2 : ℝ) 2 7 = ⟨46, 255, 9, 255⟩ ∧
    getWallColor 1 (40 : ℝ) 2 7 = ⟨47, 0, 10, 255⟩ := by
  have h1 : goInt (200 / (1 + (81 / 2 : ℝ) * (1 / 10))) = 39 := by
    apply goInt_eq <;> norm_num
  have h2 : goInt (200 / (1 + (40 : ℝ) * (1 / 10))) = 40 := by
    apply goInt_eq <;> norm_num
  refine ⟨h1, ?_, ?_⟩
  · simp only [getWallColor, h1]; decide
  · simp only [getWallColor, h2]; decide

/-! ## Rounding in binary64 -/

theorem log2_eq {q : ℚ} {k : Int} (h1 : (2 : ℚ) ^ k ≤ q) (h2 : q < (2 : ℚ) ^ (k + 1)) :
    Int.log 2 q = k := by
  have hq : 0 < q := lt_of_lt_of_le (zpow_pos (by norm_num) k) h1
  have a := (Int.zpow_le_iff_le_log (b := 2) (by norm_num) hq (x := k)).1 (by exact_mod_cast h1)
  have b := (Int.lt_zpow_iff_log_lt (b := 2) (by norm_num) hq (x := k + 1)).1
    (by exact_mod_cast h2)
  omega

theorem nearestEven_near (m : ℚ) :
    (nearestEven m : ℚ) - 1 / 2 ≤ m ∧ m ≤ (nearestEven m : ℚ) + 1 / 2 := by
  have h1 := Int.floor_le m
  have h2 := Int.lt_floor_add_one m
  unfold nearestEven
  simp only
  split
  · constructor <;> linarith
  · split
    · push_cast; constructor <;> linarith
    · split
      · constructor <;> linarith
      · push_cast; constructor <;> linarith

theorem nearestEven_eq {m : ℚ} {n : Int} (h1 : (n : ℚ) - 1 / 2 < m) (h2 : m < (n : ℚ) + 1 / 2) :
    nearestEven m = n := by
  obtain ⟨a, b⟩ := nearestEven_near m
  have c1 : ((nearestEven m : Int) : ℚ) < (n : ℚ) + 1 := by linarith
  have c2 : ((n : Int) : ℚ) < (nearestEven m : ℚ) + 1 := by linarith
  have d1 : nearestEven m < n + 1 := by exact_mod_cast c1
  have d2 : n < nearestEven m + 1 := by exact_mod_cast c2
  omega

theorem round64_neg (q : ℚ) : round64 (-q) = -round64 q := by
  unfold round64
  by_cases h0 : q = 0
  · simp [h0]
  · rcases lt_or_gt_of_ne h0 with h | h
    · have h' : 0 < -q := by linarith
      have h'' : ¬ 0 < q := by linarith
      simp [h0, h', h'']
    · have h' : ¬ 0 < -q := by linarith
      simp [h0, h', h]

theorem round64_of_pos {q : ℚ} (h : 0 < q) :
    round64 q = nearestEven (q / 2 ^ (Int.log 2 q - 52)) * 2 ^ (Int.log 2 q - 52) := by
  unfold round64
  simp [ne_of_gt h, h, abs_of_pos h]

/-- The value of a binary64 operation: `n * 2^k` when the exact result `q`
lies in the binade `[2^(k+52), 2^(k+53))` and `n` is the integer nearest to `q / 2^k`. -/
theorem round64_eq {q : ℚ} {k n : Int} (h1 : (2 : ℚ) ^ (k + 52) ≤ q) (h2 : q < (2 : ℚ) ^ (k + 53))
    (h3 : ((n : ℚ) - 1 / 2) * 2 ^ k < q) (h4 : q < ((n : ℚ) + 1 / 2) * 2 ^ k) :
    round64 q = n * 2 ^ k := by
  have hq : 0 < q := lt_of_lt_of_le (zpow_pos (by norm_num) _) h1
  have hl : Int.log 2 q = k + 52 := log2_eq h1 (by rw [show k + 52 + 1 = k + 53 by ring]; exact h2)
  rw [round64_of_pos hq, hl, show k + 52 - 52 = k by ring]
  have hk : (0 : ℚ) < 2 ^ k := zpow_pos (by norm_num) k
  rw [nearestEven_eq (n := n)]
  · rwa [lt_div_iff₀ hk]
  · rwa [div_lt_iff₀ hk]

theorem round64_nonneg {q : ℚ} (h : 0 ≤ q) : 0 ≤ round64 q := by
  rcases eq_or_lt_of_le h with h0 | h0
  · simp [round64, ← h0]
  · rw [round64_of_pos h0]
    have hk : (0 : ℚ) < 2 ^ (Int.log 2 q - 52) := zpow_pos (by norm_num) _
    apply mul_nonneg _ (le_of_lt hk)
    obtain ⟨a, b⟩ := nearestEven_near (q / 2 ^ (Int.log 2 q - 52))
    have : (0 : ℚ) < q / 2 ^ (Int.log 2 q - 52) := div_pos h0 hk
    have c : (-1 : ℚ) < (nearestEven (q / 2 ^ (Int.log 2 q - 52)) : ℚ) := by linarith
    have d : (-1 : Int) < nearestEven (q / 2 ^ (Int.log 2 q - 52)) := by exact_mod_cast c
    have e : (0 : Int) ≤ nearestEven (q / 2 ^ (Int.log 2 q - 52)) := by omega
    exact_mod_cast e

/-- Relative error of one rounding: at most `2^-53`. -/
theorem round64_bounds {q : ℚ} (h : 0 ≤ q) :
    q * (1 - 1 / 2 ^ 53) ≤ round64 q ∧ round64 q ≤ q * (1 + 1 / 2 ^ 53) := by
  rcases eq_or_lt_of_le h with h0 | h0
  · simp [round64, ← h0]
  · rw [round64_of_pos h0]
    have hk : (0 : ℚ) < 2 ^ (Int.log 2 q - 52) := zpow_pos (by norm_num) _
    obtain ⟨a, b⟩ := nearestEven_near (q / 2 ^ (Int.log 2 q - 52))
    have hle : (2 : ℚ) ^ (Int.log 2 q) ≤ q := by
      have := Int.zpow_log_le_self (b := 2) (r := q) (by norm_num) h0
      exact_mod_cast this
    have hsplit : (2 : ℚ) ^ (Int.log 2 q) = 2 ^ (Int.log 2 q - 52) * 2 ^ (52 : ℕ) := by
      rw [← zpow_natCast, ← zpow_add₀ (by norm_num : (2 : ℚ) ≠ 0)]
      congr 1; push_cast; ring
    rw [hsplit] at hle
    have e : q / 2 ^ (Int.log 2 q - 52) * 2 ^ (Int.log 2 q - 52) = q := by
      field_simp
    set u := (2 : ℚ) ^ (Int.log 2 q - 52) with hu
    set m := q / u with hm
    have h53 : (2 : ℚ) ^ 53 = 2 * 2 ^ (52 : ℕ) := by norm_num
    have hq : q = m * u := e.symm
    constructor
    · have : (nearestEven m : ℚ) * u ≥ m * u - u / 2 := by nlinarith
      have hh : q * (1 / 2 ^ 53) ≥ u / 2 := by
        rw [h53]; field_simp; nlinarith
      nlinarith
    · have : (nearestEven m : ℚ) * u ≤ m * u + u / 2 := by nlinarith
      have hh : q * (1 / 2 ^ 53) ≥ u / 2 := by
        rw [h53]; field_simp; nlinarith
      nlinarith


theorem log2_half {x : ℚ} {k : Int} (h1 : (2 : ℚ) ^ (2 * k) ≤ x) (h2 : x < (2 : ℚ) ^ (2 * k + 2)) :
    Int.log 2 x / 2 = k := by
  have hq : 0 < x := lt_of_lt_of_le (zpow_pos (by norm_num) _) h1
  have a := (Int.zpow_le_iff_le_log (b := 2) (by norm_num) hq (x := 2 * k)).1
    (by exact_mod_cast h1)
  have b := (Int.lt_zpow_iff_log_lt (b := 2) (by norm_num) hq (x := 2 * k + 2)).1
    (by exact_mod_cast h2)
  omega

/-- The scaled argument of `sqrt64` lies in `[2^104, 2^106)`. -/
theorem sqrt64_scale {x : ℚ} (h : 0 < x) :
    (2 : ℚ) ^ 104 ≤ x / (2 ^ (Int.log 2 x / 2 - 52) * 2 ^ (Int.log 2 x / 2 - 52)) := by
  have hle : (2 : ℚ) ^ (Int.log 2 x) ≤ x := by
    have := Int.zpow_log_le_self (b := 2) (r := x) (by norm_num) h
    exact_mod_cast this
  have hu : (0 : ℚ) < 2 ^ (Int.log 2 x / 2 - 52) := zpow_pos (by norm_num) _
  rw [le_div_iff₀ (mul_pos hu hu)]
  refine le_trans ?_ hle
  rw [← zpow_natCast, ← zpow_add₀ (by norm_num : (2 : ℚ) ≠ 0),
    ← zpow_add₀ (by norm_num : (2 : ℚ) ≠ 0)]
  apply zpow_le_zpow_right₀ (by norm_num)
  push_cast
  omega

theorem sq_le_half_step (f : ℚ) (hf : 0 ≤ f) (t : ℚ) (h : t < (f + 1) ^ 2) :
    t ≤ (f + 1 + 1 / 2) ^ 2 := by
  nlinarith

theorem nat_ge_two_pow_52 {f : Nat} {t : ℚ} (hs : (2 : ℚ) ^ 104 ≤ t) (h : t < ((f : ℚ) + 1) ^ 2) :
    (2 : ℚ) ^ 52 ≤ f := by
  by_contra hc
  have hc2 : f < 4503599627370496 := by
    have := not_le.1 hc
    norm_num at this
    exact this
  have hc3 : f + 1 ≤ 4503599627370496 := by omega
  have hc4 : (f : ℚ) + 1 ≤ 4503599627370496 := by exact_mod_cast hc3
  have hc5 : ((f : ℚ) + 1) ^ 2 ≤ (4503599627370496 : ℚ) ^ 2 :=
    pow_le_pow_left₀ (by positivity) hc4 2
  have hc6 : (4503599627370496 : ℚ) ^ 2 = 2 ^ 104 := by norm_num
  linarith

/-- The result of `sqrt64` is `n * ulp` for the natural number `n` nearest to
the square root of the scaled argument. -/
theorem sqrt64_core {x : ℚ} (h : 0 < x) :
    ∃ n : Nat, sqrt64 x = n * 2 ^ (Int.log 2 x / 2 - 52) ∧ (2 : ℚ) ^ 52 ≤ n ∧
      x / (2 ^ (Int.log 2 x / 2 - 52) * 2 ^ (Int.log 2 x / 2 - 52)) ≤ ((n : ℚ) + 1 / 2) ^ 2 ∧
      ((n : ℚ) ^ 2 ≤ x / (2 ^ (Int.log 2 x / 2 - 52) * 2 ^ (Int.log 2 x / 2 - 52)) ∨
        (((n : ℚ) - 1 / 2) ^ 2 ≤
            x / (2 ^ (Int.log 2 x / 2 - 52) * 2 ^ (Int.log 2 x / 2 - 52)) ∧
          (2 : ℚ) ^ 52 + 1 ≤ n)) := by
  have hs := sqrt64_scale h
  have hval : sqrt64 x = ((if x / (2 ^ (Int.log 2 x / 2 - 52) * 2 ^ (Int.log 2 x / 2 - 52)) <
        (((Nat.sqrt ⌊x / (2 ^ (Int.log 2 x / 2 - 52) * 2 ^ (Int.log 2 x / 2 - 52))⌋₊ : Nat) : ℚ)
          + 1 / 2) ^ 2
      then Nat.sqrt ⌊x / (2 ^ (Int.log 2 x / 2 - 52) * 2 ^ (Int.log 2 x / 2 - 52))⌋₊
      else if (((Nat.sqrt ⌊x / (2 ^ (Int.log 2 x / 2 - 52) * 2 ^ (Int.log 2 x / 2 - 52))⌋₊ : Nat)
          : ℚ) + 1 / 2) ^ 2 < x / (2 ^ (Int.log 2 x / 2 - 52) * 2 ^ (Int.log 2 x / 2 - 52))
      then Nat.sqrt ⌊x / (2 ^ (Int.log 2 x / 2 - 52) * 2 ^ (Int.log 2 x / 2 - 52))⌋₊ + 1
      else if Nat.sqrt ⌊x / (2 ^ (Int.log 2 x / 2 - 52) * 2 ^ (Int.log 2 x / 2 - 52))⌋₊ % 2 = 0
      then Nat.sqrt ⌊x / (2 ^ (Int.log 2 x / 2 - 52) * 2 ^ (Int.log 2 x / 2 - 52))⌋₊
      else Nat.sqrt ⌊x / (2 ^ (Int.log 2 x / 2 - 52) * 2 ^ (Int.log 2 x / 2 - 52))⌋₊ + 1 : Nat)
        : ℚ) * 2 ^ (Int.log 2 x / 2 - 52) := by
    unfold sqrt64
    simp only [not_le.2 h, if_false]
  generalize x / (2 ^ (Int.log 2 x / 2 - 52) * 2 ^ (Int.log 2 x / 2 - 52)) = t at hs hval ⊢
  have ht0 : 0 ≤ t := le_trans (by positivity) hs
  have hfl : ((⌊t⌋₊ : Nat) : ℚ) ≤ t := Nat.floor_le ht0
  have hfl2 : t < (⌊t⌋₊ : ℚ) + 1 := Nat.lt_floor_add_one t
  have hf1 : (Nat.sqrt ⌊t⌋₊) ^ 2 ≤ ⌊t⌋₊ := Nat.sqrt_le' _
  have hf2 : ⌊t⌋₊ < (Nat.sqrt ⌊t⌋₊ + 1) ^ 2 := Nat.lt_succ_sqrt' _
  generalize Nat.sqrt ⌊t⌋₊ = f at hval hf1 hf2
  have hq1 : ((f : ℚ)) ^ 2 ≤ t := by
    have : ((f ^ 2 : Nat) : ℚ) ≤ (⌊t⌋₊ : ℚ) := by exact_mod_cast hf1
    push_cast at this
    linarith
  have hq2 : t < ((f : ℚ) + 1) ^ 2 := by
    have : ((⌊t⌋₊ + 1 : Nat) : ℚ) ≤ (((f + 1) ^ 2 : Nat) : ℚ) := by exact_mod_cast hf2
    push_cast at this
    linarith
  have hf52 : (2 : ℚ) ^ 52 ≤ f := nat_ge_two_pow_52 hs hq2
  have hup : t ≤ (((f + 1 : Nat) : ℚ) + 1 / 2) ^ 2 := by
    push_cast
    exact sq_le_half_step f (Nat.cast_nonneg f) t hq2
  have hf53 : (2 : ℚ) ^ 52 + 1 ≤ ((f + 1 : Nat) : ℚ) := by push_cast; linarith
  have hf52' : (2 : ℚ) ^ 52 ≤ ((f + 1 : Nat) : ℚ) := by push_cast; linarith
  have hcast : (((f + 1 : Nat) : ℚ)) - 1 / 2 = f + 1 / 2 := by push_cast; ring
  by_cases c1 : t < ((f : ℚ) + 1 / 2) ^ 2
  · refine ⟨f, ?_, hf52, le_of_lt c1, Or.inl hq1⟩
    rw [hval, if_pos c1]
  · by_cases c2 : ((f : ℚ) + 1 / 2) ^ 2 < t
    · refine ⟨f + 1, ?_, hf52', hup, Or.inr ⟨?_, hf53⟩⟩
      · rw [hval, if_neg c1, if_pos c2]
      · rw [hcast]; exact le_of_lt c2
    · have e : t = ((f : ℚ) + 1 / 2) ^ 2 := le_antisymm (not_lt.1 c2) (not_lt.1 c1)
      by_cases c3 : f % 2 = 0
      · refine ⟨f, ?_, hf52, le_of_eq e, Or.inl hq1⟩
        rw [hval, if_neg c1, if_neg c2, if_pos c3]
      · refine ⟨f + 1, ?_, hf52', hup, Or.inr ⟨?_, hf53⟩⟩
        · rw [hval, if_neg c1, if_neg c2, if_neg c3]
        · rw [hcast]; exact le_of_eq e.symm

theorem sqrt64_nonneg (x : ℚ) : 0 ≤ sqrt64 x := by
  by_cases h : 0 < x
  · obtain ⟨n, hn, -⟩ := sqrt64_core h
    rw [hn]
    exact mul_nonneg (Nat.cast_nonneg n) (le_of_lt (zpow_pos (by norm_num) _))
  · simp [sqrt64, not_lt.1 h]

/-- Relative error of `sqrt64`, stated on squares. -/
theorem sqrt64_bounds {x : ℚ} (h : 0 < x) :
    x * (1 - 1 / 2 ^ 53) ^ 2 ≤ sqrt64 x ^ 2 ∧ sqrt64 x ^ 2 ≤ x * (1 + 1 / 2 ^ 53) ^ 2 := by
  obtain ⟨n, hn, h52, hup, hlo⟩ := sqrt64_core h
  have hu : (0 : ℚ) < 2 ^ (Int.log 2 x / 2 - 52) := zpow_pos (by norm_num) _
  set u := (2 : ℚ) ^ (Int.log 2 x / 2 - 52) with hudef
  set t := x / (u * u) with ht
  have hx : x = t * (u * u) := by rw [ht]; field_simp
  have hnq : (2 : ℚ) ^ 52 ≤ n := h52
  have hsq : sqrt64 x ^ 2 = (n : ℚ) ^ 2 * (u * u) := by rw [hn]; ring
  have huu : 0 < u * u := mul_pos hu hu
  rw [hsq, hx]
  have key1 : t * (1 - 1 / 2 ^ 53) ^ 2 ≤ (n : ℚ) ^ 2 := by
    have a : ((n : ℚ) + 1 / 2) * (1 - 1 / 2 ^ 53) ≤ n := by nlinarith
    have b : 0 ≤ ((n : ℚ) + 1 / 2) * (1 - 1 / 2 ^ 53) := by
      apply mul_nonneg <;> norm_num
      linarith
    calc t * (1 - 1 / 2 ^ 53) ^ 2 ≤ ((n : ℚ) + 1 / 2) ^ 2 * (1 - 1 / 2 ^ 53) ^ 2 :=
          mul_le_mul_of_nonneg_right hup (sq_nonneg _)
      _ = (((n : ℚ) + 1 / 2) * (1 - 1 / 2 ^ 53)) ^ 2 := by ring
      _ ≤ (n : ℚ) ^ 2 := pow_le_pow_left₀ b a 2
  have key2 : (n : ℚ) ^ 2 ≤ t * (1 + 1 / 2 ^ 53) ^ 2 := by
    have ht0 : 0 ≤ t := le_of_lt (div_pos h huu)
    rcases hlo with hlo | ⟨hlo, h53⟩
    · have : (1 : ℚ) ≤ (1 + 1 / 2 ^ 53) ^ 2 := by norm_num
      nlinarith
    · have hnq' : (2 : ℚ) ^ 52 + 1 ≤ n := h53
      have a : (n : ℚ) ≤ ((n : ℚ) - 1 / 2) * (1 + 1 / 2 ^ 53) := by nlinarith
      have b : (0 : ℚ) ≤ n := Nat.cast_nonneg n
      calc (n : ℚ) ^ 2 ≤ (((n : ℚ) - 1 / 2) * (1 + 1 / 2 ^ 53)) ^ 2 := pow_le_pow_left₀ b a 2
        _ = ((n : ℚ) - 1 / 2) ^ 2 * (1 + 1 / 2 ^ 53) ^ 2 := by ring
        _ ≤ t * (1 + 1 / 2 ^ 53) ^ 2 := mul_le_mul_of_nonneg_right hlo (sq_nonneg _)
  constructor
  · calc t * (u * u) * (1 - 1 / 2 ^ 53) ^ 2 = t * (1 - 1 / 2 ^ 53) ^ 2 * (u * u) := by ring
      _ ≤ (n : ℚ) ^ 2 * (u * u) := mul_le_mul_of_nonneg_right key1 (le_of_lt huu)
  · calc (n : ℚ) ^ 2 * (u * u) ≤ t * (1 + 1 / 2 ^ 53) ^ 2 * (u * u) :=
          mul_le_mul_of_nonneg_right key2 (le_of_lt huu)
      _ = t * (u * u) * (1 + 1 / 2 ^ 53) ^ 2 := by ring

/-- The value of `sqrt64`: `n * 2^k` when `n` is the natural number nearest
to the square root of `x / 4^k` and `x / 4^k` lies in `[2^104, 2^106)`. -/
theorem sqrt64_eq {x : ℚ} {k : Int} {n : Nat} (hn : 1 ≤ n)
    (h1 : (2 : ℚ) ^ (2 * (k + 52)) ≤ x) (h2 : x < (2 : ℚ) ^ (2 * (k + 52) + 2))
    (h3 : (((n : ℚ) - 1 / 2) * 2 ^ k) ^ 2 < x) (h4 : x < (((n : ℚ) + 1 / 2) * 2 ^ k) ^ 2) :
    sqrt64 x = n * 2 ^ k := by
  have hx : 0 < x := lt_of_lt_of_le (zpow_pos (by norm_num) _) h1
  have hl : Int.log 2 x / 2 = k + 52 := log2_half h1 h2
  obtain ⟨n1, hn1, h52, hup, hlo⟩ := sqrt64_core hx
  rw [hl, show k + 52 - 52 = k by ring] at hn1 hup hlo
  have hu : (0 : ℚ) < 2 ^ k := zpow_pos (by norm_num) _
  set u := (2 : ℚ) ^ k with hudef
  have huu : 0 < u * u := mul_pos hu hu
  set t := x / (u * u) with ht
  have hxt : x = t * (u * u) := by rw [ht]; field_simp
  have h3' : ((n : ℚ) - 1 / 2) ^ 2 < t := by
    rw [ht, lt_div_iff₀ huu]; calc _ = (((n : ℚ) - 1 / 2) * u) ^ 2 := by ring
      _ < x := h3
  have h4' : t < ((n : ℚ) + 1 / 2) ^ 2 := by
    rw [ht, div_lt_iff₀ huu]; calc x < (((n : ℚ) + 1 / 2) * u) ^ 2 := h4
      _ = _ := by ring
  have hnq : (1 : ℚ) ≤ n := by exact_mod_cast hn
  have hn1q : (2 : ℚ) ^ 52 ≤ n1 := h52
  have a : (n : ℚ) - 1 / 2 < (n1 : ℚ) + 1 / 2 := by
    by_contra hc
    have hc' := not_lt.1 hc
    have : ((n1 : ℚ) + 1 / 2) ^ 2 ≤ ((n : ℚ) - 1 / 2) ^ 2 :=
      pow_le_pow_left₀ (by linarith) hc' 2
    linarith
  have b : (n1 : ℚ) - 1 / 2 < (n : ℚ) + 1 / 2 := by
    by_contra hc
    have hc' := not_lt.1 hc
    have h5 : ((n : ℚ) + 1 / 2) ^ 2 ≤ ((n1 : ℚ) - 1 / 2) ^ 2 :=
      pow_le_pow_left₀ (by linarith) hc' 2
    rcases hlo with hlo | ⟨hlo, -⟩
    · have : ((n1 : ℚ) - 1 / 2) ^ 2 ≤ (n1 : ℚ) ^ 2 :=
        pow_le_pow_left₀ (by linarith) (by linarith) 2
      linarith
    · linarith
  have a' : (n : ℚ) < (n1 : ℚ) + 1 := by linarith
  have b' : (n1 : ℚ) < (n : ℚ) + 1 := by linarith
  have a'' : n < n1 + 1 := by exact_mod_cast a'
  have b'' : n1 < n + 1 := by exact_mod_cast b'
  have : n1 = n := by omega
  rw [hn1, this]


theorem round64_zero : round64 0 = 0 := by simp [round64]

theorem round64_pos {q : ℚ} (h : 0 < q) : 0 < round64 q := by
  have := (round64_bounds (le_of_lt h)).1
  have e : (0 : ℚ) < 1 - 1 / 2 ^ 53 := by norm_num
  have := mul_pos h e
  linarith

/-- A whole number below `2^53` in size is a binary64 value. -/
theorem round64_int {v : Int} (h : |v| < 2 ^ 53) : round64 (v : ℚ) = v := by
  have main : ∀ w : Int, 0 < w → w < 2 ^ 53 → round64 (w : ℚ) = w := by
    intro w h0 h1
    have hq : (0 : ℚ) < (w : ℚ) := by exact_mod_cast h0
    have hlog : Int.log 2 (w : ℚ) < 53 := by
      apply (Int.lt_zpow_iff_log_lt (b := 2) (by norm_num) hq).1
      have h3 : ((w : Int) : ℚ) < ((2 ^ 53 : Int) : ℚ) := by exact_mod_cast h1
      norm_num at h3 ⊢
      exact h3
    rw [round64_of_pos hq]
    obtain ⟨j, hj⟩ : ∃ j : Nat, Int.log 2 (w : ℚ) - 52 = -(j : Int) :=
      ⟨(52 - Int.log 2 (w : ℚ)).toNat, by omega⟩
    rw [hj, zpow_neg, zpow_natCast]
    have h2 : (0 : ℚ) < 2 ^ j := by positivity
    have e : (w : ℚ) / (2 ^ j)⁻¹ = ((w * 2 ^ j : Int) : ℚ) := by
      push_cast; field_simp
    rw [e, nearestEven_eq (n := w * 2 ^ j) (by linarith) (by linarith)]
    push_cast
    field_simp
  rcases lt_trichotomy v 0 with hv | hv | hv
  · have := main (-v) (by omega) (by rw [abs_of_neg hv] at h; exact h)
    have e : ((v : Int) : ℚ) = -(((-v : Int)) : ℚ) := by push_cast; ring
    rw [e, round64_neg, this]
  · subst hv; simp [round64]
  · exact main v hv (by rw [abs_of_pos hv] at h; exact h)


/-! ## The error of `math.Hypot` -/

/-- Accumulated relative error of the five rounded operations of `math.Hypot`. -/
theorem hypot_chain {a b hi ρ r r2 t w H : ℚ} (ha0 : 0 < a) (ha1 : a ≤ 1) (hb : 1 ≤ b)
    (hhi : 0 < hi) (hρ : 0 ≤ ρ)
    (h1 : ρ * a ≤ r ∧ r ≤ ρ * b) (h2 : r * r * a ≤ r2 ∧ r2 ≤ r * r * b)
    (h3 : (1 + r2) * a ≤ t ∧ t ≤ (1 + r2) * b) (h4 : t * a ^ 2 ≤ w ^ 2 ∧ w ^ 2 ≤ t * b ^ 2)
    (hw : 0 ≤ w) (h5 : hi * w * a ≤ H ∧ H ≤ hi * w * b) :
    hi ^ 2 * (1 + ρ ^ 2) * a ^ 8 ≤ H ^ 2 ∧ H ^ 2 ≤ hi ^ 2 * (1 + ρ ^ 2) * b ^ 8 := by
  have hb0 : 0 < b := lt_of_lt_of_le one_pos hb
  have hr0 : 0 ≤ r := le_trans (mul_nonneg hρ (le_of_lt ha0)) h1.1
  have rr_lo : ρ ^ 2 * a ^ 2 ≤ r * r := by
    have := mul_self_le_mul_self (mul_nonneg hρ (le_of_lt ha0)) h1.1
    calc ρ ^ 2 * a ^ 2 = ρ * a * (ρ * a) := by ring
      _ ≤ r * r := this
  have rr_hi : r * r ≤ ρ ^ 2 * b ^ 2 := by
    have := mul_self_le_mul_self hr0 h1.2
    calc r * r ≤ ρ * b * (ρ * b) := this
      _ = ρ ^ 2 * b ^ 2 := by ring
  have r2_lo : ρ ^ 2 * a ^ 3 ≤ r2 := by
    calc ρ ^ 2 * a ^ 3 = ρ ^ 2 * a ^ 2 * a := by ring
      _ ≤ r * r * a := mul_le_mul_of_nonneg_right rr_lo (le_of_lt ha0)
      _ ≤ r2 := h2.1
  have r2_hi : r2 ≤ ρ ^ 2 * b ^ 3 := by
    calc r2 ≤ r * r * b := h2.2
      _ ≤ ρ ^ 2 * b ^ 2 * b := mul_le_mul_of_nonneg_right rr_hi (le_of_lt hb0)
      _ = ρ ^ 2 * b ^ 3 := by ring
  have a3 : a ^ 3 ≤ 1 := pow_le_one₀ (le_of_lt ha0) ha1
  have b3 : 1 ≤ b ^ 3 := one_le_pow₀ hb
  have t_lo : (1 + ρ ^ 2) * a ^ 4 ≤ t := by
    calc (1 + ρ ^ 2) * a ^ 4 = (a ^ 3 + ρ ^ 2 * a ^ 3) * a := by ring
      _ ≤ (1 + r2) * a := mul_le_mul_of_nonneg_right (by linarith) (le_of_lt ha0)
      _ ≤ t := h3.1
  have h1r2 : 0 ≤ 1 + r2 := by
    have : 0 ≤ ρ ^ 2 * a ^ 3 := by positivity
    linarith
  have t_hi : t ≤ (1 + ρ ^ 2) * b ^ 4 := by
    calc t ≤ (1 + r2) * b := h3.2
      _ ≤ (b ^ 3 + ρ ^ 2 * b ^ 3) * b := mul_le_mul_of_nonneg_right (by linarith) (le_of_lt hb0)
      _ = (1 + ρ ^ 2) * b ^ 4 := by ring
  have w_lo : (1 + ρ ^ 2) * a ^ 6 ≤ w ^ 2 := by
    calc (1 + ρ ^ 2) * a ^ 6 = (1 + ρ ^ 2) * a ^ 4 * a ^ 2 := by ring
      _ ≤ t * a ^ 2 := mul_le_mul_of_nonneg_right t_lo (by positivity)
      _ ≤ w ^ 2 := h4.1
  have w_hi : w ^ 2 ≤ (1 + ρ ^ 2) * b ^ 6 := by
    calc w ^ 2 ≤ t * b ^ 2 := h4.2
      _ ≤ (1 + ρ ^ 2) * b ^ 4 * b ^ 2 := mul_le_mul_of_nonneg_right t_hi (by positivity)
      _ = (1 + ρ ^ 2) * b ^ 6 := by ring
  have hwa : 0 ≤ hi * w * a := by positivity
  have hH0 : 0 ≤ H := le_trans hwa h5.1
  constructor
  · calc hi ^ 2 * (1 + ρ ^ 2) * a ^ 8 = (1 + ρ ^ 2) * a ^ 6 * (hi ^ 2 * a ^ 2) := by ring
      _ ≤ w ^ 2 * (hi ^ 2 * a ^ 2) := mul_le_mul_of_nonneg_right w_lo (by positivity)
      _ = (hi * w * a) ^ 2 := by ring
      _ ≤ H ^ 2 := pow_le_pow_left₀ hwa h5.1 2
  · calc H ^ 2 ≤ (hi * w * b) ^ 2 := pow_le_pow_left₀ hH0 h5.2 2
      _ = w ^ 2 * (hi ^ 2 * b ^ 2) := by ring
      _ ≤ (1 + ρ ^ 2) * b ^ 6 * (hi ^ 2 * b ^ 2) := mul_le_mul_of_nonneg_right w_hi (by positivity)
      _ = hi ^ 2 * (1 + ρ ^ 2) * b ^ 8 := by ring


theorem max_min_sq (x y : ℚ) : max |x| |y| ^ 2 + min |x| |y| ^ 2 = x ^ 2 + y ^ 2 := by
  rcases le_total |x| |y| with h | h
  · rw [max_eq_right h, min_eq_left h, sq_abs, sq_abs]; ring
  · rw [max_eq_left h, min_eq_right h, sq_abs, sq_abs]

theorem mathHypot_zero : mathHypot 0 0 = 0 := by simp [mathHypot]

/-- The square of `math.Hypot(p, q)` is `p^2 + q^2` up to eight roundings. -/
theorem mathHypot_bounds (p q : ℚ) :
    0 ≤ mathHypot p q ∧
    (p ^ 2 + q ^ 2) * (1 - 1 / 2 ^ 53) ^ 8 ≤ mathHypot p q ^ 2 ∧
      mathHypot p q ^ 2 ≤ (p ^ 2 + q ^ 2) * (1 + 1 / 2 ^ 53) ^ 8 := by
  have hlo0 : 0 ≤ min |p| |q| := le_min (abs_nonneg p) (abs_nonneg q)
  have hle : min |p| |q| ≤ max |p| |q| := min_le_max
  by_cases h0 : max |p| |q| = 0
  · have hp : p = 0 := by
      have := le_max_left |p| |q|
      rw [h0] at this
      exact abs_eq_zero.1 (le_antisymm this (abs_nonneg p))
    have hq : q = 0 := by
      have := le_max_right |p| |q|
      rw [h0] at this
      exact abs_eq_zero.1 (le_antisymm this (abs_nonneg q))
    subst hp; subst hq
    simp [mathHypot_zero]
  · have hhi : 0 < max |p| |q| := lt_of_le_of_ne (le_trans hlo0 hle) (Ne.symm h0)
    have hval : mathHypot p q = round64 (max |p| |q| * sqrt64 (round64 (1 + round64
        (round64 (min |p| |q| / max |p| |q|) * round64 (min |p| |q| / max |p| |q|))))) := by
      unfold mathHypot
      simp only [h0, if_false]
    rw [hval, ← max_min_sq p q]
    set hi := max |p| |q|
    set lo := min |p| |q|
    have hρ : 0 ≤ lo / hi := div_nonneg hlo0 (le_of_lt hhi)
    have hr0 := round64_nonneg hρ
    have hrr : 0 ≤ round64 (lo / hi) * round64 (lo / hi) := mul_nonneg hr0 hr0
    have hr20 := round64_nonneg hrr
    have h1r2 : 0 ≤ 1 + round64 (round64 (lo / hi) * round64 (lo / hi)) := by linarith
    have ht0 : 0 < round64 (1 + round64 (round64 (lo / hi) * round64 (lo / hi))) :=
      round64_pos (by linarith)
    have hw0 := sqrt64_nonneg (round64 (1 + round64 (round64 (lo / hi) * round64 (lo / hi))))
    have hhw : 0 ≤ hi * sqrt64 (round64 (1 + round64 (round64 (lo / hi) * round64 (lo / hi)))) :=
      mul_nonneg (le_of_lt hhi) hw0
    have key := hypot_chain (a := 1 - 1 / 2 ^ 53) (b := 1 + 1 / 2 ^ 53) (by norm_num)
      (by norm_num) (by norm_num) hhi hρ (round64_bounds hρ) (round64_bounds hrr)
      (round64_bounds h1r2) (sqrt64_bounds ht0) hw0 (round64_bounds hhw)
    have e : hi ^ 2 * (1 + (lo / hi) ^ 2) = hi ^ 2 + lo ^ 2 := by
      field_simp
    rw [e] at key
    exact ⟨round64_nonneg hhw, key⟩

theorem mathHypot_pos {p q : ℚ} (h : p ≠ 0 ∨ q ≠ 0) : 0 < mathHypot p q := by
  obtain ⟨h0, h1, -⟩ := mathHypot_bounds p q
  have hs : 0 < p ^ 2 + q ^ 2 := by
    rcases h with h | h
    · have := pow_pos (abs_pos.2 h) 2
      rw [sq_abs] at this
      nlinarith [sq_nonneg q]
    · have := pow_pos (abs_pos.2 h) 2
      rw [sq_abs] at this
      nlinarith [sq_nonneg p]
  have ha : (0 : ℚ) < (1 - 1 / 2 ^ 53) ^ 8 := by norm_num
  have := mul_pos hs ha
  rcases eq_or_lt_of_le h0 with e | e
  · rw [← e] at h1; norm_num at h1; linarith
  · exact e

/-- For whole numbers up to `2^23` in size, `math.Hypot` keeps the strict
order of the exact distances. -/
theorem mathHypot_lt {a b c d : Int} (ha : |a| ≤ 2 ^ 23) (hb : |b| ≤ 2 ^ 23)
    (h : a * a + b * b < c * c + d * d) :
    mathHypot (a : ℚ) (b : ℚ) < mathHypot (c : ℚ) (d : ℚ) := by
  obtain ⟨h0, -, h2⟩ := mathHypot_bounds (a : ℚ) (b : ℚ)
  obtain ⟨h0', h1', -⟩ := mathHypot_bounds (c : ℚ) (d : ℚ)
  have hs : a * a + b * b ≤ 2 ^ 47 := by
    have h1 := abs_le.1 ha
    have h2 := abs_le.1 hb
    nlinarith
  have hs0 : 0 ≤ a * a + b * b := by nlinarith [mul_self_nonneg a, mul_self_nonneg b]
  have hst : a * a + b * b + 1 ≤ c * c + d * d := by omega
  have hsq : ((a * a + b * b : Int) : ℚ) ≤ 2 ^ 47 := by exact_mod_cast hs
  have hsq0 : (0 : ℚ) ≤ ((a * a + b * b : Int) : ℚ) := by exact_mod_cast hs0
  have hstq : ((a * a + b * b : Int) : ℚ) + 1 ≤ ((c * c + d * d : Int) : ℚ) := by
    exact_mod_cast hst
  have e1 : (a : ℚ) ^ 2 + (b : ℚ) ^ 2 = ((a * a + b * b : Int) : ℚ) := by push_cast; ring
  have e2 : (c : ℚ) ^ 2 + (d : ℚ) ^ 2 = ((c * c + d * d : Int) : ℚ) := by push_cast; ring
  rw [e1] at h2
  rw [e2] at h1'
  generalize ((a * a + b * b : Int) : ℚ) = s at *
  generalize ((c * c + d * d : Int) : ℚ) = s' at *
  have num : (2 : ℚ) ^ 47 * ((1 + 1 / 2 ^ 53) ^ 8 - (1 - 1 / 2 ^ 53) ^ 8) <
      (1 - 1 / 2 ^ 53) ^ 8 := by norm_num
  have hA : (0 : ℚ) ≤ (1 + 1 / 2 ^ 53) ^ 8 - (1 - 1 / 2 ^ 53) ^ 8 := by norm_num
  have hB : (0 : ℚ) ≤ (1 - 1 / 2 ^ 53) ^ 8 := by norm_num
  generalize (1 + 1 / 2 ^ 53 : ℚ) ^ 8 = A at *
  generalize (1 - 1 / 2 ^ 53 : ℚ) ^ 8 = B at *
  have step : s * A < s' * B := by
    have m1 : s * (A - B) ≤ 2 ^ 47 * (A - B) := mul_le_mul_of_nonneg_right hsq hA
    have m2 : (s + 1) * B ≤ s' * B := mul_le_mul_of_nonneg_right hstq hB
    nlinarith
  have hlt : mathHypot (a : ℚ) (b : ℚ) ^ 2 < mathHypot (c : ℚ) (d : ℚ) ^ 2 := by linarith
  exact lt_of_pow_lt_pow_left₀ 2 h0' hlt


theorem wrap64_of_range {v : Int} (h1 : -2 ^ 63 ≤ v) (h2 : v < 2 ^ 63) : wrap64 v = v := by
  unfold wrap64
  omega

theorem round64_int_ne_zero {v : Int} (h : v ≠ 0) : round64 (v : ℚ) ≠ 0 := by
  rcases lt_or_gt_of_ne h with h | h
  · have hq : (0 : ℚ) < (((-v : Int)) : ℚ) := by exact_mod_cast (by omega : 0 < -v)
    have := round64_pos hq
    have e : (((-v : Int)) : ℚ) = -((v : Int) : ℚ) := by push_cast; ring
    rw [e, round64_neg] at this
    linarith
  · have hq : (0 : ℚ) < ((v : Int) : ℚ) := by exact_mod_cast h
    exact ne_of_gt (round64_pos hq)

theorem hypot64_nonneg (dx dy : Int) : 0 ≤ hypot64 dx dy :=
  (mathHypot_bounds _ _).1

theorem hypot64_small {dx dy : Int} (hx : |dx| ≤ 2 ^ 23) (hy : |dy| ≤ 2 ^ 23) :
    hypot64 dx dy = mathHypot (dx : ℚ) (dy : ℚ) := by
  have h1 := abs_le.1 hx
  have h2 := abs_le.1 hy
  unfold hypot64
  rw [wrap64_of_range (by omega) (by omega), wrap64_of_range (by omega) (by omega),
    round64_int (lt_of_le_of_lt hx (by norm_num)), round64_int (lt_of_le_of_lt hy (by norm_num))]

/-- For differences up to `2^23` in size the computed distance keeps the
strict order of the exact distances. -/
theorem hypot64_lt {a b c d : Int} (ha : |a| ≤ 2 ^ 23) (hb : |b| ≤ 2 ^ 23)
    (hc : |c| ≤ 2 ^ 23) (hd : |d| ≤ 2 ^ 23) (h : hypotSq a b < hypotSq c d) :
    hypot64 a b < hypot64 c d := by
  rw [hypot64_small ha hb, hypot64_small hc hd]
  exact mathHypot_lt ha hb h

/-! ## The scan of `placeExit` with the distances in binary64 -/

theorem scanInv64_maxDist_nonneg {n : Nat} {g : Grid} {px py x0 y0 : Int} {s : ExitState64}
    (h : ScanInv64 n g px py x0 y0 s) : 0 ≤ s.maxDist := by
  rcases h.sel with rfl | h
  · exact le_refl _
  · exact le_of_lt h.2.2.2.2.2.2.2.1

theorem exitCell64_spec {n : Nat} {g : Grid} (hd : Dim n g) (px py : Int) {x y : Int}
    (hx : 0 < x ∧ x < (n : Int) - 1) (hy : 0 < y ∧ y < (n : Int) - 1) {s : ExitState64}
    (hs : ScanInv64 n g px py x y s) :
    ∃ s1, exitCell64 g px py y s x = some s1 ∧ ScanInv64 n g px py (x + 1) y s1 := by
  obtain ⟨c, hc⟩ := grid_read_some_of_inb hd (y := y) (x := x)
    (by omega) (by omega) (by omega) (by omega)
  have hbef : ∀ x1 y1, Before x1 y1 (x + 1) y → Before x1 y1 x y ∨ (x1 = x ∧ y1 = y) := by
    intro x1 y1 h; unfold Before at *; omega
  have hkeep : (c ≠ 0 ∨ hypot64 (px - x) (py - y) ≤ s.maxDist) →
      ScanInv64 n g px py (x + 1) y s := by
    intro hcase
    refine ⟨?_, ?_⟩
    · intro x1 y1 h1 h2 h3 h4 hb ho
      rcases hbef _ _ hb with hb | ⟨rfl, rfl⟩
      · exact hs.le _ _ h1 h2 h3 h4 hb ho
      · rcases hcase with h | h
        · rw [hc] at ho; simp at ho; exact absurd ho h
        · exact h
    · rcases hs.sel with h | ⟨a1, a2, a3, a4, a5, a6⟩
      · left; exact h
      · right
        refine ⟨a1, a2, a3, a4, ?_, a6⟩
        unfold Before at *; omega
  by_cases hc0 : c = 0
  · subst hc0
    by_cases hgt : hypot64 (px - x) (py - y) > s.maxDist
    · refine ⟨⟨hypot64 (px - x) (py - y), x, y⟩, by simp [exitCell64, hc, hgt], ?_, ?_⟩
      · intro x1 y1 h1 h2 h3 h4 hb ho
        rcases hbef _ _ hb with hb | ⟨rfl, rfl⟩
        · have := hs.le _ _ h1 h2 h3 h4 hb ho
          simp only
          linarith
        · exact le_refl _
      · right
        have h0 := scanInv64_maxDist_nonneg hs
        refine ⟨hx.1, hx.2, hy.1, hy.2, ?_, hc, rfl, ?_, ?_⟩
        · unfold Before; simp
        · simp only; linarith
        · intro x1 y1 h1 h2 h3 h4 hb ho
          have := hs.le _ _ h1 h2 h3 h4 hb ho
          simp only at hb ⊢
          linarith
    · exact ⟨s, by simp [exitCell64, hc, hgt], hkeep (Or.inr (not_lt.1 hgt))⟩
  · exact ⟨s, by simp [exitCell64, hc, hc0], hkeep (Or.inl hc0)⟩

theorem exitCols64_spec {n : Nat} {g : Grid} (hd : Dim n g) (px py : Int) {y : Int}
    (hy : 0 < y ∧ y < (n : Int) - 1) {s : ExitState64} (hs : ScanInv64 n g px py 1 y s) :
    ∀ m : Nat, (m : Int) ≤ (n : Int) - 2 →
      ∃ s1, ((List.range m).map (fun (i : Nat) => (i : Int) + 1)).foldlM
          (exitCell64 g px py y) s = some s1 ∧ ScanInv64 n g px py ((m : Int) + 1) y s1 := by
  intro m
  induction m with
  | zero => intro _; exact ⟨s, rfl, by simpa using hs⟩
  | succ m ih =>
    intro hm
    obtain ⟨s1, h1, hs1⟩ := ih (by push_cast at hm; omega)
    obtain ⟨s2, h2, hs2⟩ := exitCell64_spec hd px py (x := (m : Int) + 1)
      (by push_cast at hm; omega) hy hs1
    refine ⟨s2, ?_, by push_cast; exact hs2⟩
    rw [List.range_succ, List.map_append, List.foldlM_append, h1]
    simpa using h2

theorem exitRow64_spec {n : Nat} {g : Grid} (hd : Dim n g) (px py : Int) {y : Int}
    (hy : 0 < y ∧ y < (n : Int) - 1) {s : ExitState64} (hs : ScanInv64 n g px py 1 y s) :
    ∃ s1, exitRow64 n g px py s y = some s1 ∧ ScanInv64 n g px py 1 (y + 1) s1 := by
  obtain ⟨s1, h1, hs1⟩ := exitCols64_spec hd px py hy hs ((n : Int) - 2).toNat (by omega)
  refine ⟨s1, h1, ?_, ?_⟩
  · intro x1 y1 a1 a2 a3 a4 hb ho
    refine hs1.le _ _ a1 a2 a3 a4 ?_ ho
    unfold Before at *; omega
  · rcases hs1.sel with h | ⟨a1, a2, a3, a4, a5, a6⟩
    · left; exact h
    · right
      refine ⟨a1, a2, a3, a4, ?_, a6⟩
      unfold Before at *; omega

theorem exitRows64_spec {n : Nat} {g : Grid} (hd : Dim n g) (px py : Int) :
    ∀ m : Nat, (m : Int) ≤ (n : Int) - 2 →
      ∃ s1, ((List.range m).map (fun (i : Nat) => (i : Int) + 1)).foldlM
          (exitRow64 n g px py) ⟨0, 0, 0⟩ = some s1 ∧
        ScanInv64 n g px py 1 ((m : Int) + 1) s1 := by
  intro m
  induction m with
  | zero =>
    intro _
    refine ⟨⟨0, 0, 0⟩, rfl, ?_, Or.inl rfl⟩
    intro x1 y1 a1 a2 a3 a4 hb _
    unfold Before at hb; simp only [Nat.cast_zero, zero_add] at hb; omega
  | succ m ih =>
    intro hm
    obtain ⟨s1, h1, hs1⟩ := ih (by push_cast at hm; omega)
    obtain ⟨s2, h2, hs2⟩ := exitRow64_spec hd px py (y := (m : Int) + 1)
      (by push_cast at hm; omega) hs1
    refine ⟨s2, ?_, by push_cast; exact hs2⟩
    rw [List.range_succ, List.map_append, List.foldlM_append, h1]
    simpa using h2

/-- The binary64 scan of `placeExit` returns on every `n` by `n` map, and its
result is described by `ScanInv64` over all interior cells. -/
theorem exitScan64_spec {n : Nat} {g : Grid} (hd : Dim n g) (px py : Int) :
    ∃ s, exitScan64 n g px py = some s ∧ ScanInv64 n g px py 1 ((n : Int) - 1) s := by
  by_cases hn : 2 ≤ n
  · obtain ⟨s, h, hs⟩ := exitRows64_spec hd px py ((n : Int) - 2).toNat (by omega)
    refine ⟨s, h, ?_⟩
    have e : ((((n : Int) - 2).toNat : Nat) : Int) + 1 = (n : Int) - 1 := by omega
    rwa [e] at hs
  · have hsel : ScanInv64 n g px py 1 ((n : Int) - 1) ⟨0, 0, 0⟩ := by
      refine ⟨?_, Or.inl rfl⟩
      intro x1 y1 a1 a2 a3 a4; omega
    have e : ((n : Int) - 2).toNat = 0 := by omega
    exact ⟨⟨0, 0, 0⟩, by simp [exitScan64, interior, e], hsel⟩

/-- The call `placeExit(px, py)`, with the distances in binary64, returns on
every `n` by `n` map with `n ≥ 1`. -/
theorem placeExit64_spec {n : Nat} (hn : 1 ≤ n) {g : Grid} (hd : Dim n g) (px py : Int) :
    ∃ s g1, exitScan64 n g px py = some s ∧ ScanInv64 n g px py 1 ((n : Int) - 1) s ∧
      g.write s.ey s.ex 2 = some g1 ∧ placeExit64 n g px py = some g1 := by
  obtain ⟨s, h, hs⟩ := exitScan64_spec hd px py
  have hb : 0 ≤ s.ex ∧ s.ex < (n : Int) ∧ 0 ≤ s.ey ∧ s.ey < (n : Int) := by
    rcases hs.sel with rfl | ⟨a1, a2, a3, a4, -⟩
    · simp only; omega
    · omega
  obtain ⟨g1, h1⟩ := grid_write_some_of_inb hd (y := s.ey) (x := s.ex) 2 hb.2.2.1 hb.2.2.2
    hb.1 hb.2.1
  exact ⟨s, g1, h, hs, h1, by simp [placeExit64, h, h1]⟩


/-- Form of `round64_eq` for results below `2^53`. -/
theorem round64_eq_div {q : ℚ} {j : Nat} {n : Int} (h1 : 2 ^ 52 ≤ q * 2 ^ j)
    (h2 : q * 2 ^ j < 2 ^ 53) (h3 : (n : ℚ) - 1 / 2 < q * 2 ^ j)
    (h4 : q * 2 ^ j < (n : ℚ) + 1 / 2) : round64 q = n / 2 ^ j := by
  have hj : (0 : ℚ) < 2 ^ j := by positivity
  have e : (2 : ℚ) ^ (-(j : Int)) = 1 / 2 ^ j := by
    rw [zpow_neg, zpow_natCast, one_div]
  have key := round64_eq (q := q) (k := -(j : Int)) (n := n) ?_ ?_ ?_ ?_
  · rw [key, e]; ring
  · rw [zpow_add₀ (by norm_num), e]
    have : (2 : ℚ) ^ (52 : Int) = 2 ^ 52 := by norm_num
    rw [this, one_div_mul_eq_div, div_le_iff₀ hj]
    exact h1
  · rw [zpow_add₀ (by norm_num), e]
    have : (2 : ℚ) ^ (53 : Int) = 2 ^ 53 := by norm_num
    rw [this, one_div_mul_eq_div, lt_div_iff₀ hj]
    exact h2
  · rw [e, mul_one_div, div_lt_iff₀ hj]
    exact h3
  · rw [e, mul_one_div, lt_div_iff₀ hj]
    exact h4

/-- Form of `sqrt64_eq` for results below `2^53`. -/
theorem sqrt64_eq_div {x : ℚ} {j : Nat} {n : Nat} (hn : 1 ≤ n) (h1 : 2 ^ 104 ≤ x * 4 ^ j)
    (h2 : x * 4 ^ j < 2 ^ 106) (h3 : ((n : ℚ) - 1 / 2) ^ 2 < x * 4 ^ j)
    (h4 : x * 4 ^ j < ((n : ℚ) + 1 / 2) ^ 2) : sqrt64 x = n / 2 ^ j := by
  have hj : (0 : ℚ) < 2 ^ j := by positivity
  have h4j : (4 : ℚ) ^ j = 2 ^ j * 2 ^ j := by
    rw [← mul_pow]; norm_num
  have e : (2 : ℚ) ^ (-(j : Int)) = 1 / 2 ^ j := by
    rw [zpow_neg, zpow_natCast, one_div]
  have e2 : (2 : ℚ) ^ (2 * (-(j : Int) + 52)) = 2 ^ 104 / (2 ^ j * 2 ^ j) := by
    rw [show 2 * (-(j : Int) + 52) = -(j : Int) + -(j : Int) + 104 by ring,
      zpow_add₀ (by norm_num), zpow_add₀ (by norm_num), e]
    have : (2 : ℚ) ^ (104 : Int) = 2 ^ 104 := by norm_num
    rw [this]; field_simp
  have e3 : (2 : ℚ) ^ (2 * (-(j : Int) + 52) + 2) = 2 ^ 106 / (2 ^ j * 2 ^ j) := by
    rw [zpow_add₀ (by norm_num), e2]
    have : (2 : ℚ) ^ (2 : Int) = 4 := by norm_num
    rw [this]; field_simp; norm_num
  have hjj : (0 : ℚ) < 2 ^ j * 2 ^ j := mul_pos hj hj
  rw [h4j] at h1 h2 h3 h4
  have key := sqrt64_eq (x := x) (k := -(j : Int)) (n := n) hn ?_ ?_ ?_ ?_
  · rw [key, e]; ring
  · rw [e2, div_le_iff₀ hjj]; exact h1
  · rw [e3, lt_div_iff₀ hjj]; exact h2
  · rw [e, mul_one_div, div_pow, div_lt_iff₀ (by positivity)]
    calc ((n : ℚ) - 1 / 2) ^ 2 < x * (2 ^ j * 2 ^ j) := h3
      _ = x * (2 ^ j) ^ 2 := by ring
  · rw [e, mul_one_div, div_pow, lt_div_iff₀ (by positivity)]
    calc x * (2 ^ j) ^ 2 = x * (2 ^ j * 2 ^ j) := by ring
      _ < ((n : ℚ) + 1 / 2) ^ 2 := h4

/-- The five steps of `math.Hypot`, one at a time. -/
theorem mathHypot_eval {p q hi lo r r2 t w H : ℚ} (hhi : max |p| |q| = hi)
    (hlo : min |p| |q| = lo) (h0 : hi ≠ 0) (e1 : round64 (lo / hi) = r)
    (e2 : round64 (r * r) = r2) (e3 : round64 (1 + r2) = t) (e4 : sqrt64 t = w)
    (e5 : round64 (hi * w) = H) : mathHypot p q = H := by
  unfold mathHypot
  simp only [hhi, hlo, h0, if_false, e1, e2, e3, e4, e5]

/-! ## The cell `placeExit` marks, with the distances in binary64 -/

theorem mathHypot_6_7 : mathHypot (-6) (-7) = 2595071061399373 / 281474976710656 := by
  have hhi : max |((-6) : ℚ)| |((-7) : ℚ)| = 7 := by norm_num [abs_of_neg, abs_of_pos, abs_of_nonneg]
  have hlo : min |((-6) : ℚ)| |((-7) : ℚ)| = 6 := by norm_num [abs_of_neg, abs_of_pos, abs_of_nonneg]
  have e1 : round64 (6 / 7 : ℚ) = 7720456504063707 / 9007199254740992 := by
    rw [round64_eq_div (q := 6 / 7) (j := 53) (n := 7720456504063707) (by norm_num) (by norm_num) (by norm_num) (by norm_num)]; norm_num
  have e2 : round64 ((7720456504063707 / 9007199254740992 : ℚ) * (7720456504063707 / 9007199254740992)) = 206797942073135 / 281474976710656 := by
    rw [round64_eq_div (q := (7720456504063707 / 9007199254740992 : ℚ) * (7720456504063707 / 9007199254740992)) (j := 53) (n := 6617534146340320) (by norm_num) (by norm_num) (by norm_num) (by norm_num)]; norm_num
  have e3 : round64 (1 + 206797942073135 / 281474976710656 : ℚ) = 488272918783791 / 281474976710656 := by
    rw [round64_eq_div (q := 1 + 206797942073135 / 281474976710656) (j := 52) (n := 7812366700540656) (by norm_num) (by norm_num) (by norm_num) (by norm_num)]; norm_num
  have e4 : sqrt64 (488272918783791 / 281474976710656 : ℚ) = 5931590997484281 / 4503599627370496 := by
    rw [sqrt64_eq_div (x := 488272918783791 / 281474976710656) (j := 52) (n := 5931590997484281) (by norm_num) (by norm_num) (by norm_num) (by norm_num) (by norm_num)]; norm_num
  have e5 : round64 ((7 : ℚ) * (5931590997484281 / 4503599627370496)) = 2595071061399373 / 281474976710656 := by
    rw [round64_eq_div (q := (7 : ℚ) * (5931590997484281 / 4503599627370496)) (j := 49) (n := 5190142122798746) (by norm_num) (by norm_num) (by norm_num) (by norm_num)]; norm_num
  exact mathHypot_eval hhi hlo (by norm_num) e1 e2 e3 e4 e5

theorem mathHypot_2_9 : mathHypot (-2) (-9) = 5190142122798747 / 562949953421312 := by
  have hhi : max |((-2) : ℚ)| |((-9) : ℚ)| = 9 := by norm_num [abs_of_neg, abs_of_pos, abs_of_nonneg]
  have hlo : min |((-2) : ℚ)| |((-9) : ℚ)| = 2 := by norm_num [abs_of_neg, abs_of_pos, abs_of_nonneg]
  have e1 : round64 (2 / 9 : ℚ) = 2001599834386887 / 9007199254740992 := by
    rw [round64_eq_div (q := 2 / 9) (j := 55) (n := 8006399337547548) (by norm_num) (by norm_num) (by norm_num) (by norm_num)]; norm_num
  have e2 : round64 ((2001599834386887 / 9007199254740992 : ℚ) * (2001599834386887 / 9007199254740992)) = 222399981598543 / 4503599627370496 := by
    rw [round64_eq_div (q := (2001599834386887 / 9007199254740992 : ℚ) * (2001599834386887 / 9007199254740992)) (j := 57) (n := 7116799411153376) (by norm_num) (by norm_num) (by norm_num) (by norm_num)]; norm_num
  have e3 : round64 (1 + 222399981598543 / 4503599627370496 : ℚ) = 4725999608969039 / 4503599627370496 := by
    rw [round64_eq_div (q := 1 + 222399981598543 / 4503599627370496) (j := 52) (n := 4725999608969039) (by norm_num) (by norm_num) (by norm_num) (by norm_num)]; norm_num
  have e4 : sqrt64 (4725999608969039 / 4503599627370496 : ℚ) = 4613459664709997 / 4503599627370496 := by
    rw [sqrt64_eq_div (x := 4725999608969039 / 4503599627370496) (j := 52) (n := 4613459664709997) (by norm_num) (by norm_num) (by norm_num) (by norm_num) (by norm_num)]; norm_num
  have e5 : round64 ((9 : ℚ) * (4613459664709997 / 4503599627370496)) = 5190142122798747 / 562949953421312 := by
    rw [round64_eq_div (q := (9 : ℚ) * (4613459664709997 / 4503599627370496)) (j := 49) (n := 5190142122798747) (by norm_num) (by norm_num) (by norm_num) (by norm_num)]; norm_num
  exact mathHypot_eval hhi hlo (by norm_num) e1 e2 e3 e4 e5

theorem mathHypot_far_0 : mathHypot 1073741823 0 = 1073741823 := by
  have hhi : max |(1073741823 : ℚ)| |(0 : ℚ)| = 1073741823 := by norm_num [abs_of_neg, abs_of_pos, abs_of_nonneg]
  have hlo : min |(1073741823 : ℚ)| |(0 : ℚ)| = 0 := by norm_num [abs_of_neg, abs_of_pos, abs_of_nonneg]
  have e1 : round64 (0 / 1073741823 : ℚ) = 0 := by norm_num [round64_zero]
  have e2 : round64 ((0 : ℚ) * (0)) = 0 := by norm_num [round64_zero]
  have e3 : round64 (1 + 0 : ℚ) = 1 := by
    rw [round64_eq_div (q := 1 + 0) (j := 52) (n := 4503599627370496) (by norm_num) (by norm_num) (by norm_num) (by norm_num)]; norm_num
  have e4 : sqrt64 (1 : ℚ) = 1 := by
    rw [sqrt64_eq_div (x := 1) (j := 52) (n := 4503599627370496) (by norm_num) (by norm_num) (by norm_num) (by norm_num) (by norm_num)]; norm_num
  have e5 : round64 ((1073741823 : ℚ) * (1)) = 1073741823 := by
    rw [round64_eq_div (q := (1073741823 : ℚ) * (1)) (j := 23) (n := 9007199246352384) (by norm_num) (by norm_num) (by norm_num) (by norm_num)]; norm_num
  exact mathHypot_eval hhi hlo (by norm_num) e1 e2 e3 e4 e5

theorem mathHypot_far_2 : mathHypot 1073741823 (-2) = 1073741823 := by
  have hhi : max |(1073741823 : ℚ)| |((-2) : ℚ)| = 1073741823 := by norm_num [abs_of_neg, abs_of_pos, abs_of_nonneg]
  have hlo : min |(1073741823 : ℚ)| |((-2) : ℚ)| = 2 := by norm_num [abs_of_neg, abs_of_pos, abs_of_nonneg]
  have e1 : round64 (2 / 1073741823 : ℚ) = 1073741825 / 576460752303423488 := by
    rw [round64_eq_div (q := 2 / 1073741823) (j := 81) (n := 4503599631564800) (by norm_num) (by norm_num) (by norm_num) (by norm_num)]; norm_num
  have e2 : round64 ((1073741825 / 576460752303423488 : ℚ) * (1073741825 / 576460752303423488)) = 536870913 / 154742504910672534362390528 := by
    rw [round64_eq_div (q := (1073741825 / 576460752303423488 : ℚ) * (1073741825 / 576460752303423488)) (j := 110) (n := 4503599635759104) (by norm_num) (by norm_num) (by norm_num) (by norm_num)]; norm_num
  have e3 : round64 (1 + 536870913 / 154742504910672534362390528 : ℚ) = 1 := by
    rw [round64_eq_div (q := 1 + 536870913 / 154742504910672534362390528) (j := 52) (n := 4503599627370496) (by norm_num) (by norm_num) (by norm_num) (by norm_num)]; norm_num
  have e4 : sqrt64 (1 : ℚ) = 1 := by
    rw [sqrt64_eq_div (x := 1) (j := 52) (n := 4503599627370496) (by norm_num) (by norm_num) (by norm_num) (by norm_num) (by norm_num)]; norm_num
  have e5 : round64 ((1073741823 : ℚ) * (1)) = 1073741823 := by
    rw [round64_eq_div (q := (1073741823 : ℚ) * (1)) (j := 23) (n := 9007199246352384) (by norm_num) (by norm_num) (by norm_num) (by norm_num)]; norm_num
  exact mathHypot_eval hhi hlo (by norm_num) e1 e2 e3 e4 e5

theorem mathHypot_1_1 : mathHypot 1 1 = 6369051672525773 / 4503599627370496 := by
  have hhi : max |(1 : ℚ)| |(1 : ℚ)| = 1 := by norm_num [abs_of_neg, abs_of_pos, abs_of_nonneg]
  have hlo : min |(1 : ℚ)| |(1 : ℚ)| = 1 := by norm_num [abs_of_neg, abs_of_pos, abs_of_nonneg]
  have e1 : round64 (1 / 1 : ℚ) = 1 := by
    rw [round64_eq_div (q := 1 / 1) (j := 52) (n := 4503599627370496) (by norm_num) (by norm_num) (by norm_num) (by norm_num)]; norm_num
  have e2 : round64 ((1 : ℚ) * (1)) = 1 := by
    rw [round64_eq_div (q := (1 : ℚ) * (1)) (j := 52) (n := 4503599627370496) (by norm_num) (by norm_num) (by norm_num) (by norm_num)]; norm_num
  have e3 : round64 (1 + 1 : ℚ) = 2 := by
    rw [round64_eq_div (q := 1 + 1) (j := 51) (n := 4503599627370496) (by norm_num) (by norm_num) (by norm_num) (by norm_num)]; norm_num
  have e4 : sqrt64 (2 : ℚ) = 6369051672525773 / 4503599627370496 := by
    rw [sqrt64_eq_div (x := 2) (j := 52) (n := 6369051672525773) (by norm_num) (by norm_num) (by norm_num) (by norm_num) (by norm_num)]; norm_num
  have e5 : round64 ((1 : ℚ) * (6369051672525773 / 4503599627370496)) = 6369051672525773 / 4503599627370496 := by
    rw [round64_eq_div (q := (1 : ℚ) * (6369051672525773 / 4503599627370496)) (j := 52) (n := 6369051672525773) (by norm_num) (by norm_num) (by norm_num) (by norm_num)]; norm_num
  exact mathHypot_eval hhi hlo (by norm_num) e1 e2 e3 e4 e5

theorem hypot64_eval {dx dy : Int} {v : ℚ} (hx : |dx| < 2 ^ 53) (hy : |dy| < 2 ^ 53)
    (h : mathHypot (dx : ℚ) (dy : ℚ) = v) : hypot64 dx dy = v := by
  have h1 := abs_lt.1 hx
  have h2 := abs_lt.1 hy
  unfold hypot64
  rw [wrap64_of_range (by omega) (by omega), wrap64_of_range (by omega) (by omega),
    round64_int hx, round64_int hy, h]

theorem mathHypot_abs (p q : ℚ) : mathHypot |p| |q| = mathHypot p q := by
  unfold mathHypot
  simp only [abs_abs]

theorem wrap64_ne_zero {v : Int} (h : |v| < 2 ^ 64) (hv : v ≠ 0) : wrap64 v ≠ 0 := by
  have := abs_lt.1 h
  unfold wrap64
  omega

/-- The computed distance is zero only when both differences are zero. -/
theorem hypot64_pos {dx dy : Int} (hx : |dx| < 2 ^ 64) (hy : |dy| < 2 ^ 64)
    (h : dx ≠ 0 ∨ dy ≠ 0) : 0 < hypot64 dx dy := by
  unfold hypot64
  apply mathHypot_pos
  rcases h with h | h
  · exact Or.inl (round64_int_ne_zero (wrap64_ne_zero hx h))
  · exact Or.inr (round64_int_ne_zero (wrap64_ne_zero hy h))

theorem before_trichotomy (x y x0 y0 : Int) :
    Before x y x0 y0 ∨ (x = x0 ∧ y = y0) ∨ Before x0 y0 x y := by
  unfold Before; omega

/-- The scan marks the interior empty cell `(ex, ey)` when its computed
distance is above zero, at least that of every interior empty cell and
strictly above that of every interior empty cell scanned before it. -/
theorem placeExit64_picks (n : Nat) (hn : 1 ≤ n) (g : Grid) (hd : Dim n g) (px py ex ey : Int)
    (hx : 0 < ex ∧ ex < (n : Int) - 1) (hy : 0 < ey ∧ ey < (n : Int) - 1)
    (ho : g.read ey ex = some 0) (hpos : 0 < hypot64 (px - ex) (py - ey))
    (hle : ∀ x y, 0 < x → x < (n : Int) - 1 → 0 < y → y < (n : Int) - 1 →
      g.read y x = some 0 → hypot64 (px - x) (py - y) ≤ hypot64 (px - ex) (py - ey))
    (hlt : ∀ x y, 0 < x → x < (n : Int) - 1 → 0 < y → y < (n : Int) - 1 →
      g.read y x = some 0 → Before x y ex ey →
      hypot64 (px - x) (py - y) < hypot64 (px - ex) (py - ey)) :
    placeExit64 n g px py = g.write ey ex 2 := by
  obtain ⟨s, g1, hscan, hs, hw, hp⟩ := placeExit64_spec hn hd px py
  have hE := hs.le ex ey hx.1 hx.2 hy.1 hy.2 (by unfold Before; omega) ho
  rcases hs.sel with h | ⟨a1, a2, a3, a4, -, a6, a7, -, a9⟩
  · rw [h] at hE; simp only at hE; linarith
  · have hS := hle s.ex s.ey a1 a2 a3 a4 a6
    rcases before_trichotomy s.ex s.ey ex ey with hb | ⟨e1, e2⟩ | hb
    · have := hlt s.ex s.ey a1 a2 a3 a4 a6 hb
      rw [a7] at hE; linarith
    · rw [hp, ← hw, e1, e2]
    · have := a9 ex ey hx.1 hx.2 hy.1 hy.2 hb ho
      rw [a7] at this; linarith

/-- A read at indices that are not negative, in terms of the rows. -/
theorem grid_read_nat (g : Grid) (i j : Nat) :
    g.read (j : Int) (i : Int) = (g[j]?).bind (fun row => row[i]?) := by
  simp [Grid.read]

/-- C3 (amended). For every square grid whose cells are all empty or wall
and whose border cells are all walls, and every origin, `placeExit` returns
a grid in which exactly one cell is the exit, and the distance of that cell
from the origin, as `math.Hypot` computes it in binary64, is at least that
of every cell still empty. When the coordinates of the origin and the side
are at most `2^22` in size, the same holds of the exact Euclidean distance.
(The side need only be at least 1, and no interior empty cell is needed.) -/
theorem C3_exit_unique_farthest (n : Nat) (hn : 1 ≤ n) (g : Grid) (hd : Dim n g)
    (hbin : ∀ x y c, g.read y x = some c → c = 0 ∨ c = 1)
    (hborder : ∀ x y : Int, 0 ≤ x → x < n → 0 ≤ y → y < n →
      (x = 0 ∨ x = (n : Int) - 1 ∨ y = 0 ∨ y = (n : Int) - 1) → g.read y x = some 1)
    (px py : Int) :
    ∃ g1 ex ey, placeExit64 n g px py = some g1 ∧ g1.read ey ex = some 2 ∧
      (∀ x y, g1.read y x = some 2 → x = ex ∧ y = ey) ∧
      (∀ x y, g1.read y x = some 0 →
        hypot64 (px - x) (py - y) ≤ hypot64 (px - ex) (py - ey)) ∧
      (|px| ≤ 2 ^ 22 → |py| ≤ 2 ^ 22 → (n : Int) ≤ 2 ^ 22 →
        ∀ x y, g1.read y x = some 0 →
          Real.sqrt ((hypotSq (px - x) (py - y) : Int) : ℝ) ≤
            Real.sqrt ((hypotSq (px - ex) (py - ey) : Int) : ℝ)) := by
  obtain ⟨s, g1, -, hs, hw, hp⟩ := placeExit64_spec hn hd px py
  obtain ⟨-, hr⟩ := grid_write_spec hw
  have hsb : 0 ≤ s.ex ∧ s.ex < (n : Int) ∧ 0 ≤ s.ey ∧ s.ey < (n : Int) := by
    rcases hs.sel with h | ⟨a1, a2, a3, a4, -⟩
    · rw [h]; simp only; omega
    · omega
  have hopen : ∀ x y, g1.read y x = some 0 →
      (0 < x ∧ x < (n : Int) - 1 ∧ 0 < y ∧ y < (n : Int) - 1) ∧ g.read y x = some 0 := by
    intro x y h0
    rw [hr] at h0
    split at h0
    · simp at h0
    · have hb := grid_read_bounds hd h0
      refine ⟨?_, h0⟩
      by_contra hcon
      have := hborder x y hb.2.2.1 hb.2.2.2 hb.1 hb.2.1 (by omega)
      rw [this] at h0; simp at h0
  refine ⟨g1, s.ex, s.ey, hp, by rw [hr]; simp, ?_, ?_, ?_⟩
  · intro x y h2
    rw [hr] at h2
    split at h2
    · rename_i hh; exact ⟨hh.2, hh.1⟩
    · have := hbin _ _ _ h2; omega
  · intro x y h0
    obtain ⟨hin, h0'⟩ := hopen x y h0
    have hle := hs.le x y hin.1 hin.2.1 hin.2.2.1 hin.2.2.2 (by unfold Before; omega) h0'
    rcases hs.sel with h | ⟨-, -, -, -, -, -, a7, -⟩
    · rw [h] at hle ⊢
      exact le_trans hle (hypot64_nonneg _ _)
    · rw [← a7]; exact hle
  · intro hpx hpy hn22 x y h0
    obtain ⟨hin, h0'⟩ := hopen x y h0
    have hle := hs.le x y hin.1 hin.2.1 hin.2.2.1 hin.2.2.2 (by unfold Before; omega) h0'
    have bx := abs_le.1 hpx
    have bpy := abs_le.1 hpy
    have b1 : |px - x| ≤ 2 ^ 23 := abs_le.2 ⟨by omega, by omega⟩
    have b2 : |py - y| ≤ 2 ^ 23 := abs_le.2 ⟨by omega, by omega⟩
    have b3 : |px - s.ex| ≤ 2 ^ 23 := abs_le.2 ⟨by omega, by omega⟩
    have b4 : |py - s.ey| ≤ 2 ^ 23 := abs_le.2 ⟨by omega, by omega⟩
    apply Real.sqrt_le_sqrt
    have key : hypotSq (px - x) (py - y) ≤ hypotSq (px - s.ex) (py - s.ey) := by
      rcases hs.sel with h | ⟨-, -, -, -, -, -, a7, -⟩
      · rw [h] at hle
        simp only at hle
        have hz : ¬ (px - x ≠ 0 ∨ py - y ≠ 0) := by
          intro hne
          have := hypot64_pos (lt_of_le_of_lt b1 (by norm_num))
            (lt_of_le_of_lt b2 (by norm_num)) hne
          linarith
        have hx0 : px - x = 0 := by tauto
        have hy0 : py - y = 0 := by tauto
        rw [hx0, hy0]
        exact hypotSq_nonneg _ _
      · by_contra hcon
        have := hypot64_lt b3 b4 b1 b2 (not_le.1 hcon)
        rw [a7] at hle
        linarith
    exact_mod_cast key

/-- Instance of C3 on the 5 by 5 maze with five empty cells, origin `(1, 1)`. -/
theorem C3_exit_unique_farthest_witness :
    ∃ g1 ex ey, placeExit64 (5 : Nat)
        [[1, 1, 1, 1, 1], [1, 0, 0, 0, 1], [1, 0, 1, 0, 1], [1, 0, 1, 0, 1], [1, 1, 1, 1, 1]]
        1 1 = some g1 ∧
      g1.read ey ex = some 2 ∧ (∀ x y, g1.read y x = some 2 → x = ex ∧ y = ey) ∧
      (∀ x y, g1.read y x = some 0 →
        hypot64 (1 - x) (1 - y) ≤ hypot64 (1 - ex) (1 - ey)) ∧
      (∀ x y, g1.read y x = some 0 →
        Real.sqrt ((hypotSq (1 - x) (1 - y) : Int) : ℝ) ≤
          Real.sqrt ((hypotSq (1 - ex) (1 - ey) : Int) : ℝ)) := by
  have hd : Dim 5
      [[1, 1, 1, 1, 1], [1, 0, 0, 0, 1], [1, 0, 1, 0, 1], [1, 0, 1, 0, 1], [1, 1, 1, 1, 1]] := by
    simp [Dim]
  have key : ∀ j < 5, ∀ i < 5,
      (∀ c, (([[1, 1, 1, 1, 1], [1, 0, 0, 0, 1], [1, 0, 1, 0, 1], [1, 0, 1, 0, 1],
          [1, 1, 1, 1, 1]] : Grid)[j]?).bind (fun row => row[i]?) = some c → c = 0 ∨ c = 1) ∧
      ((i = 0 ∨ i = 4 ∨ j = 0 ∨ j = 4) →
        (([[1, 1, 1, 1, 1], [1, 0, 0, 0, 1], [1, 0, 1, 0, 1], [1, 0, 1, 0, 1],
          [1, 1, 1, 1, 1]] : Grid)[j]?).bind (fun row => row[i]?) = some 1) := by
    decide
  obtain ⟨g1, ex, ey, h1, h2, h3, h4, h5⟩ := C3_exit_unique_farthest 5 (by decide) _ hd
    (by
      intro x y c hc
      have hb := grid_read_bounds hd hc
      obtain ⟨i, rfl⟩ := Int.eq_ofNat_of_zero_le hb.2.2.1
      obtain ⟨j, rfl⟩ := Int.eq_ofNat_of_zero_le hb.1
      rw [grid_read_nat] at hc
      exact (key j (by omega) i (by omega)).1 c hc)
    (by
      intro x y h1 h2 h3 h4 hb
      obtain ⟨i, rfl⟩ := Int.eq_ofNat_of_zero_le h1
      obtain ⟨j, rfl⟩ := Int.eq_ofNat_of_zero_le h3
      rw [grid_read_nat]
      exact (key j (by omega) i (by omega)).2 (by omega)) 1 1
  exact ⟨g1, ex, ey, h1, h2, h3, h4, h5 (by norm_num) (by norm_num) (by norm_num)⟩

/-- C3 fails as stated. On the 5 by 5 map whose empty cells are `(1,1)` and
`(1,3)`, with the origin `(2^30, 1)`, both cells get the computed distance
`1073741823.0`: the scan marks `(1,1)`, the first of them, and leaves `(1,3)`
empty, whose Euclidean distance from the origin is strictly greater. -/
theorem C3_farther_cell_left_open :
    placeExit64 5
        [[1, 1, 1, 1, 1], [1, 0, 1, 1, 1], [1, 1, 1, 1, 1], [1, 0, 1, 1, 1], [1, 1, 1, 1, 1]]
        (2 ^ 30) 1 =
      some [[1, 1, 1, 1, 1], [1, 2, 1, 1, 1], [1, 1, 1, 1, 1], [1, 0, 1, 1, 1],
        [1, 1, 1, 1, 1]] ∧
    hypot64 (2 ^ 30 - 1) (1 - 1) = 1073741823 ∧ hypot64 (2 ^ 30 - 1) (1 - 3) = 1073741823 ∧
    Real.sqrt ((hypotSq (2 ^ 30 - 1) (1 - 1) : Int) : ℝ) <
      Real.sqrt ((hypotSq (2 ^ 30 - 1) (1 - 3) : Int) : ℝ) := by
  have hd : Dim 5
      [[1, 1, 1, 1, 1], [1, 0, 1, 1, 1], [1, 1, 1, 1, 1], [1, 0, 1, 1, 1], [1, 1, 1, 1, 1]] := by
    simp [Dim]
  have hv1 : hypot64 (2 ^ 30 - 1) (1 - 1) = 1073741823 :=
    hypot64_eval (by norm_num) (by norm_num) (by exact_mod_cast mathHypot_far_0)
  have hv2 : hypot64 (2 ^ 30 - 1) (1 - 3) = 1073741823 :=
    hypot64_eval (by norm_num) (by norm_num) (by exact_mod_cast mathHypot_far_2)
  have key : ∀ j < 5, ∀ i < 5,
      (([[1, 1, 1, 1, 1], [1, 0, 1, 1, 1], [1, 1, 1, 1, 1], [1, 0, 1, 1, 1],
          [1, 1, 1, 1, 1]] : Grid)[j]?).bind (fun row => row[i]?) = some 0 →
        i = 1 ∧ (j = 1 ∨ j = 3) := by
    decide
  refine ⟨?_, hv1, hv2, ?_⟩
  · have hp := placeExit64_picks 5 (by decide) [[1, 1, 1, 1, 1], [1, 0, 1, 1, 1],
      [1, 1, 1, 1, 1], [1, 0, 1, 1, 1], [1, 1, 1, 1, 1]] hd (2 ^ 30) 1 1 1
      (by decide) (by decide) (by decide) (by rw [hv1]; norm_num) ?_ ?_
    · simp only [Nat.cast_ofNat] at hp
      rw [hp]
      decide
    · intro x y h1 h2 h3 h4 ho
      obtain ⟨i, rfl⟩ := Int.eq_ofNat_of_zero_le (le_of_lt h1)
      obtain ⟨j, rfl⟩ := Int.eq_ofNat_of_zero_le (le_of_lt h3)
      rw [grid_read_nat] at ho
      obtain ⟨e1, e2⟩ := key j (by omega) i (by omega) ho
      subst e1
      rcases e2 with e2 | e2
      · subst e2; exact le_refl _
      · subst e2
        rw [hv1]
        exact le_of_eq hv2
    · intro x y h1 h2 h3 h4 ho hb
      unfold Before at hb
      omega
  · apply Real.sqrt_lt_sqrt
    · exact_mod_cast hypotSq_nonneg _ _
    · norm_num [hypotSq]


/-- C13 (amended). Tie-break of `placeExit`: on every grid in which some
interior empty cell lies at a distance above zero from the origin (an
`int` of 64 bits), `placeExit` turns into the exit an interior empty cell
whose distance from the origin, as `math.Hypot` computes it in binary64, is
at least that of every interior empty cell, and strictly above that of every
interior empty cell scanned before it (rows `y` ascending, within a row `x`
ascending); no other cell changes. -/
theorem C13_exit_first_farthest (n : Nat) (g : Grid) (hd : Dim n g) (px py x0 y0 : Int)
    (hpx : -2 ^ 63 ≤ px ∧ px < 2 ^ 63) (hpy : -2 ^ 63 ≤ py ∧ py < 2 ^ 63)
    (hn : (n : Int) < 2 ^ 63)
    (hx0 : 0 < x0 ∧ x0 < (n : Int) - 1) (hy0 : 0 < y0 ∧ y0 < (n : Int) - 1)
    (ho : g.read y0 x0 = some 0) (hne : ¬ (x0 = px ∧ y0 = py)) :
    ∃ g1 ex ey, placeExit64 n g px py = some g1 ∧
      (0 < ex ∧ ex < (n : Int) - 1 ∧ 0 < ey ∧ ey < (n : Int) - 1) ∧
      g.read ey ex = some 0 ∧ g1.read ey ex = some 2 ∧
      (∀ x y, ¬ (x = ex ∧ y = ey) → g1.read y x = g.read y x) ∧
      (∀ x y, 0 < x → x < (n : Int) - 1 → 0 < y → y < (n : Int) - 1 → g.read y x = some 0 →
        hypot64 (px - x) (py - y) ≤ hypot64 (px - ex) (py - ey)) ∧
      (∀ x y, 0 < x → x < (n : Int) - 1 → 0 < y → y < (n : Int) - 1 → g.read y x = some 0 →
        Before x y ex ey → hypot64 (px - x) (py - y) < hypot64 (px - ex) (py - ey)) := by
  obtain ⟨s, g1, -, hs, hw, hp⟩ := placeExit64_spec (by omega) hd px py
  obtain ⟨-, hr⟩ := grid_write_spec hw
  have hpos : 0 < hypot64 (px - x0) (py - y0) := by
    apply hypot64_pos (abs_lt.2 ⟨by omega, by omega⟩) (abs_lt.2 ⟨by omega, by omega⟩)
    omega
  have hle0 := hs.le x0 y0 hx0.1 hx0.2 hy0.1 hy0.2 (by unfold Before; omega) ho
  rcases hs.sel with h | ⟨a1, a2, a3, a4, -, a6, a7, -, a9⟩
  · rw [h] at hle0; simp only at hle0; linarith
  · refine ⟨g1, s.ex, s.ey, hp, ⟨a1, a2, a3, a4⟩, a6, by rw [hr]; simp, ?_, ?_, ?_⟩
    · intro x y hne1
      rw [hr, if_neg (fun h => hne1 ⟨h.2, h.1⟩)]
    · intro x y h1 h2 h3 h4 h5
      rw [← a7]
      exact hs.le x y h1 h2 h3 h4 (by unfold Before; omega) h5
    · intro x y h1 h2 h3 h4 h5 hb
      rw [← a7]
      exact a9 x y h1 h2 h3 h4 hb h5

/-- Instance of C13: on the 5 by 5 map whose empty cells are the four
diagonal neighbours of the origin `(2, 2)`, all at the same computed
distance, the first of them in scan order, `(1,1)`, becomes the exit. -/
theorem C13_exit_first_farthest_witness :
    placeExit64 (5 : Nat)
        [[1, 1, 1, 1, 1], [1, 0, 1, 0, 1], [1, 1, 1, 1, 1], [1, 0, 1, 0, 1], [1, 1, 1, 1, 1]]
        2 2 =
      some [[1, 1, 1, 1, 1], [1, 2, 1, 0, 1], [1, 1, 1, 1, 1], [1, 0, 1, 0, 1],
        [1, 1, 1, 1, 1]] ∧
    hypot64 (2 - 1) (2 - 1) = hypot64 (2 - 3) (2 - 1) ∧
    hypot64 (2 - 1) (2 - 1) = hypot64 (2 - 1) (2 - 3) ∧
    hypot64 (2 - 1) (2 - 1) = hypot64 (2 - 3) (2 - 3) ∧
    ∃ g1 ex ey, placeExit64 (5 : Nat)
        [[1, 1, 1, 1, 1], [1, 0, 1, 0, 1], [1, 1, 1, 1, 1], [1, 0, 1, 0, 1], [1, 1, 1, 1, 1]]
        2 2 = some g1 ∧
      (0 < ex ∧ ex < ((5 : Nat) : Int) - 1 ∧ 0 < ey ∧ ey < ((5 : Nat) : Int) - 1) ∧
      Grid.read
        [[1, 1, 1, 1, 1], [1, 0, 1, 0, 1], [1, 1, 1, 1, 1], [1, 0, 1, 0, 1], [1, 1, 1, 1, 1]]
        ey ex = some 0 ∧
      g1.read ey ex = some 2 ∧
      (∀ x y, ¬ (x = ex ∧ y = ey) → g1.read y x = Grid.read
        [[1, 1, 1, 1, 1], [1, 0, 1, 0, 1], [1, 1, 1, 1, 1], [1, 0, 1, 0, 1], [1, 1, 1, 1, 1]]
        y x) ∧
      (∀ x y, 0 < x → x < ((5 : Nat) : Int) - 1 → 0 < y → y < ((5 : Nat) : Int) - 1 →
        Grid.read
          [[1, 1, 1, 1, 1], [1, 0, 1, 0, 1], [1, 1, 1, 1, 1], [1, 0, 1, 0, 1], [1, 1, 1, 1, 1]]
          y x = some 0 →
        hypot64 (2 - x) (2 - y) ≤ hypot64 (2 - ex) (2 - ey)) ∧
      (∀ x y, 0 < x → x < ((5 : Nat) : Int) - 1 → 0 < y → y < ((5 : Nat) : Int) - 1 →
        Grid.read
          [[1, 1, 1, 1, 1], [1, 0, 1, 0, 1], [1, 1, 1, 1, 1], [1, 0, 1, 0, 1], [1, 1, 1, 1, 1]]
          y x = some 0 →
        Before x y ex ey → hypot64 (2 - x) (2 - y) < hypot64 (2 - ex) (2 - ey)) := by
  have hd : Dim 5
      [[1, 1, 1, 1, 1], [1, 0, 1, 0, 1], [1, 1, 1, 1, 1], [1, 0, 1, 0, 1], [1, 1, 1, 1, 1]] := by
    simp [Dim]
  have hv : ∀ dx dy : Int, |dx| = 1 → |dy| = 1 →
      hypot64 dx dy = 6369051672525773 / 4503599627370496 := by
    intro dx dy h1 h2
    apply hypot64_eval (by rw [h1]; norm_num) (by rw [h2]; norm_num)
    rw [← mathHypot_abs]
    have e1 : |(dx : ℚ)| = 1 := by exact_mod_cast congrArg (fun z : Int => (z : ℚ)) h1
    have e2 : |(dy : ℚ)| = 1 := by exact_mod_cast congrArg (fun z : Int => (z : ℚ)) h2
    rw [e1, e2]
    exact mathHypot_1_1
  have hthm := C13_exit_first_farthest 5 _ hd 2 2 1 1 (by norm_num) (by norm_num)
    (by norm_num) (by decide) (by decide) (by decide) (by decide)
  obtain ⟨g1, ex, ey, h1, h2, h3, h4, h5, h6, h7⟩ := hthm
  have hex : ex = 1 ∧ ey = 1 := by
    obtain ⟨b1, b2, b3, b4⟩ := h2
    simp only [Nat.cast_ofNat] at b2 b4
    have c1 : ¬ Before 1 1 ex ey := by
      intro hb
      have := h7 1 1 (by decide) (by decide) (by decide) (by decide) (by decide) hb
      rw [hv _ _ (by norm_num) (by norm_num)] at this
      have hopen : (ex = 1 ∨ ex = 3) ∧ (ey = 1 ∨ ey = 3) := by
        interval_cases ex <;> interval_cases ey <;> simp [Grid.read] at h3 ⊢
      have := hv (2 - ex) (2 - ey) (by rcases hopen.1 with e | e <;> rw [e] <;> norm_num)
        (by rcases hopen.2 with e | e <;> rw [e] <;> norm_num)
      linarith
    unfold Before at c1
    omega
  obtain ⟨rfl, rfl⟩ := hex
  refine ⟨?_, ?_, ?_, ?_, g1, 1, 1, h1, h2, h3, h4, h5, h6, h7⟩
  · rw [h1]
    have hw : g1 =
        [[1, 1, 1, 1, 1], [1, 2, 1, 0, 1], [1, 1, 1, 1, 1], [1, 0, 1, 0, 1], [1, 1, 1, 1, 1]] := by
      have hp := placeExit64_picks 5 (by decide) [[1, 1, 1, 1, 1], [1, 0, 1, 0, 1],
        [1, 1, 1, 1, 1], [1, 0, 1, 0, 1], [1, 1, 1, 1, 1]] hd 2 2 1 1
        (by decide) (by decide) h3
        (by rw [hv _ _ (by norm_num) (by norm_num)]; norm_num) h6 (fun x y a b c d e f => h7 x y a b c d e f)
      rw [h1] at hp
      have : Grid.write
          [[1, 1, 1, 1, 1], [1, 0, 1, 0, 1], [1, 1, 1, 1, 1], [1, 0, 1, 0, 1], [1, 1, 1, 1, 1]]
          1 1 2 = some
          [[1, 1, 1, 1, 1], [1, 2, 1, 0, 1], [1, 1, 1, 1, 1], [1, 0, 1, 0, 1], [1, 1, 1, 1, 1]] := by
        decide
      rw [this] at hp
      exact Option.some.inj hp
    rw [hw]
  · rw [hv _ _ (by norm_num) (by norm_num), hv _ _ (by norm_num) (by norm_num)]
  · rw [hv _ _ (by norm_num) (by norm_num), hv _ _ (by norm_num) (by norm_num)]
  · rw [hv _ _ (by norm_num) (by norm_num), hv _ _ (by norm_num) (by norm_num)]

theorem open13 : ∀ j < 13, ∀ i < 13,
    (([[1, 1, 1, 1, 1, 1, 1, 1, 1, 1, 1, 1, 1],
       [1, 1, 1, 1, 1, 1, 1, 1, 1, 1, 1, 1, 1],
       [1, 1, 1, 1, 1, 1, 1, 1, 1, 1, 1, 1, 1],
       [1, 1, 1, 1, 1, 1, 1, 1, 1, 1, 1, 1, 1],
       [1, 1, 1, 1, 1, 1, 1, 1, 1, 1, 1, 1, 1],
       [1, 1, 1, 1, 1, 1, 1, 1, 1, 1, 1, 1, 1],
       [1, 1, 1, 1, 1, 1, 1, 1, 1, 1, 1, 1, 1],
       [1, 1, 1, 1, 1, 1, 1, 1, 1, 1, 1, 1, 1],
       [1, 1, 1, 1, 1, 1, 1, 0, 1, 1, 1, 1, 1],
       [1, 1, 1, 1, 1, 1, 1, 1, 1, 1, 1, 1, 1],
       [1, 1, 1, 0, 1, 1, 1, 1, 1, 1, 1, 1, 1],
       [1, 1, 1, 1, 1, 1, 1, 1, 1, 1, 1, 1, 1],
       [1, 1, 1, 1, 1, 1, 1, 1, 1, 1, 1, 1, 1]] : Grid)[j]?).bind (fun row => row[i]?) = some 0 →
    (i = 7 ∧ j = 8) ∨ (i = 3 ∧ j = 10) := by
  decide

/-- C13 fails as stated. On the 13 by 13 map whose empty cells are `(7,8)` and
`(3,10)`, with the origin `(1,1)`, both cells lie at the Euclidean distance
`sqrt 85`, and `(7,8)` comes first in scan order; but `math.Hypot(-6, -7)`
is `9.219544457292887` and `math.Hypot(-2, -9)` is `9.219544457292889`, so
the scan marks the later cell `(3,10)`. -/
theorem C13_later_cell_marked :
    placeExit64 13
      [[1, 1, 1, 1, 1, 1, 1, 1, 1, 1, 1, 1, 1],
       [1, 1, 1, 1, 1, 1, 1, 1, 1, 1, 1, 1, 1],
       [1, 1, 1, 1, 1, 1, 1, 1, 1, 1, 1, 1, 1],
       [1, 1, 1, 1, 1, 1, 1, 1, 1, 1, 1, 1, 1],
       [1, 1, 1, 1, 1, 1, 1, 1, 1, 1, 1, 1, 1],
       [1, 1, 1, 1, 1, 1, 1, 1, 1, 1, 1, 1, 1],
       [1, 1, 1, 1, 1, 1, 1, 1, 1, 1, 1, 1, 1],
       [1, 1, 1, 1, 1, 1, 1, 1, 1, 1, 1, 1, 1],
       [1, 1, 1, 1, 1, 1, 1, 0, 1, 1, 1, 1, 1],
       [1, 1, 1, 1, 1, 1, 1, 1, 1, 1, 1, 1, 1],
       [1, 1, 1, 0, 1, 1, 1, 1, 1, 1, 1, 1, 1],
       [1, 1, 1, 1, 1, 1, 1, 1, 1, 1, 1, 1, 1],
       [1, 1, 1, 1, 1, 1, 1, 1, 1, 1, 1, 1, 1]] 1 1 =
    some
      [[1, 1, 1, 1, 1, 1, 1, 1, 1, 1, 1, 1, 1],
       [1, 1, 1, 1, 1, 1, 1, 1, 1, 1, 1, 1, 1],
       [1, 1, 1, 1, 1, 1, 1, 1, 1, 1, 1, 1, 1],
       [1, 1, 1, 1, 1, 1, 1, 1, 1, 1, 1, 1, 1],
       [1, 1, 1, 1, 1, 1, 1, 1, 1, 1, 1, 1, 1],
       [1, 1, 1, 1, 1, 1, 1, 1, 1, 1, 1, 1, 1],
       [1, 1, 1, 1, 1, 1, 1, 1, 1, 1, 1, 1, 1],
       [1, 1, 1, 1, 1, 1, 1, 1, 1, 1, 1, 1, 1],
       [1, 1, 1, 1, 1, 1, 1, 0, 1, 1, 1, 1, 1],
       [1, 1, 1, 1, 1, 1, 1, 1, 1, 1, 1, 1, 1],
       [1, 1, 1, 2, 1, 1, 1, 1, 1, 1, 1, 1, 1],
       [1, 1, 1, 1, 1, 1, 1, 1, 1, 1, 1, 1, 1],
       [1, 1, 1, 1, 1, 1, 1, 1, 1, 1, 1, 1, 1]] ∧
    hypotSq (1 - 7) (1 - 8) = hypotSq (1 - 3) (1 - 10) ∧ Before 7 8 3 10 ∧
    hypot64 (1 - 7) (1 - 8) < hypot64 (1 - 3) (1 - 10) := by
  have hd : Dim 13
      [[1, 1, 1, 1, 1, 1, 1, 1, 1, 1, 1, 1, 1],
       [1, 1, 1, 1, 1, 1, 1, 1, 1, 1, 1, 1, 1],
       [1, 1, 1, 1, 1, 1, 1, 1, 1, 1, 1, 1, 1],
       [1, 1, 1, 1, 1, 1, 1, 1, 1, 1, 1, 1, 1],
       [1, 1, 1, 1, 1, 1, 1, 1, 1, 1, 1, 1, 1],
       [1, 1, 1, 1, 1, 1, 1, 1, 1, 1, 1, 1, 1],
       [1, 1, 1, 1, 1, 1, 1, 1, 1, 1, 1, 1, 1],
       [1, 1, 1, 1, 1, 1, 1, 1, 1, 1, 1, 1, 1],
       [1, 1, 1, 1, 1, 1, 1, 0, 1, 1, 1, 1, 1],
       [1, 1, 1, 1, 1, 1, 1, 1, 1, 1, 1, 1, 1],
       [1, 1, 1, 0, 1, 1, 1, 1, 1, 1, 1, 1, 1],
       [1, 1, 1, 1, 1, 1, 1, 1, 1, 1, 1, 1, 1],
       [1, 1, 1, 1, 1, 1, 1, 1, 1, 1, 1, 1, 1]] := by
    simp [Dim]
  have hv1 : hypot64 (1 - 7) (1 - 8) = 2595071061399373 / 281474976710656 :=
    hypot64_eval (by norm_num) (by norm_num) (by exact_mod_cast mathHypot_6_7)
  have hv2 : hypot64 (1 - 3) (1 - 10) = 5190142122798747 / 562949953421312 :=
    hypot64_eval (by norm_num) (by norm_num) (by exact_mod_cast mathHypot_2_9)
  have hcell : ∀ x y : Int, 0 < x → x < ((13 : Nat) : Int) - 1 → 0 < y →
      y < ((13 : Nat) : Int) - 1 → Grid.read
      [[1, 1, 1, 1, 1, 1, 1, 1, 1, 1, 1, 1, 1],
       [1, 1, 1, 1, 1, 1, 1, 1, 1, 1, 1, 1, 1],
       [1, 1, 1, 1, 1, 1, 1, 1, 1, 1, 1, 1, 1],
       [1, 1, 1, 1, 1, 1, 1, 1, 1, 1, 1, 1, 1],
       [1, 1, 1, 1, 1, 1, 1, 1, 1, 1, 1, 1, 1],
       [1, 1, 1, 1, 1, 1, 1, 1, 1, 1, 1, 1, 1],
       [1, 1, 1, 1, 1, 1, 1, 1, 1, 1, 1, 1, 1],
       [1, 1, 1, 1, 1, 1, 1, 1, 1, 1, 1, 1, 1],
       [1, 1, 1, 1, 1, 1, 1, 0, 1, 1, 1, 1, 1],
       [1, 1, 1, 1, 1, 1, 1, 1, 1, 1, 1, 1, 1],
       [1, 1, 1, 0, 1, 1, 1, 1, 1, 1, 1, 1, 1],
       [1, 1, 1, 1, 1, 1, 1, 1, 1, 1, 1, 1, 1],
       [1, 1, 1, 1, 1, 1, 1, 1, 1, 1, 1, 1, 1]] y x = some 0 → (x = 7 ∧ y = 8) ∨ (x = 3 ∧ y = 10) := by
    intro x y h1 h2 h3 h4 ho
    obtain ⟨i, rfl⟩ := Int.eq_ofNat_of_zero_le (le_of_lt h1)
    obtain ⟨j, rfl⟩ := Int.eq_ofNat_of_zero_le (le_of_lt h3)
    rw [grid_read_nat] at ho
    have := open13 j (by omega) i (by omega) ho
    omega
  refine ⟨?_, by decide, by unfold Before; omega, by rw [hv1, hv2]; norm_num⟩
  have hp := placeExit64_picks 13 (by decide)
      [[1, 1, 1, 1, 1, 1, 1, 1, 1, 1, 1, 1, 1],
       [1, 1, 1, 1, 1, 1, 1, 1, 1, 1, 1, 1, 1],
       [1, 1, 1, 1, 1, 1, 1, 1, 1, 1, 1, 1, 1],
       [1, 1, 1, 1, 1, 1, 1, 1, 1, 1, 1, 1, 1],
       [1, 1, 1, 1, 1, 1, 1, 1, 1, 1, 1, 1, 1],
       [1, 1, 1, 1, 1, 1, 1, 1, 1, 1, 1, 1, 1],
       [1, 1, 1, 1, 1, 1, 1, 1, 1, 1, 1, 1, 1],
       [1, 1, 1, 1, 1, 1, 1, 1, 1, 1, 1, 1, 1],
       [1, 1, 1, 1, 1, 1, 1, 0, 1, 1, 1, 1, 1],
       [1, 1, 1, 1, 1, 1, 1, 1, 1, 1, 1, 1, 1],
       [1, 1, 1, 0, 1, 1, 1, 1, 1, 1, 1, 1, 1],
       [1, 1, 1, 1, 1, 1, 1, 1, 1, 1, 1, 1, 1],
       [1, 1, 1, 1, 1, 1, 1, 1, 1, 1, 1, 1, 1]] hd 1 1 3 10
    (by decide) (by decide)
    (by decide) (by rw [hv2]; norm_num) ?_ ?_
  · simp only [Nat.cast_ofNat] at hp
    rw [hp]
    decide
  · intro x y h1 h2 h3 h4 ho
    rcases hcell x y h1 h2 h3 h4 ho with ⟨rfl, rfl⟩ | ⟨rfl, rfl⟩
    · rw [hv1, hv2]; norm_num
    · exact le_refl _
  · intro x y h1 h2 h3 h4 ho hb
    rcases hcell x y h1 h2 h3 h4 ho with ⟨rfl, rfl⟩ | ⟨rfl, rfl⟩
    · rw [hv1, hv2]; norm_num
    · unfold Before at hb; omega

/-- On a maze of odd side at least 5, `placeExit(1, 1)` is the assignment
`gameMap[n-2][n-2] = 2`. -/
theorem placeExit_writes_corner {n : Nat} (hn : 5 ≤ n) {g : Grid} (hg : GInv n g)
    (hcm : Complete n g) (hodd : n % 2 = 1) :
    placeExit n g 1 1 = g.write ((n : Int) - 2) ((n : Int) - 2) 2 := by
  obtain ⟨s, g1, -, hs, hw, hp⟩ := placeExit_spec (by omega) hg.dim 1 1
  have hco : g.read ((n : Int) - 2) ((n : Int) - 2) = some 0 :=
    hcm _ _ (by omega) (by omega) (by omega) (by omega) (by omega) (by omega)
  have hle := hs.le ((n : Int) - 2) ((n : Int) - 2) (by omega) (by omega) (by omega) (by omega)
    (by unfold Before; omega) hco
  have hpos : 0 < hypotSq (1 - ((n : Int) - 2)) (1 - ((n : Int) - 2)) := by
    unfold hypotSq
    have hN : (5 : Int) ≤ n := by exact_mod_cast hn
    nlinarith
  have hex : s.ex = (n : Int) - 2 ∧ s.ey = (n : Int) - 2 := by
    rcases hs.sel with h | ⟨a1, a2, a3, a4, -, -, a7, -⟩
    · rw [h] at hle; simp only at hle; omega
    · by_contra hcon
      have := corner_farthest hn ⟨a1, a2⟩ ⟨a3, a4⟩ (by omega)
      omega
  rw [hp, ← hw, hex.1, hex.2]

/-- On a maze of odd side from 5 to `2^22`, the scan with the distances in
binary64 and the scan with the exact distances mark the same cell from the
origin `(1,1)`, the far corner: the levels of the game are the same in both
models. -/
theorem placeExit64_corner {n : Nat} (hn : 5 ≤ n) (hn22 : (n : Int) ≤ 2 ^ 22) {g : Grid}
    (hg : GInv n g) (hcm : Complete n g) (hodd : n % 2 = 1) :
    placeExit64 n g 1 1 = placeExit n g 1 1 := by
  rw [placeExit_writes_corner hn hg hcm hodd]
  have hco : g.read ((n : Int) - 2) ((n : Int) - 2) = some 0 :=
    hcm _ _ (by omega) (by omega) (by omega) (by omega) (by omega) (by omega)
  have hb : ∀ x : Int, 0 < x → x < (n : Int) - 1 → |1 - x| ≤ 2 ^ 23 := by
    intro x h1 h2
    exact abs_le.2 ⟨by omega, by omega⟩
  have hc := hb ((n : Int) - 2) (by omega) (by omega)
  apply placeExit64_picks n (by omega) g hg.dim 1 1 ((n : Int) - 2) ((n : Int) - 2)
    ⟨by omega, by omega⟩ ⟨by omega, by omega⟩ hco
  · exact hypot64_pos (lt_of_le_of_lt hc (by norm_num)) (lt_of_le_of_lt hc (by norm_num))
      (Or.inl (by omega))
  · intro x y h1 h2 h3 h4 _
    by_cases hxy : x = (n : Int) - 2 ∧ y = (n : Int) - 2
    · rw [hxy.1, hxy.2]
    · exact le_of_lt (hypot64_lt (hb x h1 h2) (hb y h3 h4) hc hc
        (corner_farthest hn ⟨h1, h2⟩ ⟨h3, h4⟩ (by omega)))
  · intro x y h1 h2 h3 h4 _ hbf
    exact hypot64_lt (hb x h1 h2) (hb y h3 h4) hc hc
      (corner_farthest hn ⟨h1, h2⟩ ⟨h3, h4⟩ (by unfold Before at hbf; omega))

/-! ## The ray offsets of `Draw` in binary64 -/

/-- From a safe state every `Update` returns, given the fuel of the two
levels it may build: no lookup is out of range. -/
theorem update_total {K : Type} [LinearOrderedField K] [FloorRing K] {cos sin : K → K}
    (hcs : ∀ a, (-1 ≤ cos a ∧ cos a ≤ 1) ∧ (-1 ≤ sin a ∧ sin a ≤ 1)) {fuel : Nat}
    (rnd : Nat → Nat) (keys : Keys) {g : Game K} (hsafe : Safe g) (hf1 : 31 * 31 ≤ fuel)
    (hf2 : (nextSize g.currentSize).toNat * (nextSize g.currentSize).toNat ≤ fuel) :
    ∃ g1, Update cos sin fuel rnd keys g = some g1 := by
  obtain ⟨n, hn, hn5, hodd, hd⟩ := hsafe.size
  have hb := hsafe.border
  rw [hn] at hb
  unfold Update
  by_cases hfin : g.finished = true
  · rw [if_pos hfin]
    by_cases hr : keys.r = true
    · rw [if_pos hr]
      obtain ⟨m, hm⟩ := generateLevel_total (n := 31) (by decide) (by decide) 1 rnd hf1
      have hm' : generateLevel fuel 1 31 rnd = some m := by simpa using hm
      rw [hm']
      exact ⟨_, rfl⟩
    · rw [if_neg hr]
      exact ⟨_, rfl⟩
  · rw [if_neg hfin]
    obtain ⟨q, hq, -, -, -, c, hc, -⟩ := movePhase_safe hcs hd hb hsafe.speed hsafe.pos.1
      hsafe.pos.2 hsafe.cell keys
    rw [hq]
    simp only
    rw [hc]
    simp only
    by_cases hc2 : c = 2
    · rw [if_pos hc2]
      by_cases hl4 : g.level = 4
      · rw [if_pos hl4]
        exact ⟨_, rfl⟩
      · rw [if_neg hl4]
        obtain ⟨n1, hn1, hn15, hodd1⟩ := nextSize_odd (c := g.currentSize) (by omega)
        have hex : ∃ m, generateLevel fuel (g.level + 1) n1 rnd = some m :=
          generateLevel_total hn15 hodd1 (g.level + 1) rnd (by rw [hn1] at hf2; simpa using hf2)
        obtain ⟨m, hm⟩ := hex
        rw [hn1, hm]
        exact ⟨_, rfl⟩
    · rw [if_neg hc2]
      exact ⟨_, rfl⟩

/-- One `Update` with only `W` held, at angle 0: the player moves by `speed`
along `x` when the cell ahead is neither a wall nor the exit. -/
theorem update_forward {g : Game ℝ} (fuel : Nat) (rnd : Nat → Nat) (hf : g.finished = false)
    (ha : g.player.angle = 0) {c : Int}
    (hc : g.gameMap.read (goInt g.player.y) (goInt (g.player.x + g.player.speed)) = some c)
    (h1 : c ≠ 1) (h2 : c ≠ 2) :
    Update Real.cos Real.sin fuel rnd ⟨true, false, false, false, false⟩ g =
      some ⟨⟨g.player.x + g.player.speed, g.player.y, 0, g.player.speed⟩, g.level, false,
        g.currentSize, g.gameMap⟩ := by
  unfold Update movePhase tryMove
  simp [hf, ha, hc, h1, h2]

/-- One `Update` with only `W` held, at angle 0, onto the exit of a level
other than 4: the next level is built and the player is put at the spawn point. -/
theorem update_forward_exit {g : Game ℝ} {fuel : Nat} {rnd : Nat → Nat}
    (hf : g.finished = false) (ha : g.player.angle = 0)
    (hc : g.gameMap.read (goInt g.player.y) (goInt (g.player.x + g.player.speed)) = some 2)
    (hl : g.level ≠ 4) {m : Grid}
    (hm : generateLevel fuel (g.level + 1) (nextSize g.currentSize) rnd = some m) :
    Update Real.cos Real.sin fuel rnd ⟨true, false, false, false, false⟩ g =
      some ⟨⟨3 / 2, 3 / 2, 0, g.player.speed⟩, g.level + 1, false, nextSize g.currentSize, m⟩ := by
  unfold Update movePhase tryMove
  simp [hf, ha, hc, hl, hm]

/-- One `Update` with only `W` held, at angle 0, onto the exit of level 4:
the game is finished. -/
theorem update_forward_finish {g : Game ℝ} (fuel : Nat) (rnd : Nat → Nat)
    (hf : g.finished = false) (ha : g.player.angle = 0)
    (hc : g.gameMap.read (goInt g.player.y) (goInt (g.player.x + g.player.speed)) = some 2)
    (hl : g.level = 4) :
    Update Real.cos Real.sin fuel rnd ⟨true, false, false, false, false⟩ g =
      some ⟨⟨g.player.x + g.player.speed, g.player.y, 0, g.player.speed⟩, g.level, true,
        g.currentSize, g.gameMap⟩ := by
  unfold Update movePhase tryMove
  simp [hf, ha, hc, hl]

/-- One `Update` with `R` pressed in a finished game: level 1 is built anew. -/
theorem update_restart {g : Game ℝ} {fuel : Nat} {rnd : Nat → Nat} (keys : Keys)
    (hf : g.finished = true) (hr : keys.r = true) {m : Grid}
    (hm : generateLevel fuel 1 31 rnd = some m) :
    Update Real.cos Real.sin fuel rnd keys g =
      some ⟨⟨3 / 2, 3 / 2, 0, g.player.speed⟩, 1, false, 31, m⟩ := by
  unfold Update
  simp [hf, hr, hm]

/-- One `Update` with only `A` held: the player turns by 0.05 and stays. -/
theorem update_turn {g : Game ℝ} (fuel : Nat) (rnd : Nat → Nat) (hf : g.finished = false)
    {c : Int} (hc : g.gameMap.read (goInt g.player.y) (goInt g.player.x) = some c)
    (h2 : c ≠ 2) :
    Update Real.cos Real.sin fuel rnd ⟨false, false, true, false, false⟩ g =
      some ⟨⟨g.player.x, g.player.y, g.player.angle - 5 / 100, g.player.speed⟩, g.level, false,
        g.currentSize, g.gameMap⟩ := by
  unfold Update movePhase
  simp [hf, hc, h2]


/-- One `Update` with only `W` held, at angle 0, against a wall: nothing changes. -/
theorem update_blocked {g : Game ℝ} (fuel : Nat) (rnd : Nat → Nat) (hf : g.finished = false)
    (ha : g.player.angle = 0)
    (hc : g.gameMap.read (goInt g.player.y) (goInt (g.player.x + g.player.speed)) = some 1)
    {c : Int} (hc1 : g.gameMap.read (goInt g.player.y) (goInt g.player.x) = some c)
    (h2 : c ≠ 2) :
    Update Real.cos Real.sin fuel rnd ⟨true, false, false, false, false⟩ g =
      some ⟨g.player, g.level, false, g.currentSize, g.gameMap⟩ := by
  unfold Update movePhase tryMove
  simp [hf, ha, hc, hc1, h2]

/-- One step forward of 0.1 along row 1, at angle 0, inside the empty cells. -/
theorem step_forward (x x1 : ℝ) (hx : x1 = x + 1 / 10) (lv size : Int) (m : Grid)
    (hcell : m.read 1 (goInt x1) = some 0) (fuel : Nat) (rnd : Nat → Nat) :
    Update Real.cos Real.sin fuel rnd ⟨true, false, false, false, false⟩
        ⟨⟨x, 3 / 2, 0, 1 / 10⟩, lv, false, size, m⟩ =
      some ⟨⟨x1, 3 / 2, 0, 1 / 10⟩, lv, false, size, m⟩ := by
  subst hx
  have := update_forward (g := ⟨⟨x, 3 / 2, 0, 1 / 10⟩, lv, false, size, m⟩) fuel rnd rfl rfl
    (c := 0) (by simpa [goInt_three_halves] using hcell) (by decide) (by decide)
  simpa using this

/-- Four steps forward from the spawn point lead to `(1.9, 1.5)`, still in cell `(1,1)`. -/
theorem walk_to_edge (lv size : Int) (m : Grid) (h11 : m.read 1 1 = some 0) (fuel : Nat)
    (rnd : Nat → Nat) :
    Run Real.cos Real.sin ⟨⟨3 / 2, 3 / 2, 0, 1 / 10⟩, lv, false, size, m⟩
      ⟨⟨19 / 10, 3 / 2, 0, 1 / 10⟩, lv, false, size, m⟩ := by
  have g1 : goInt (8 / 5 : ℝ) = 1 := by apply goInt_eq <;> norm_num
  have g2 : goInt (17 / 10 : ℝ) = 1 := by apply goInt_eq <;> norm_num
  have g3 : goInt (9 / 5 : ℝ) = 1 := by apply goInt_eq <;> norm_num
  have g4 : goInt (19 / 10 : ℝ) = 1 := by apply goInt_eq <;> norm_num
  have s1 := step_forward (3 / 2) (8 / 5) (by norm_num) lv size m (by rw [g1]; exact h11)
    fuel rnd
  have s2 := step_forward (8 / 5) (17 / 10) (by norm_num) lv size m (by rw [g2]; exact h11)
    fuel rnd
  have s3 := step_forward (17 / 10) (9 / 5) (by norm_num) lv size m (by rw [g3]; exact h11)
    fuel rnd
  have s4 := step_forward (9 / 5) (19 / 10) (by norm_num) lv size m (by rw [g4]; exact h11)
    fuel rnd
  exact Run.step _ _ _ (Run.step _ _ _ (Run.step _ _ _ (Run.step _ _ _ (Run.refl _) s1) s2) s3)
    s4

theorem goInt_two : goInt (19 / 10 + 1 / 10 : ℝ) = 2 := by
  apply goInt_eq <;> norm_num

/-- From the spawn point of a level other than 4 whose cell `(1,1)` is empty
and whose cell `(2,1)` is the exit, five steps forward reach the exit and
build the next level. -/
theorem walk_level_up (lv size : Int) (m : Grid) (h11 : m.read 1 1 = some 0)
    (h12 : m.read 1 2 = some 2) (hl : lv ≠ 4) {fuel : Nat} {rnd : Nat → Nat} {m1 : Grid}
    (hm : generateLevel fuel (lv + 1) (nextSize size) rnd = some m1) :
    Run Real.cos Real.sin ⟨⟨3 / 2, 3 / 2, 0, 1 / 10⟩, lv, false, size, m⟩
      ⟨⟨3 / 2, 3 / 2, 0, 1 / 10⟩, lv + 1, false, nextSize size, m1⟩ := by
  have s5 := update_forward_exit (g := ⟨⟨19 / 10, 3 / 2, 0, 1 / 10⟩, lv, false, size, m⟩)
    rfl rfl
    (show m.read (goInt (3 / 2 : ℝ)) (goInt (19 / 10 + 1 / 10 : ℝ)) = some 2 by
      rw [goInt_three_halves, goInt_two]; exact h12) hl hm
  exact Run.step _ _ _ (walk_to_edge lv size m h11 fuel rnd) s5

/-- From the spawn point of level 4 whose cell `(1,1)` is empty and whose
cell `(2,1)` is the exit, five steps forward finish the game; a further
`Update` with all movement and turn keys changes nothing, and one with `R`
builds level 1 anew. -/
theorem walk_finish_restart (size : Int) (m : Grid) (h11 : m.read 1 1 = some 0)
    (h12 : m.read 1 2 = some 2) {fuel : Nat} {rnd : Nat → Nat} {m1 : Grid}
    (hm : generateLevel fuel 1 31 rnd = some m1) :
    Run Real.cos Real.sin ⟨⟨3 / 2, 3 / 2, 0, 1 / 10⟩, 4, false, size, m⟩
      ⟨⟨3 / 2, 3 / 2, 0, 1 / 10⟩, 1, false, 31, m1⟩ := by
  have s5 := update_forward_finish (g := ⟨⟨19 / 10, 3 / 2, 0, 1 / 10⟩, 4, false, size, m⟩)
    fuel rnd rfl rfl
    (show m.read (goInt (3 / 2 : ℝ)) (goInt (19 / 10 + 1 / 10 : ℝ)) = some 2 by
      rw [goInt_three_halves, goInt_two]; exact h12) rfl
  have s6 : Update Real.cos Real.sin fuel rnd ⟨true, true, true, true, false⟩
      ⟨⟨19 / 10 + 1 / 10, 3 / 2, 0, 1 / 10⟩, 4, true, size, m⟩ =
      some ⟨⟨19 / 10 + 1 / 10, 3 / 2, 0, 1 / 10⟩, 4, true, size, m⟩ := by
    unfold Update; simp
  have s7 := update_restart (g := ⟨⟨19 / 10 + 1 / 10, 3 / 2, 0, 1 / 10⟩, 4, true, size, m⟩)
    ⟨false, false, false, false, true⟩ rfl rfl hm
  exact Run.step _ _ _ (Run.step _ _ _ (Run.step _ _ _ (walk_to_edge 4 size m h11 fuel rnd) s5)
    s6) s7

/-- C17 fails as stated: a border of walls does not make the start cell
empty. On the 5 by 5 map of walls only (the map after the fill loop of
`generateMaze`), the player at `(1.5, 1.5)` stands in the wall `(1,1)`, and
stands there still after an `Update` with `W` held. -/
theorem C17_spawn_in_wall :
    wallGrid 5 = some [[1, 1, 1, 1, 1], [1, 1, 1, 1, 1], [1, 1, 1, 1, 1], [1, 1, 1, 1, 1], [1, 1, 1, 1, 1]] ∧
    Update Real.cos Real.sin 0 (fun _ => 0) ⟨true, false, false, false, false⟩
        ⟨⟨3 / 2, 3 / 2, 0, 1 / 10⟩, 1, false, 5, [[1, 1, 1, 1, 1], [1, 1, 1, 1, 1], [1, 1, 1, 1, 1], [1, 1, 1, 1, 1], [1, 1, 1, 1, 1]]⟩ =
      some ⟨⟨3 / 2, 3 / 2, 0, 1 / 10⟩, 1, false, 5, [[1, 1, 1, 1, 1], [1, 1, 1, 1, 1], [1, 1, 1, 1, 1], [1, 1, 1, 1, 1], [1, 1, 1, 1, 1]]⟩ ∧
    Grid.read [[1, 1, 1, 1, 1], [1, 1, 1, 1, 1], [1, 1, 1, 1, 1], [1, 1, 1, 1, 1], [1, 1, 1, 1, 1]] (goInt (3 / 2 : ℝ)) (goInt (3 / 2 : ℝ)) = some 1 := by
  have g1 : goInt (3 / 2 + 1 / 10 : ℝ) = 1 := by apply goInt_eq <;> norm_num
  refine ⟨by decide, ?_, ?_⟩
  · exact update_blocked (g := ⟨⟨3 / 2, 3 / 2, 0, 1 / 10⟩, 1, false, 5, _⟩) 0 (fun _ => 0) rfl rfl
      (show Grid.read _ (goInt (3 / 2 : ℝ)) (goInt (3 / 2 + 1 / 10 : ℝ)) = some 1 by
        rw [goInt_three_halves, g1]; rfl)
      (show Grid.read _ (goInt (3 / 2 : ℝ)) (goInt (3 / 2 : ℝ)) = some 1 by
        rw [goInt_three_halves]; rfl) (by decide)
  · rw [goInt_three_halves]; rfl

/-- C17 (amended). Collision invariant of `dream-maze.go`. On a map of odd
side at least 5 with a border of walls whose cell `(1,1)` is not a wall,
start at `(1.5, 1.5)` with speed 0.1, at any level and angle. In every
state reached by any sequence of `Update` steps (any keys, level-ups and
restarts included) the player's cell is not a wall, and for any keys both
lookups of the movement and the lookup of the exit check are in range. -/
theorem C17_player_never_in_wall (n : Nat) (hn : 5 ≤ n) (hodd : n % 2 = 1) (m0 : Grid)
    (hd : Dim n m0)
    (hborder : ∀ x y : Int, 0 ≤ x → x < n → 0 ≤ y → y < n →
      (x = 0 ∨ x = (n : Int) - 1 ∨ y = 0 ∨ y = (n : Int) - 1) → m0.read y x = some 1)
    (hstart : m0.read 1 1 ≠ some 1) (level : Int) (angle : ℝ) (fin : Bool) (g : Game ℝ)
    (hrun : Run Real.cos Real.sin ⟨⟨3 / 2, 3 / 2, angle, 1 / 10⟩, level, fin, n, m0⟩ g) :
    (∃ c, g.gameMap.read (goInt g.player.y) (goInt g.player.x) = some c ∧ c ≠ 1) ∧
    (∀ keys : Keys, ∃ p c, movePhase Real.cos Real.sin g.gameMap keys g.player = some p ∧
      g.gameMap.read (goInt p.y) (goInt p.x) = some c) := by
  obtain ⟨c0, hc0⟩ := grid_read_some_of_inb hd (y := 1) (x := 1) (by omega) (by omega)
    (by omega) (by omega)
  have h0 : Safe (⟨⟨3 / 2, 3 / 2, angle, 1 / 10⟩, level, fin, n, m0⟩ : Game ℝ) := by
    refine ⟨⟨n, rfl, hn, hodd, hd⟩, hborder, by norm_num, ⟨by norm_num, by norm_num⟩,
      ⟨c0, ?_, ?_⟩⟩
    · simp only [goInt_three_halves]; exact hc0
    · intro h; rw [h] at hc0; exact hstart hc0
  have hs := run_safe real_cos_sin_bounds h0 hrun
  obtain ⟨k, hk, hk5, hkodd, hdk⟩ := hs.size
  have hb := hs.border
  rw [hk] at hb
  refine ⟨hs.cell, ?_⟩
  intro keys
  obtain ⟨q, hq, -, -, -, c, hc, -⟩ := movePhase_safe real_cos_sin_bounds hdk hb hs.speed
    hs.pos.1 hs.pos.2 hs.cell keys
  exact ⟨q, c, hq, hc⟩

/-- Instance of C17 on the 5 by 5 map whose cell `(1,1)` is empty and whose
cell `(2,1)` is the exit. From level 1, five `Update` steps with `W` held
reach the exit and build level 2 of side 17. From level 4, the same five
steps finish the game, an `Update` with all movement keys changes nothing,
and an `Update` with `R` restarts at level 1 with side 31. -/
theorem C17_player_never_in_wall_witness :
    ∃ gA gB : Game ℝ,
      (Run Real.cos Real.sin
          ⟨⟨3 / 2, 3 / 2, 0, 1 / 10⟩, 1, false, ((5 : Nat) : Int), [[1, 1, 1, 1, 1], [1, 0, 2, 1, 1], [1, 1, 1, 1, 1], [1, 1, 1, 1, 1], [1, 1, 1, 1, 1]]⟩ gA ∧
        gA.level = 2 ∧ gA.currentSize = 17 ∧
        (∃ c, gA.gameMap.read (goInt gA.player.y) (goInt gA.player.x) = some c ∧ c ≠ 1) ∧
        (∀ keys : Keys, ∃ p c, movePhase Real.cos Real.sin gA.gameMap keys gA.player = some p ∧
          gA.gameMap.read (goInt p.y) (goInt p.x) = some c)) ∧
      (Run Real.cos Real.sin
          ⟨⟨3 / 2, 3 / 2, 0, 1 / 10⟩, 4, false, ((5 : Nat) : Int), [[1, 1, 1, 1, 1], [1, 0, 2, 1, 1], [1, 1, 1, 1, 1], [1, 1, 1, 1, 1], [1, 1, 1, 1, 1]]⟩ gB ∧
        gB.level = 1 ∧ gB.currentSize = 31 ∧ gB.finished = false ∧
        (∃ c, gB.gameMap.read (goInt gB.player.y) (goInt gB.player.x) = some c ∧ c ≠ 1) ∧
        (∀ keys : Keys, ∃ p c, movePhase Real.cos Real.sin gB.gameMap keys gB.player = some p ∧
          gB.gameMap.read (goInt p.y) (goInt p.x) = some c)) := by
  have hd : Dim 5 [[1, 1, 1, 1, 1], [1, 0, 2, 1, 1], [1, 1, 1, 1, 1], [1, 1, 1, 1, 1], [1, 1, 1, 1, 1]] := by simp [Dim]
  have key : ∀ j < 5, ∀ i < 5, (i = 0 ∨ i = 4 ∨ j = 0 ∨ j = 4) →
      (([[1, 1, 1, 1, 1], [1, 0, 2, 1, 1], [1, 1, 1, 1, 1], [1, 1, 1, 1, 1], [1, 1, 1, 1, 1]] : Grid)[j]?).bind (fun row => row[i]?) = some 1 := by
    decide
  have hborder : ∀ x y : Int, 0 ≤ x → x < ((5 : Nat) : Int) → 0 ≤ y → y < ((5 : Nat) : Int) →
      (x = 0 ∨ x = ((5 : Nat) : Int) - 1 ∨ y = 0 ∨ y = ((5 : Nat) : Int) - 1) →
      Grid.read [[1, 1, 1, 1, 1], [1, 0, 2, 1, 1], [1, 1, 1, 1, 1], [1, 1, 1, 1, 1], [1, 1, 1, 1, 1]] y x = some 1 := by
    intro x y h1 h2 h3 h4 hb
    obtain ⟨i, rfl⟩ := Int.eq_ofNat_of_zero_le h1
    obtain ⟨j, rfl⟩ := Int.eq_ofNat_of_zero_le h3
    rw [grid_read_nat]
    exact key j (by omega) i (by omega) (by omega)
  have hstart : Grid.read [[1, 1, 1, 1, 1], [1, 0, 2, 1, 1], [1, 1, 1, 1, 1], [1, 1, 1, 1, 1], [1, 1, 1, 1, 1]] 1 1 ≠ some 1 := by decide
  have e17 : nextSize ((5 : Nat) : Int) = ((17 : Nat) : Int) := by decide
  obtain ⟨mA, hmA⟩ := generateLevel_total (n := 17) (by decide) (by decide) (1 + 1)
    (fun k => 7 * k + 3) (show 17 * 17 ≤ 289 by decide)
  rw [← e17] at hmA
  obtain ⟨mB, hmB⟩ := generateLevel_total (n := 31) (by decide) (by decide) 1
    (fun k => 7 * k + 3) (show 31 * 31 ≤ 961 by decide)
  have hrunA := walk_level_up 1 ((5 : Nat) : Int) [[1, 1, 1, 1, 1], [1, 0, 2, 1, 1], [1, 1, 1, 1, 1], [1, 1, 1, 1, 1], [1, 1, 1, 1, 1]] (by decide) (by decide) (by decide) hmA
  have hrunB := walk_finish_restart ((5 : Nat) : Int) [[1, 1, 1, 1, 1], [1, 0, 2, 1, 1], [1, 1, 1, 1, 1], [1, 1, 1, 1, 1], [1, 1, 1, 1, 1]] (by decide) (by decide)
    (generateLevel_cast hmB)
  refine ⟨_, _, ⟨hrunA, by norm_num, by rw [e17]; norm_num, ?_⟩, ⟨hrunB, rfl, rfl, rfl, ?_⟩⟩
  · exact C17_player_never_in_wall 5 (by decide) (by decide) [[1, 1, 1, 1, 1], [1, 0, 2, 1, 1], [1, 1, 1, 1, 1], [1, 1, 1, 1, 1], [1, 1, 1, 1, 1]] hd hborder hstart 1 0
      false _ hrunA
  · exact C17_player_never_in_wall 5 (by decide) (by decide) [[1, 1, 1, 1, 1], [1, 0, 2, 1, 1], [1, 1, 1, 1, 1], [1, 1, 1, 1, 1], [1, 1, 1, 1, 1]] hd hborder hstart 4 0
      false _ hrunB


/-- C15. Reachable-state invariant of `dream-maze.go`: in every state
reached from the initial state (level 1, size 31, not finished, a fresh
level) by any sequence of `Update` steps, the level is in `1..4`, the size is
`31 + 12 (level - 1)`, odd and at least 3, the map is `currentSize` square,
and the level-up of a level other than 4 calls `generateMaze` with a level in
`1..4` and an odd size of at least 3. The invariant is inductive: the same
holds of every state reached from any state with a level in `1..4`, the
size `31 + 12 (level - 1)` and a `currentSize` square map. -/
theorem C15_reachable_level_size (g0 g : Game ℝ)
    (h0 : (∃ (fuel0 : Nat) (rnd0 : Nat → Nat), initGame fuel0 rnd0 = some g0) ∨
      (1 ≤ g0.level ∧ g0.level ≤ 4 ∧ g0.currentSize = 31 + 12 * (g0.level - 1) ∧
        Dim g0.currentSize.toNat g0.gameMap))
    (hrun : Run Real.cos Real.sin g0 g) :
    (1 ≤ g.level ∧ g.level ≤ 4) ∧ g.currentSize = 31 + 12 * (g.level - 1) ∧
    (g.currentSize % 2 = 1 ∧ 3 ≤ g.currentSize) ∧
    Dim g.currentSize.toNat g.gameMap ∧
    (g.level ≠ 4 → (1 ≤ g.level + 1 ∧ g.level + 1 ≤ 4) ∧
      nextSize g.currentSize = 31 + 12 * g.level ∧
      nextSize g.currentSize % 2 = 1 ∧ 3 ≤ nextSize g.currentSize) := by
  have hstart : 1 ≤ g0.level ∧ g0.level ≤ 4 ∧ g0.currentSize = 31 + 12 * (g0.level - 1) ∧
      Dim g0.currentSize.toNat g0.gameMap := by
    rcases h0 with ⟨fuel0, rnd0, h0⟩ | h0
    · unfold initGame at h0
      cases hgl : generateLevel fuel0 1 31 rnd0 with
      | none => simp [hgl] at h0
      | some m =>
        simp only [hgl, Option.some.injEq] at h0
        rw [← h0]
        have hgl' : generateLevel fuel0 1 ((31 : Nat) : Int) rnd0 = some m := by
          simpa using hgl
        have hdm := (generateLevel_some (n := 31) (by decide) (by decide) hgl').1
        exact ⟨by simp, by simp, by simp, by simpa using hdm⟩
    · exact h0
  have hinv : 1 ≤ g.level ∧ g.level ≤ 4 ∧ g.currentSize = 31 + 12 * (g.level - 1) ∧
      Dim g.currentSize.toNat g.gameMap := by
    induction hrun with
    | refl => exact hstart
    | step fuel rnd keys _ hu ih => exact update_level ih hu
  obtain ⟨hl1, hl4, hsz, hd⟩ := hinv
  refine ⟨⟨hl1, hl4⟩, hsz, by omega, hd, ?_⟩
  intro hl
  have hns : nextSize g.currentSize = 31 + 12 * g.level := by
    unfold nextSize
    simp only [tmod_two_eq_zero_iff]
    split <;> omega
  exact ⟨by omega, hns, by omega, by omega⟩

/-- Instance of C15. From the initial state made with the random sequence
`7k + 3`: an `Update` with `W` held, then one with `A` held. From the spawn
point of level 3 on the 55 by 55 map whose only cells that are not walls are
the empty cell `(1,1)` and the exit `(2,1)`: five steps forward reach the
exit and build level 4 of side 67. From the spawn point of level 4 on the
like map of side 67: five steps forward finish the game, an `Update` with
all movement keys changes nothing, and an `Update` with `R` restarts at
level 1 with side 31. -/
theorem C15_reachable_level_size_witness :
    ∃ g0 g1 g2 gA gB : Game ℝ,
      (initGame 961 (fun k => 7 * k + 3) = some g0 ∧
        Update Real.cos Real.sin 0 (fun _ => 0) ⟨true, false, false, false, false⟩ g0 = some g1 ∧
        Update Real.cos Real.sin 0 (fun _ => 0) ⟨false, false, true, false, false⟩ g1 = some g2 ∧
        g2.player.x = 8 / 5 ∧ g2.player.angle = 0 - 5 / 100 ∧
        (1 ≤ g2.level ∧ g2.level ≤ 4) ∧ g2.currentSize = 31 + 12 * (g2.level - 1) ∧
      (g2.currentSize % 2 = 1 ∧ 3 ≤ g2.currentSize) ∧
      Dim g2.currentSize.toNat g2.gameMap ∧
      (g2.level ≠ 4 → (1 ≤ g2.level + 1 ∧ g2.level + 1 ≤ 4) ∧
        nextSize g2.currentSize = 31 + 12 * g2.level ∧
        nextSize g2.currentSize % 2 = 1 ∧ 3 ≤ nextSize g2.currentSize)) ∧
      (Run Real.cos Real.sin ⟨⟨3 / 2, 3 / 2, 0, 1 / 10⟩, 3, false, 55,
          ((List.replicate 55 (List.replicate 55 (1 : Int))).set 1
          (((List.replicate 55 (1 : Int)).set 1 0).set 2 2))⟩ gA ∧
        gA.level = 4 ∧ gA.currentSize = 67 ∧
        (1 ≤ gA.level ∧ gA.level ≤ 4) ∧ gA.currentSize = 31 + 12 * (gA.level - 1) ∧
      (gA.currentSize % 2 = 1 ∧ 3 ≤ gA.currentSize) ∧
      Dim gA.currentSize.toNat gA.gameMap ∧
      (gA.level ≠ 4 → (1 ≤ gA.level + 1 ∧ gA.level + 1 ≤ 4) ∧
        nextSize gA.currentSize = 31 + 12 * gA.level ∧
        nextSize gA.currentSize % 2 = 1 ∧ 3 ≤ nextSize gA.currentSize)) ∧
      (Run Real.cos Real.sin ⟨⟨3 / 2, 3 / 2, 0, 1 / 10⟩, 4, false, 67,
          ((List.replicate 67 (List.replicate 67 (1 : Int))).set 1
          (((List.replicate 67 (1 : Int)).set 1 0).set 2 2))⟩ gB ∧
        gB.level = 1 ∧ gB.currentSize = 31 ∧ gB.finished = false ∧
        (1 ≤ gB.level ∧ gB.level ≤ 4) ∧ gB.currentSize = 31 + 12 * (gB.level - 1) ∧
      (gB.currentSize % 2 = 1 ∧ 3 ≤ gB.currentSize) ∧
      Dim gB.currentSize.toNat gB.gameMap ∧
      (gB.level ≠ 4 → (1 ≤ gB.level + 1 ∧ gB.level + 1 ≤ 4) ∧
        nextSize gB.currentSize = 31 + 12 * gB.level ∧
        nextSize gB.currentSize % 2 = 1 ∧ 3 ≤ nextSize gB.currentSize)) := by
  obtain ⟨m, hm⟩ := generateLevel_total (n := 31) (by decide) (by decide) 1
    (fun k => 7 * k + 3) (show 31 * 31 ≤ 961 by decide)
  have h11 := (generateLevel_some (n := 31) (by decide) (by decide) hm).2.1
  have h0 := initGame_eq (K := ℝ) (generateLevel_cast hm)
  have g8 : goInt (8 / 5 : ℝ) = 1 := by apply goInt_eq <;> norm_num
  have s1 := step_forward (3 / 2) (8 / 5) (by norm_num) 1 31 m (by rw [g8]; exact h11) 0
    (fun _ => 0)
  have s2 := update_turn (g := ⟨⟨8 / 5, 3 / 2, 0, 1 / 10⟩, 1, false, 31, m⟩) 0 (fun _ => 0) rfl
    (c := 0) (show m.read (goInt (3 / 2 : ℝ)) (goInt (8 / 5 : ℝ)) = some 0 by
      rw [goInt_three_halves, g8]; exact h11) (by decide)
  have e67 : nextSize 55 = ((67 : Nat) : Int) := by decide
  obtain ⟨mA, hmA⟩ := generateLevel_total (n := 67) (by decide) (by decide) (3 + 1)
    (fun k => 7 * k + 3) (show 67 * 67 ≤ 4489 by decide)
  rw [← e67] at hmA
  obtain ⟨mB, hmB⟩ := generateLevel_total (n := 31) (by decide) (by decide) 1
    (fun k => 7 * k + 3) (show 31 * 31 ≤ 961 by decide)
  have hrunA := walk_level_up 3 55
    ((List.replicate 55 (List.replicate 55 (1 : Int))).set 1
          (((List.replicate 55 (1 : Int)).set 1 0).set 2 2)) (by decide) (by decide) (by decide) hmA
  have hrunB := walk_finish_restart 67
    ((List.replicate 67 (List.replicate 67 (1 : Int))).set 1
          (((List.replicate 67 (1 : Int)).set 1 0).set 2 2)) (by decide) (by decide) (generateLevel_cast hmB)
  refine ⟨_, _, _, _, _, ⟨h0, s1, s2, rfl, rfl, ?_⟩, ⟨hrunA, by norm_num, by rw [e67]; norm_num, ?_⟩,
    ⟨hrunB, rfl, rfl, rfl, ?_⟩⟩
  · exact C15_reachable_level_size _ _ (Or.inl ⟨_, _, h0⟩)
      (Run.step _ _ _ (Run.step _ _ _ (Run.refl _) s1) s2)
  · exact C15_reachable_level_size _ _
      (Or.inr ⟨by decide, by decide, by decide, by show Dim 55 _; unfold Dim; decide⟩) hrunA
  · exact C15_reachable_level_size _ _
      (Or.inr ⟨by decide, by decide, by decide, by show Dim 67 _; unfold Dim; decide⟩) hrunB

end DreamMaze
